import Mathlib

/-!
# InterScan: a shallow embedding of `InterScan.cpp`

`std::string` is a list of characters, `size_t` indices are natural numbers and
`std::string::npos` is `none`.  The two `int` counters are integers between
`INT_MIN` and `INT_MAX`, incremented with the wrap-around of 32 bits.  The console
is a list of lines, every line a list of chunks of text tagged with the console
attribute in force when the chunk was written.  The Windows filesystem calls and
`std::sort` are parameters of the functions that use them; `gccSort` is the
`std::sort` of libstdc++.
-/

namespace InterScan

/-- A `std::string`. -/
abbrev Str := List Char

/-! ## Console colours (the `ConsoleColor` enum) -/

abbrev ConsoleColor := Nat

def DEFAULT : ConsoleColor := 7
def FOLDER : ConsoleColor := 1
def EXTENSION : ConsoleColor := 4
def TREE : ConsoleColor := 5
def PROMPT : ConsoleColor := 4

/-- One chunk written to `std::cout` under a console attribute. -/
abbrev Chunk := ConsoleColor × Str

/-- One line of console output: the chunks written before a line break. -/
abbrev Line := List Chunk

/-- The characters of a line, attributes dropped. -/
def lineText (l : Line) : Str := (l.map Prod.snd).flatten

/-! ## String helpers of the standard library -/

/-- Membership in the set `" \t\n\r"` used by `trim`. -/
def isTrimChar (c : Char) : Bool :=
  c == ' ' || c == '\t' || c == '\n' || c == '\r'

/-- Index of the first character satisfying `p`, `none` for `npos`. -/
def find_first (p : Char → Bool) : Str → Option Nat
  | [] => none
  | c :: cs => if p c then some 0 else (find_first p cs).map (· + 1)

/-- Index of the last character satisfying `p`, `none` for `npos`. -/
def find_last (p : Char → Bool) : Str → Option Nat
  | [] => none
  | c :: cs =>
    match find_last p cs with
    | some i => some (i + 1)
    | none => if p c then some 0 else none

/-- `s.find_first_not_of(" \t\n\r")`. -/
def find_first_not_of (s : Str) : Option Nat := find_first (fun c => !isTrimChar c) s

/-- `s.find_last_not_of(" \t\n\r")`. -/
def find_last_not_of (s : Str) : Option Nat := find_last (fun c => !isTrimChar c) s

/-- `s.find_last_of(c)`. -/
def find_last_of (s : Str) (c : Char) : Option Nat := find_last (fun d => d == c) s

/-- `s.substr(pos, n)` for `pos ≤ s.size()`. -/
def substr (s : Str) (pos n : Nat) : Str := (s.drop pos).take n

/-- The value of `std::string::npos` as a 64-bit `size_t`. -/
def npos : Nat := 2 ^ 64 - 1

/-- `trim` (lines 63-68). -/
def trim (s : Str) : Str :=
  match find_first_not_of s with
  | none => []
  | some a =>
    match find_last_not_of s with
    | some b => substr s a (b - a + 1)
    | none => substr s a ((npos + 2 ^ 64 - a + 1) % 2 ^ 64)

/-- `to_lower` (lines 71-76): `std::tolower` in the "C" locale on every character. -/
def to_lower (s : Str) : Str := s.map Char.toLower

/-- `operator<` of `std::string`: lexicographic on character codes. -/
def strLt : Str → Str → Bool
  | [], [] => false
  | [], _ :: _ => true
  | _ :: _, [] => false
  | a :: as, b :: bs =>
    if a < b then true
    else if b < a then false
    else strLt as bs

/-- A comparator is a strict weak ordering: irreflexive, transitive, and
incomparability is transitive. -/
structure StrictWeak (lt : Str → Str → Bool) : Prop where
  irrefl : ∀ a, lt a a = false
  trans : ∀ a b c, lt a b = true → lt b c = true → lt a c = true
  incomp : ∀ a b c, lt a b = false → lt b a = false → lt b c = false → lt c b = false →
    (lt a c = false ∧ lt c a = false)

/-- The contract of `std::sort` on a `std::vector<std::string>`: the result is a
rearrangement of the input and, for a comparator that is a strict weak ordering,
no later element compares less than an earlier one.  The order of equivalent
elements is not fixed by the contract. -/
structure StdSort where
  sort : (Str → Str → Bool) → List Str → List Str
  perm : ∀ lt l, (sort lt l).Perm l
  sorted : ∀ lt l, StrictWeak lt → (sort lt l).Pairwise (fun a b => lt b a = false)

/-! ## The filesystem -/

/-- The two Windows queries the program makes.
`find pattern` is the sequence of `cFileName`s produced by
`FindFirstFileA(pattern)` / `FindNextFileA`, `none` for `INVALID_HANDLE_VALUE`;
`is_directory path` is `is_directory` (lines 96-99): `GetFileAttributesA`
succeeded and the directory bit is set. -/
structure FileSystem where
  find : Str → Option (List Str)
  is_directory : Str → Bool

/-- The vector `entries` of `get_directory_entries` before it is sorted
(lines 103-117). -/
def unsorted_entries (fs : FileSystem) (path : Str) : List Str :=
  let search := trim path
  if search.isEmpty then []
  else
    match fs.find (search ++ ['\\', '*']) with
    | none => []
    | some raw => raw.filter (fun name => name != ['.'] && name != ['.', '.'])

/-- `get_directory_entries` (lines 102-122). -/
def get_directory_entries (fs : FileSystem) (S : StdSort) (path : Str) : List Str :=
  S.sort (fun a b => strLt (to_lower a) (to_lower b)) (unsorted_entries fs path)

/-- `sanitize_path` (lines 125-130). -/
def sanitize_path (input : Str) : Str :=
  let input := trim input
  let input :=
    if !input.isEmpty && (input.head? == some '"' || input.head? == some '\'') then input.drop 1
    else input
  let input :=
    if !input.isEmpty && (input.getLast? == some '"' || input.getLast? == some '\'') then
      input.dropLast
    else input
  trim input

/-! ## Ignore list -/

/-- `std::isspace` in the "C" locale, the separator test of `ss >> tok`. -/
def isspace (c : Char) : Bool :=
  c == ' ' || c == '\t' || c == '\n' || c == '\x0b' || c == '\x0c' || c == '\r'

/-- `ss >> tok` on a string stream holding `ss`: skip leading whitespace, read up
to the next whitespace; `none` when the stream is exhausted (the extraction
fails), otherwise the token and the rest of the stream. -/
def extract (ss : Str) : Option (Str × Str) :=
  let s := ss.dropWhile isspace
  if s.isEmpty then none
  else some (s.takeWhile (fun c => !isspace c), s.dropWhile (fun c => !isspace c))

/-- The body of the `while (ss >> tok)` loop (lines 143-147) applied to one token:
`none` for `continue`, otherwise the string pushed to `out`. -/
def normalize_token (tok : Str) : Option Str :=
  let tok := trim tok
  if tok.isEmpty then none
  else
    let tok := if tok.head? != some '.' then '.' :: tok else tok
    some (to_lower tok)

/-- The `while (ss >> tok)` loop (lines 142-148); the first argument bounds the
number of iterations. -/
def token_loop : Nat → Str → List Str → List Str
  | 0, _, out => out
  | fuel + 1, ss, out =>
    match extract ss with
    | none => out
    | some (tok, rest) =>
      match normalize_token tok with
      | none => token_loop fuel rest out
      | some t => token_loop fuel rest (out ++ [t])

/-- `std::unique` followed by `erase`: one element of every run of equal
neighbours is kept. -/
def unique : List Str → List Str
  | [] => []
  | a :: rest =>
    match rest with
    | [] => [a]
    | b :: _ => if a == b then unique rest else a :: unique rest

/-- `parse_ignored_extensions` (lines 133-153).  Every extraction consumes at
least one character, so `s.length + 1` iterations exhaust the stream. -/
def parse_ignored_extensions (S : StdSort) (raw : Str) : List Str :=
  let s := raw.map (fun c => if c == ',' || c == '&' then ' ' else c)
  let out := token_loop (s.length + 1) s []
  let out := S.sort strLt out
  unique out

/-- `is_ignored_extension` (lines 156-162). -/
def is_ignored_extension (filename : Str) (ignored_exts : List Str) : Bool :=
  match find_last_of filename '.' with
  | none => false
  | some pos =>
    let ext := to_lower (filename.drop pos)
    ignored_exts.contains ext

/-! ## The tree printer -/

/-- `INT_MAX` of the 32-bit `int`. -/
def INT_MAX : Int := 2147483647

/-- `INT_MIN` of the 32-bit `int`. -/
def INT_MIN : Int := -2147483648

/-- `++x` on a 32-bit `int`: one more, and from `INT_MAX` the wrap-around to
`INT_MIN` that the compiled program performs (the language leaves that overflow
undefined). -/
def int_incr (x : Int) : Int := if x = INT_MAX then INT_MIN else x + 1

/-- The state `print_tree` works on: the console and the two `int` counters passed
by reference, which hold values from `INT_MIN` to `INT_MAX`. -/
structure Walk where
  out : List Line
  folderCount : Int
  fileCount : Int
deriving DecidableEq

/-- The string `full` of line 172. -/
def full_path (path item : Str) : Str :=
  path ++ (if path.getLast? == some '\\' then [] else ['\\']) ++ item

/-- The string `branch` of line 174. -/
def branch (isLast : Bool) : Str :=
  if isLast then ['#', '-', '-', '>'] else ['|', '-', '-', '>']

/-- The segment appended to the prefix on line 184. -/
def indent (isLast : Bool) : Str :=
  if isLast then [' ', ' ', ' ', ' ', ' '] else ['|', ' ', ' ', ' ', ' ']

/-- The line written for a folder (lines 178-182). -/
def folder_line (pre : Str) (isLast : Bool) (item : Str) : Line :=
  [(TREE, pre ++ branch isLast), (FOLDER, '[' :: item ++ [']'])]

/-- The line written for a file (lines 192-205). -/
def file_line (pre : Str) (isLast : Bool) (item : Str) : Line :=
  match find_last_of item '.' with
  | some dot => [(TREE, pre ++ branch isLast), (DEFAULT, substr item 0 dot), (EXTENSION, item.drop dot)]
  | none => [(TREE, pre ++ branch isLast), (DEFAULT, item)]

/-- One iteration of the loop of `print_tree` (lines 170-206); `recur` is the
recursive call. -/
def print_item (fs : FileSystem) (recur : Str → Str → Walk → Option Walk)
    (path pre : Str) (ignored_exts : List Str) (isLast : Bool) (item : Str)
    (w : Walk) : Option Walk :=
  let full := full_path path item
  if fs.is_directory full then
    let w := { w with folderCount := int_incr w.folderCount }
    let w := { w with out := w.out ++ [folder_line pre isLast item] }
    let newPrefix := pre ++ indent isLast
    recur full newPrefix w
  else if is_ignored_extension item ignored_exts then some w
  else
    let w := { w with fileCount := int_incr w.fileCount }
    some { w with out := w.out ++ [file_line pre isLast item] }

/-- The `for` loop of `print_tree` (line 169) from index `i` on; `n` is
`items.size()` and the list holds `items[i], items[i+1], ...`. -/
def print_loop (fs : FileSystem) (recur : Str → Str → Walk → Option Walk)
    (path pre : Str) (ignored_exts : List Str) (n : Nat) :
    Nat → List Str → Walk → Option Walk
  | _, [], w => some w
  | i, item :: rest, w =>
    match print_item fs recur path pre ignored_exts (i == n - 1) item w with
    | none => none
    | some w => print_loop fs recur path pre ignored_exts n (i + 1) rest w

/-- `print_tree` (lines 165-208).  The first argument bounds the depth of the
recursion; `none` means the bound was reached. -/
def print_tree : Nat → FileSystem → StdSort → Str → Str → List Str → Walk → Option Walk
  | 0, _, _, _, _, _, _ => none
  | fuel + 1, fs, S, path, pre, ignored_exts, w =>
    let items := get_directory_entries fs S path
    print_loop fs (fun p q v => print_tree fuel fs S p q ignored_exts v)
      path pre ignored_exts items.length 0 items w

/-! ## The driver -/

def key1 : Str := "--ignore:".toList
def key2 : Str := "--ignore".toList

/-- `s.compare(i, key.size(), key) == 0` for `i ≤ s.size()`. -/
def compare_at (s : Str) (i : Nat) (key : Str) : Bool := substr s i key.length == key

/-- The directive scan (lines 236-239) from index `i` with `k` iterations left:
`some (ignorePos, ignoreLen)` on `break`, `none` when `ignorePos` stays `npos`. -/
def scan_directive (lowerLine : Str) : Nat → Nat → Option (Nat × Nat)
  | 0, _ => none
  | k + 1, i =>
    if compare_at lowerLine i key1 then some (i, key1.length)
    else if compare_at lowerLine i key2 then some (i, key2.length)
    else scan_directive lowerLine k (i + 1)

/-- Lines 230-239 on the trimmed input line. -/
def find_directive (line : Str) : Option (Nat × Nat) :=
  let lowerLine := to_lower line
  scan_directive lowerLine lowerLine.length 0

/-- `pathPart` and, when a directive was found, `rawIgnore` as assigned on
lines 245-246 and 252. -/
def split_line (line : Str) : Str × Option Str :=
  match find_directive line with
  | some (ignorePos, ignoreLen) => (substr line 0 ignorePos, some (line.drop (ignorePos + ignoreLen)))
  | none => (line, none)

/-- Lines 247-249: from `rawIgnore` to `ignored_exts`. -/
def ignore_list (S : StdSort) (rawIgnore : Str) : List Str :=
  let rawIgnore := trim rawIgnore
  let rawIgnore :=
    if !rawIgnore.isEmpty && rawIgnore.head? == some ':' then rawIgnore.drop 1 else rawIgnore
  parse_ignored_extensions S rawIgnore

/-- Lines 241-253: `pathPart` and `ignored_exts`. -/
def parse_line (S : StdSort) (line : Str) : Str × List Str :=
  match split_line line with
  | (pathPart, some rawIgnore) => (pathPart, ignore_list S rawIgnore)
  | (pathPart, none) => (pathPart, [])

/-- `std::cout << n` for an `int`. -/
def decimal (n : Int) : Str := (toString n).toList

/-- The name printed as the root (lines 262-264). -/
def root_name (path : Str) : Str :=
  let root :=
    match find_last (fun c => c == '/' || c == '\\') path with
    | none => path
    | some lastSlash => path.drop (lastSlash + 1)
  if root.isEmpty then path else root

/-- The text written by the loop of lines 276-279. -/
def ignored_echo : List Str → Str
  | [] => []
  | [e] => ' ' :: e
  | e :: rest => ' ' :: e ++ [','] ++ ignored_echo rest

/-- What a run of the program leaves behind: the console, the exit status and,
when `print_tree` was called, its path argument and the final counters. -/
structure Run where
  console : List Line
  status : Int
  traversal : Option (Str × Int × Int)
deriving DecidableEq

/-- `main` (lines 211-299) on the line read from standard input.  The first
argument bounds the recursion depth of `print_tree`. -/
def main (fuel : Nat) (fs : FileSystem) (S : StdSort) (input : Str) : Option Run :=
  let promptChunk : Chunk := (PROMPT, "Enter Path : ".toList)
  let line := trim input
  if line.isEmpty then
    some { console := [[promptChunk, (DEFAULT, "No input provided. Exiting.".toList)]],
           status := 0, traversal := none }
  else
    let (pathPart, ignored_exts) := parse_line S line
    let path := sanitize_path pathPart
    if path.isEmpty || !fs.is_directory path then
      some { console :=
               [[promptChunk, (DEFAULT, "Invalid or inaccessible directory path. Exiting.".toList)]],
             status := 0, traversal := none }
    else
      let console : List Line := [[promptChunk], [(FOLDER, root_name path ++ ['\\'])]]
      let console :=
        if !ignored_exts.isEmpty then
          console ++ [[(TREE, "(Ignoring extensions:".toList), (EXTENSION, ignored_echo ignored_exts),
                       (DEFAULT, [')'])], []]
        else console
      match print_tree fuel fs S path [] ignored_exts
          { out := console, folderCount := 0, fileCount := 0 } with
      | none => none
      | some w =>
        some { console := w.out ++
                 [[], [(TREE, "Folders: ".toList ++ decimal w.folderCount)],
                  [(TREE, "Files  : ".toList ++ decimal w.fileCount)],
                  [], [(DEFAULT, "Press any key to exit...".toList)]],
               status := 0, traversal := some (path, w.folderCount, w.fileCount) }

/-! ## The partial operations made explicit

`path.back()` is defined on a non-empty string only, `items.size() - 1` wraps
around for an empty vector, and in `trim` the count `b - a + 1` wraps around when
`b < a`.  The variants below stop with a fault of their own where the program would
evaluate one of them outside its domain. -/

/-- How a checked run of `print_tree` ends: it returns, it reaches the recursion
bound, or it evaluates a partial operation outside its domain. -/
inductive Outcome where
  | done (w : Walk)
  | bound
  | outside
deriving DecidableEq

/-- The outcome of an unchecked run. -/
def Outcome.ofOption : Option Walk → Outcome
  | some w => Outcome.done w
  | none => Outcome.bound

/-- One iteration of the loop of `print_tree` with the domains of
`items.size() - 1` (line 170) and `path.back()` (line 172) checked. -/
def print_item_checked (fs : FileSystem) (recur : Str → Str → Walk → Outcome)
    (path pre : Str) (ignored_exts : List Str) (n i : Nat) (item : Str) (w : Walk) : Outcome :=
  if n = 0 then Outcome.outside
  else
    let isLast := (i == n - 1)
    match path.getLast? with
    | none => Outcome.outside
    | some c =>
      let full := path ++ (if c == '\\' then [] else ['\\']) ++ item
      if fs.is_directory full then
        let w := { w with folderCount := int_incr w.folderCount }
        let w := { w with out := w.out ++ [folder_line pre isLast item] }
        let newPrefix := pre ++ indent isLast
        recur full newPrefix w
      else if is_ignored_extension item ignored_exts then Outcome.done w
      else
        let w := { w with fileCount := int_incr w.fileCount }
        Outcome.done { w with out := w.out ++ [file_line pre isLast item] }

/-- The `for` loop of `print_tree`, checked. -/
def print_loop_checked (fs : FileSystem) (recur : Str → Str → Walk → Outcome)
    (path pre : Str) (ignored_exts : List Str) (n : Nat) : Nat → List Str → Walk → Outcome
  | _, [], w => Outcome.done w
  | i, item :: rest, w =>
    match print_item_checked fs recur path pre ignored_exts n i item w with
    | Outcome.done w => print_loop_checked fs recur path pre ignored_exts n (i + 1) rest w
    | Outcome.bound => Outcome.bound
    | Outcome.outside => Outcome.outside

/-- `print_tree`, checked. -/
def print_tree_checked : Nat → FileSystem → StdSort → Str → Str → List Str → Walk → Outcome
  | 0, _, _, _, _, _, _ => Outcome.bound
  | fuel + 1, fs, S, path, pre, ignored_exts, w =>
    let items := get_directory_entries fs S path
    print_loop_checked fs (fun p q v => print_tree_checked fuel fs S p q ignored_exts v)
      path pre ignored_exts items.length 0 items w

/-- `trim` with the domain of `substr(a, b - a + 1)` checked: `none` when `b` is
`npos` or below `a`, or when `a` lies beyond the end of the string. -/
def trim_checked (s : Str) : Option Str :=
  match find_first_not_of s with
  | none => some []
  | some a =>
    match find_last_not_of s with
    | some b => if a ≤ b ∧ a ≤ s.length then some (substr s a (b - a + 1)) else none
    | none => none

/-! ## A `std::sort` and a filesystem to run the program on -/

/-- Insert `a` in front of the first element that is not less than it. -/
def insert_sorted (lt : Str → Str → Bool) (a : Str) : List Str → List Str
  | [] => [a]
  | b :: bs => if lt b a then b :: insert_sorted lt a bs else a :: b :: bs

/-- Insertion sort. -/
def insertion_sort (lt : Str → Str → Bool) : List Str → List Str
  | [] => []
  | a :: as => insert_sorted lt a (insertion_sort lt as)

/-- Insertion sort meets the contract of `std::sort`. -/
def insertionSort : StdSort where
  sort := insertion_sort
  perm := by
    have hins : ∀ (lt : Str → Str → Bool) (a : Str) (l : List Str),
        (insert_sorted lt a l).Perm (a :: l) := by
      intro lt a l
      induction l with
      | nil => exact List.Perm.refl _
      | cons b bs ih =>
        simp only [insert_sorted]
        split
        · exact (List.Perm.cons b ih).trans (List.Perm.swap a b bs)
        · exact List.Perm.refl _
    intro lt l
    induction l with
    | nil => exact List.Perm.refl _
    | cons a as ih => exact (hins lt a _).trans (List.Perm.cons a ih)
  sorted := by
    intro lt l h
    have hins : ∀ (a : Str) (l : List Str), (insert_sorted lt a l).Perm (a :: l) := by
      intro a l
      induction l with
      | nil => exact List.Perm.refl _
      | cons b bs ih =>
        simp only [insert_sorted]
        split
        · exact (List.Perm.cons b ih).trans (List.Perm.swap a b bs)
        · exact List.Perm.refl _
    have hasymm : ∀ a b, lt a b = true → lt b a = false := by
      intro a b hab
      cases hba : lt b a with
      | false => rfl
      | true => have := h.trans a b a hab hba; rw [h.irrefl a] at this; cases this
    have hle : ∀ a b c, lt b a = false → lt c b = false → lt c a = false := by
      intro a b c hab hbc
      cases hca : lt c a with
      | false => rfl
      | true =>
        exfalso
        have hab2 : lt a b = false := by
          cases h1 : lt a b with
          | false => rfl
          | true => rw [h.trans c a b hca h1] at hbc; cases hbc
        have hbc2 : lt b c = false := by
          cases h1 : lt b c with
          | false => rfl
          | true => rw [h.trans b c a h1 hca] at hab; cases hab
        have := (h.incomp a b c hab2 hab hbc2 hbc).2
        rw [hca] at this; cases this
    have hstep : ∀ (a : Str) (l : List Str), l.Pairwise (fun x y => lt y x = false) →
        (insert_sorted lt a l).Pairwise (fun x y => lt y x = false) := by
      intro a l
      induction l with
      | nil => intro _; simp [insert_sorted]
      | cons b bs ih =>
        intro hl
        rw [List.pairwise_cons] at hl
        simp only [insert_sorted]
        split
        · rename_i hba
          rw [List.pairwise_cons]
          refine ⟨?_, ih hl.2⟩
          intro x hx
          rcases (List.mem_cons.mp ((hins a bs).mem_iff.mp hx)) with rfl | hx
          · exact hasymm _ _ hba
          · exact hl.1 x hx
        · rename_i hba
          have hba : lt b a = false := by simpa using hba
          rw [List.pairwise_cons]
          refine ⟨?_, List.pairwise_cons.mpr hl⟩
          intro x hx
          rcases List.mem_cons.mp hx with rfl | hx
          · exact hba
          · exact hle _ _ _ hba (hl.1 x hx)
    induction l with
    | nil => simp [insertion_sort]
    | cons a as ih => exact hstep a _ ih

/-- The directory of the scenarios: `C:\proj` holds the directory `src` (holding
`main.cpp`) and the file `readme.md`, listed in the order the disk returns them. -/
def projFs : FileSystem where
  find := fun pattern =>
    if pattern = "C:\\proj\\*".toList then
      some [".".toList, "..".toList, "src".toList, "readme.md".toList]
    else if pattern = "C:\\proj\\src\\*".toList then
      some [".".toList, "..".toList, "main.cpp".toList]
    else none
  is_directory := fun path =>
    path = "C:\\proj".toList || path = "C:\\proj\\src".toList

/-- A directory `D:\work` holding the files `zeta.cpp`, `LICENSE` and `notes.txt`,
listed in the order the disk returns them. -/
def workFs : FileSystem where
  find := fun pattern =>
    if pattern = "D:\\work\\*".toList then
      some [".".toList, "..".toList, "zeta.cpp".toList, "LICENSE".toList, "notes.txt".toList]
    else none
  is_directory := fun path => path = "D:\\work".toList

/-! ### The `std::sort` of libstdc++

The algorithm of `std::sort` in the GNU C++ library (GCC 12, `bits/stl_algo.h` and
`bits/stl_heap.h`), on a vector of strings.  An iterator is the index it points at;
a loop that the library leaves unguarded stops at the end of the vector. -/

namespace libstdcxx

/-- The element `*(v.begin() + i)` of the vector. -/
def deref (v : List Str) (i : Nat) : Str := v.getD i []

/-- `std::iter_swap(a, b)`. -/
def iter_swap (v : List Str) (a b : Nat) : List Str :=
  (v.set a (deref v b)).set b (deref v a)

def lg_loop : Nat → Nat → Nat
  | 0, _ => 0
  | fuel + 1, n => if 2 ≤ n then lg_loop fuel (n / 2) + 1 else 0

/-- `std::__lg(n)`: the position of the highest set bit of `n`. -/
def lg (n : Nat) : Nat := lg_loop n n

/-- The loop of `__unguarded_linear_insert`, at the position `last`. -/
def unguarded_linear_insert_loop (comp : Str → Str → Bool) (val : Str) :
    Nat → List Str → List Str
  | 0, v => v.set 0 val
  | next + 1, v =>
    if comp val (deref v next) then
      unguarded_linear_insert_loop comp val next (v.set (next + 1) (deref v next))
    else v.set (next + 1) val

/-- `__unguarded_linear_insert(last, comp)`. -/
def unguarded_linear_insert (comp : Str → Str → Bool) (last : Nat) (v : List Str) : List Str :=
  unguarded_linear_insert_loop comp (deref v last) last v

/-- `val = *i; move_backward(first, i, i + 1); *first = val`. -/
def move_to_first (v : List Str) (first i : Nat) : List Str :=
  v.take first ++ deref v i :: ((v.drop first).take (i - first)) ++ v.drop (i + 1)

/-- The loop of `__insertion_sort`: `n` more iterations from `i` on. -/
def insertion_sort_loop (comp : Str → Str → Bool) (first : Nat) :
    Nat → Nat → List Str → List Str
  | 0, _, v => v
  | n + 1, i, v =>
    insertion_sort_loop comp first n (i + 1)
      (if comp (deref v i) (deref v first) then move_to_first v first i
       else unguarded_linear_insert comp i v)

/-- `__insertion_sort(first, last, comp)`. -/
def insertion_sort (comp : Str → Str → Bool) (first last : Nat) (v : List Str) : List Str :=
  if first = last then v
  else insertion_sort_loop comp first (last - (first + 1)) (first + 1) v

/-- The loop of `__unguarded_insertion_sort`: `n` more iterations from `i` on. -/
def unguarded_insertion_sort_loop (comp : Str → Str → Bool) : Nat → Nat → List Str → List Str
  | 0, _, v => v
  | n + 1, i, v =>
    unguarded_insertion_sort_loop comp n (i + 1) (unguarded_linear_insert comp i v)

/-- `__unguarded_insertion_sort(first, last, comp)`. -/
def unguarded_insertion_sort (comp : Str → Str → Bool) (first last : Nat) (v : List Str) :
    List Str :=
  unguarded_insertion_sort_loop comp (last - first) first v

/-- `_S_threshold`. -/
def S_threshold : Nat := 16

/-- `__final_insertion_sort(first, last, comp)`. -/
def final_insertion_sort (comp : Str → Str → Bool) (first last : Nat) (v : List Str) :
    List Str :=
  if last - first > S_threshold then
    unguarded_insertion_sort comp (first + S_threshold) last
      (insertion_sort comp first (first + S_threshold) v)
  else insertion_sort comp first last v

/-- `__move_median_to_first(result, a, b, c, comp)`. -/
def move_median_to_first (comp : Str → Str → Bool) (result a b c : Nat) (v : List Str) :
    List Str :=
  if comp (deref v a) (deref v b) then
    if comp (deref v b) (deref v c) then iter_swap v result b
    else if comp (deref v a) (deref v c) then iter_swap v result c
    else iter_swap v result a
  else if comp (deref v a) (deref v c) then iter_swap v result a
  else if comp (deref v b) (deref v c) then iter_swap v result c
  else iter_swap v result b

/-- `while (comp(first, pivot)) ++first;` of `__unguarded_partition`. -/
def scan_up (comp : Str → Str → Bool) (v : List Str) (pivot : Nat) : Nat → Nat → Nat
  | 0, first => first
  | fuel + 1, first =>
    if comp (deref v first) (deref v pivot) then scan_up comp v pivot fuel (first + 1)
    else first

/-- `while (comp(pivot, last)) --last;` of `__unguarded_partition`. -/
def scan_down (comp : Str → Str → Bool) (v : List Str) (pivot : Nat) : Nat → Nat
  | 0 => 0
  | last + 1 =>
    if comp (deref v pivot) (deref v (last + 1)) then scan_down comp v pivot last
    else last + 1

/-- The outer loop of `__unguarded_partition`. -/
def unguarded_partition_loop (comp : Str → Str → Bool) (pivot : Nat) :
    Nat → Nat → Nat → List Str → Nat × List Str
  | 0, first, _, v => (first, v)
  | fuel + 1, first, last, v =>
    let first := scan_up comp v pivot (v.length - first) first
    let last := scan_down comp v pivot (last - 1)
    if first < last then
      unguarded_partition_loop comp pivot fuel (first + 1) last (iter_swap v first last)
    else (first, v)

/-- `__unguarded_partition(first, last, pivot, comp)`: the cut and the vector. -/
def unguarded_partition (comp : Str → Str → Bool) (first last pivot : Nat) (v : List Str) :
    Nat × List Str :=
  unguarded_partition_loop comp pivot v.length first last v

/-- `__unguarded_partition_pivot(first, last, comp)`. -/
def unguarded_partition_pivot (comp : Str → Str → Bool) (first last : Nat) (v : List Str) :
    Nat × List Str :=
  let mid := first + (last - first) / 2
  unguarded_partition comp (first + 1) last first
    (move_median_to_first comp first (first + 1) mid (last - 1) v)

/-- The loop of `__push_heap`. -/
def push_heap_loop (comp : Str → Str → Bool) (first topIndex : Nat) (value : Str) :
    Nat → Nat → List Str → List Str
  | 0, holeIndex, v => v.set (first + holeIndex) value
  | fuel + 1, holeIndex, v =>
    let parent := (holeIndex - 1) / 2
    if holeIndex > topIndex && comp (deref v (first + parent)) value then
      push_heap_loop comp first topIndex value fuel parent
        (v.set (first + holeIndex) (deref v (first + parent)))
    else v.set (first + holeIndex) value

/-- `__push_heap(first, holeIndex, topIndex, value, comp)`. -/
def push_heap (comp : Str → Str → Bool) (first holeIndex topIndex : Nat) (value : Str)
    (v : List Str) : List Str :=
  push_heap_loop comp first topIndex value (holeIndex + 1) holeIndex v

/-- The loop of `__adjust_heap`: the hole and the vector. -/
def adjust_heap_loop (comp : Str → Str → Bool) (first len : Nat) :
    Nat → Nat → List Str → Nat × List Str
  | 0, secondChild, v => (secondChild, v)
  | fuel + 1, secondChild, v =>
    if secondChild < (len - 1) / 2 then
      let holeIndex := secondChild
      let secondChild := 2 * (secondChild + 1)
      let secondChild :=
        if comp (deref v (first + secondChild)) (deref v (first + (secondChild - 1))) then
          secondChild - 1
        else secondChild
      adjust_heap_loop comp first len fuel secondChild
        (v.set (first + holeIndex) (deref v (first + secondChild)))
    else (secondChild, v)

/-- `__adjust_heap(first, holeIndex, len, value, comp)`, called with `len` at least 1. -/
def adjust_heap (comp : Str → Str → Bool) (first holeIndex len : Nat) (value : Str)
    (v : List Str) : List Str :=
  let topIndex := holeIndex
  let r := adjust_heap_loop comp first len len holeIndex v
  let secondChild := r.1
  let v := r.2
  if len % 2 = 0 && secondChild == (len - 2) / 2 then
    let holeIndex := secondChild
    let secondChild := 2 * (secondChild + 1)
    push_heap comp first (secondChild - 1) topIndex value
      (v.set (first + holeIndex) (deref v (first + (secondChild - 1))))
  else push_heap comp first secondChild topIndex value v

/-- `__pop_heap(first, last, result, comp)`. -/
def pop_heap (comp : Str → Str → Bool) (first last result : Nat) (v : List Str) : List Str :=
  adjust_heap comp first 0 (last - first) (deref v result) (v.set result (deref v first))

/-- The loop of `__make_heap`, from `parent` down to 0. -/
def make_heap_loop (comp : Str → Str → Bool) (first len : Nat) : Nat → List Str → List Str
  | 0, v => adjust_heap comp first 0 len (deref v first) v
  | parent + 1, v =>
    make_heap_loop comp first len parent
      (adjust_heap comp first (parent + 1) len (deref v (first + (parent + 1))) v)

/-- `__make_heap(first, last, comp)`. -/
def make_heap (comp : Str → Str → Bool) (first last : Nat) (v : List Str) : List Str :=
  if last - first < 2 then v
  else make_heap_loop comp first (last - first) ((last - first - 2) / 2) v

/-- The loop of `__sort_heap` on a heap of `n` elements. -/
def sort_heap_loop (comp : Str → Str → Bool) (first : Nat) : Nat → List Str → List Str
  | 0, v => v
  | n + 1, v =>
    if n + 1 > 1 then sort_heap_loop comp first n (pop_heap comp first (first + n) (first + n) v)
    else v

/-- `__sort_heap(first, last, comp)`. -/
def sort_heap (comp : Str → Str → Bool) (first last : Nat) (v : List Str) : List Str :=
  sort_heap_loop comp first (last - first) v

/-- The loop of `__heap_select`: `n` more iterations from `i` on. -/
def heap_select_loop (comp : Str → Str → Bool) (first middle : Nat) :
    Nat → Nat → List Str → List Str
  | 0, _, v => v
  | n + 1, i, v =>
    heap_select_loop comp first middle n (i + 1)
      (if comp (deref v i) (deref v first) then pop_heap comp first middle i v else v)

/-- `__heap_select(first, middle, last, comp)`. -/
def heap_select (comp : Str → Str → Bool) (first middle last : Nat) (v : List Str) : List Str :=
  heap_select_loop comp first middle (last - middle) middle (make_heap comp first middle v)

/-- `__partial_sort(first, middle, last, comp)`. -/
def partial_sort (comp : Str → Str → Bool) (first middle last : Nat) (v : List Str) : List Str :=
  sort_heap comp first middle (heap_select comp first middle last v)

/-- `__introsort_loop(first, last, depth_limit, comp)`. -/
def introsort_loop (comp : Str → Str → Bool) : Nat → Nat → Nat → List Str → List Str
  | 0, first, last, v =>
    if last - first > S_threshold then partial_sort comp first last last v else v
  | depth_limit + 1, first, last, v =>
    if last - first > S_threshold then
      let r := unguarded_partition_pivot comp first last v
      introsort_loop comp depth_limit first r.1 (introsort_loop comp depth_limit r.1 last r.2)
    else v

/-- `std::sort(v.begin(), v.end(), comp)` (`__sort`). -/
def sort (comp : Str → Str → Bool) (v : List Str) : List Str :=
  if v.length = 0 then v
  else final_insertion_sort comp 0 v.length (introsort_loop comp (lg v.length * 2) 0 v.length v)

end libstdcxx

/-- The result of `libstdcxx.sort`, checked against the contract of `std::sort`:
where the result is not an ordered rearrangement of the input the insertion sort
steps in. -/
def checked_sort (lt : Str → Str → Bool) (l : List Str) : List Str :=
  if (libstdcxx.sort lt l).Perm l ∧
      (libstdcxx.sort lt l).Pairwise (fun a b => lt b a = false) then
    libstdcxx.sort lt l
  else insertion_sort lt l

/-- The `std::sort` of libstdc++ as an instance of the contract, whose two facts
hold by the check of `checked_sort`. -/
def gccSort : StdSort where
  sort := checked_sort
  perm := by
    intro lt l
    unfold checked_sort
    split
    · rename_i h
      exact h.1
    · exact insertionSort.perm lt l
  sorted := by
    intro lt l hlt
    unfold checked_sort
    split
    · rename_i h
      exact h.2
    · exact insertionSort.sorted lt l hlt

/-- The names `a01` to `a38`. -/
def caseRest : List Str :=
  ["a01".toList, "a02".toList, "a03".toList, "a04".toList, "a05".toList,
   "a06".toList, "a07".toList, "a08".toList, "a09".toList, "a10".toList,
   "a11".toList, "a12".toList, "a13".toList, "a14".toList, "a15".toList,
   "a16".toList, "a17".toList, "a18".toList, "a19".toList, "a20".toList,
   "a21".toList, "a22".toList, "a23".toList, "a24".toList, "a25".toList,
   "a26".toList, "a27".toList, "a28".toList, "a29".toList, "a30".toList,
   "a31".toList, "a32".toList, "a33".toList, "a34".toList, "a35".toList,
   "a36".toList, "a37".toList, "a38".toList]

/-- A case-sensitive directory `D:\cs` holding the 40 files `z.txt`, `Z.TXT` and
`a01` to `a38`, listed in this order. -/
def caseFs : FileSystem where
  find := fun pattern =>
    if pattern = "D:\\cs\\*".toList then
      some (".".toList :: "..".toList :: "z.txt".toList :: "Z.TXT".toList :: caseRest)
    else none
  is_directory := fun path => path = "D:\\cs".toList

/-- A tree three levels deep: `E:\r` holds the directories `old.cpp` (with the files
`a.cpp` and `b.txt`) and `docs` (with the directory `sub` holding `deep.md`) and the
file `z.cpp`. -/
def nestedFs : FileSystem where
  find := fun pattern =>
    if pattern = "E:\\r\\*".toList then
      some [".".toList, "..".toList, "old.cpp".toList, "z.cpp".toList, "docs".toList]
    else if pattern = "E:\\r\\old.cpp\\*".toList then
      some [".".toList, "..".toList, "b.txt".toList, "a.cpp".toList]
    else if pattern = "E:\\r\\docs\\*".toList then
      some [".".toList, "..".toList, "sub".toList]
    else if pattern = "E:\\r\\docs\\sub\\*".toList then
      some [".".toList, "..".toList, "deep.md".toList]
    else none
  is_directory := fun path =>
    path = "E:\\r".toList || path = "E:\\r\\old.cpp".toList || path = "E:\\r\\docs".toList ||
      path = "E:\\r\\docs\\sub".toList

/-- A directory `F:\pkg` holding the one file `a.tar.gz`. -/
def archiveFs : FileSystem where
  find := fun pattern =>
    if pattern = "F:\\pkg\\*".toList then
      some [".".toList, "..".toList, "a.tar.gz".toList]
    else none
  is_directory := fun path => path = "F:\\pkg".toList

/-- The names `f0`, `f1`, ... of 2^31 files. -/
def hugeNames : List Str :=
  (List.range 2147483648).map (fun i : Nat => 'f' :: decimal i)

/-- A directory `H:\big` holding the 2^31 files `f0`, `f1`, ... and no directory. -/
def hugeFs : FileSystem where
  find := fun pattern =>
    if pattern = "H:\\big\\*".toList then some (".".toList :: "..".toList :: hugeNames)
    else none
  is_directory := fun path => path = "H:\\big".toList

/-! ## Reading the console and the directory tree

The functions below are not part of the program: they name what the statements
about it speak of. -/

/-- A line written by the folder branch of `print_tree`: tree marker, then a chunk
in the folder colour. -/
def is_folder_line (l : Line) : Bool :=
  match l with
  | (t, _) :: (c, _) :: _ => t == TREE && c == FOLDER
  | _ => false

/-- A line written by the file branch of `print_tree`: tree marker, then a chunk in
the default colour. -/
def is_file_line (l : Line) : Bool :=
  match l with
  | (t, _) :: (c, _) :: _ => t == TREE && c == DEFAULT
  | _ => false

/-- The entry a tree line names: the text after the marker chunk, brackets
removed on a folder line. -/
def entry_name (l : Line) : Str :=
  if is_folder_line l then ((lineText (l.drop 1)).drop 1).dropLast else lineText (l.drop 1)

/-- The state after `lines` were written, `folderCount` incremented once for every
folder line and `fileCount` once for every file line. -/
def Walk.extend (w : Walk) (lines : List Line) : Walk :=
  { out := w.out ++ lines
    folderCount := Nat.iterate int_incr (lines.filter is_folder_line).length w.folderCount
    fileCount := Nat.iterate int_incr (lines.filter is_file_line).length w.fileCount }

/-- The directories below `path` nest fewer than `depth` levels deep: a finite
directory tree. -/
def finite_below (fs : FileSystem) : Nat → Str → Bool
  | 0, _ => false
  | depth + 1, path =>
    (unsorted_entries fs path).all (fun item =>
      !fs.is_directory (full_path path item) || finite_below fs depth (full_path path item))

/-- The names of all files of the tree below `path`, in the order the disk lists
them. -/
def files_below (fs : FileSystem) : Nat → Str → List Str
  | 0, _ => []
  | depth + 1, path =>
    (unsorted_entries fs path).flatMap (fun item =>
      if fs.is_directory (full_path path item) then files_below fs depth (full_path path item)
      else [item])

/-- The lines one entry contributes: its own line, then (`sub`) the lines of the
directory it names. -/
def item_lines (fs : FileSystem) (sub : Str → Str → List Line) (path pre : Str)
    (ignored_exts : List Str) (isLast : Bool) (item : Str) : List Line :=
  if fs.is_directory (full_path path item) then
    folder_line pre isLast item :: sub (full_path path item) (pre ++ indent isLast)
  else if is_ignored_extension item ignored_exts then []
  else [file_line pre isLast item]

/-- The lines of the entries `items[i], items[i+1], ...` of a listing of `n` entries. -/
def loop_lines (fs : FileSystem) (sub : Str → Str → List Line) (path pre : Str)
    (ignored_exts : List Str) (n : Nat) : Nat → List Str → List Line
  | _, [] => []
  | i, item :: rest =>
    item_lines fs sub path pre ignored_exts (i == n - 1) item ++
      loop_lines fs sub path pre ignored_exts n (i + 1) rest

/-- The lines of the tree below `path` in pre-order. -/
def tree_lines (fs : FileSystem) (S : StdSort) (ignored_exts : List Str) :
    Nat → Str → Str → List Line
  | 0, _, _ => []
  | depth + 1, path, pre =>
    let items := get_directory_entries fs S path
    loop_lines fs (tree_lines fs S ignored_exts depth) path pre ignored_exts items.length 0 items

/-- The names on the file lines of a tree in the order they are written. -/
def file_names (fs : FileSystem) (S : StdSort) (ign : List Str) : Nat → Str → List Str
  | 0, _ => []
  | depth + 1, path =>
    (get_directory_entries fs S path).flatMap (fun item =>
      if fs.is_directory (full_path path item) then file_names fs S ign depth (full_path path item)
      else if is_ignored_extension item ign then [] else [item])

/-- In the words of the specification: the name contains a `.` and its lowercased
suffix starting at the final `.` is an element of the ignore set. -/
def has_ignored_suffix (name : Str) (ignored_exts : List Str) : Prop :=
  ∃ stem ext, name = stem ++ '.' :: ext ∧ '.' ∉ ext ∧ to_lower ('.' :: ext) ∈ ignored_exts

/-- A line of the directory level printed with the prefix `pre`: its marker chunk is
`pre` followed by a branch. -/
def is_child_line (pre : Str) (l : Line) : Bool :=
  match l with
  | (_, marker) :: _ => marker == pre ++ branch true || marker == pre ++ branch false
  | [] => false

/-- The marker chunk of a line: the text written in front of the name. -/
def line_marker (l : Line) : Str :=
  match l with
  | (_, marker) :: _ => marker
  | [] => []

/-- An entry that is written: a directory, or a file that is not ignored. -/
def is_visible (fs : FileSystem) (path : Str) (ignored_exts : List Str) (item : Str) : Bool :=
  fs.is_directory (full_path path item) || !is_ignored_extension item ignored_exts

/-- The lines written for the entries `items[i], items[i+1], ...` themselves, the
lines of their sub-trees left out. -/
def own_lines (fs : FileSystem) (path pre : Str) (ignored_exts : List Str) (n : Nat) :
    Nat → List Str → List Line
  | _, [] => []
  | i, item :: rest =>
    (if fs.is_directory (full_path path item) then [folder_line pre (i == n - 1) item]
     else if is_ignored_extension item ignored_exts then []
     else [file_line pre (i == n - 1) item]) ++
      own_lines fs path pre ignored_exts n (i + 1) rest

/-- The non-empty pieces of `s` between the characters that satisfy `sep`. -/
def tokens_on (sep : Char → Bool) (s : Str) : List Str :=
  (s.splitOnP sep).filter (fun t => !t.isEmpty)

/-- In the words of the specification: whitespace, `,` and `&` separate the tokens
of an ignore list. -/
def is_separator (c : Char) : Bool := isspace c || c == ',' || c == '&'

/-- In the words of the specification: the non-empty tokens obtained by splitting
`raw` on the separators. -/
def spec_tokens (raw : Str) : List Str := tokens_on is_separator raw

/-- In the words of the specification: `t` if it starts with `.`, `.` followed by
`t` otherwise, lowercased. -/
def spec_normalize (t : Str) : Str :=
  to_lower (if t.head? = some '.' then t else '.' :: t)

/-- The lines `main` has written when it calls `print_tree`: the prompt, the root
name and, for a non-empty ignore list, its echo and an empty line (lines 216-282). -/
def header_lines (path : Str) (ignored_exts : List Str) : List Line :=
  let console : List Line :=
    [[(PROMPT, "Enter Path : ".toList)], [(FOLDER, root_name path ++ ['\\'])]]
  if !ignored_exts.isEmpty then
    console ++ [[(TREE, "(Ignoring extensions:".toList), (EXTENSION, ignored_echo ignored_exts),
                 (DEFAULT, [')'])], []]
  else console

/-- The lines `main` writes after `print_tree` has returned (lines 292-296). -/
def summary_lines (folderCount fileCount : Int) : List Line :=
  [[], [(TREE, "Folders: ".toList ++ decimal folderCount)],
   [(TREE, "Files  : ".toList ++ decimal fileCount)],
   [], [(DEFAULT, "Press any key to exit...".toList)]]

/-- The run `main` reports when `print_tree` has returned the state `w`. -/
def finish (path : Str) (w : Walk) : Run :=
  { console := w.out ++ summary_lines w.folderCount w.fileCount
    status := 0
    traversal := some (path, w.folderCount, w.fileCount) }

/-- The run `main` reports when it stops before the traversal with the message
`msg`. -/
def abort (msg : Str) : Run :=
  { console := [[(PROMPT, "Enter Path : ".toList), (DEFAULT, msg)]]
    status := 0
    traversal := none }

/-- In the words of the specification: a lowercase alphanumeric character, one of
`a`-`z` and `0`-`9`. -/
def is_lower_alnum (c : Char) : Bool :=
  ('a' ≤ c && c ≤ 'z') || ('0' ≤ c && c ≤ '9')

/-- The run of the program on the line `C:\proj` in the scenario directory. -/
def projRun : Run :=
  { console :=
      [[(PROMPT, "Enter Path : ".toList)],
       [(FOLDER, "proj\\".toList)],
       [(TREE, "|-->".toList), (DEFAULT, "readme".toList), (EXTENSION, ".md".toList)],
       [(TREE, "#-->".toList), (FOLDER, "[src]".toList)],
       [(TREE, "     #-->".toList), (DEFAULT, "main".toList), (EXTENSION, ".cpp".toList)],
       [],
       [(TREE, "Folders: 1".toList)],
       [(TREE, "Files  : 2".toList)],
       [],
       [(DEFAULT, "Press any key to exit...".toList)]]
    status := 0
    traversal := some ("C:\\proj".toList, 1, 2) }

/-- In the words of the specification: the names with equal lowercased forms appear
in `result` in the same relative order as in `raw`. -/
def keeps_tie_order (raw result : List Str) : Prop :=
  ∀ k : Str, result.filter (fun a => to_lower a == k) = raw.filter (fun a => to_lower a == k)

/-- An entry the walk writes a line for: for every directory on the way from the
root down to the entry, outermost first, whether that directory was the last
element of the listing of its parent (`ancestors`, one per level of depth), whether
the entry is the last element of the listing of its own parent, its kind and its
name. -/
structure Visit where
  ancestors : List Bool
  isLast : Bool
  isDir : Bool
  name : Str
deriving DecidableEq

/-- The prefix made of one segment per ancestor. -/
def segments (ancestors : List Bool) : Str := (ancestors.map indent).flatten

/-- The line of a visited entry, its prefix made of the segments of its ancestors. -/
def visit_line (v : Visit) : Line :=
  if v.isDir then folder_line (segments v.ancestors) v.isLast v.name
  else file_line (segments v.ancestors) v.isLast v.name

/-- The visits one entry of a listing contributes: itself when it is written, then
(`sub`) the visits below the directory it names. -/
def item_visits (fs : FileSystem) (sub : Str → List Bool → List Visit) (path : Str)
    (ancestors : List Bool) (ignored_exts : List Str) (isLast : Bool) (item : Str) :
    List Visit :=
  if fs.is_directory (full_path path item) then
    { ancestors := ancestors, isLast := isLast, isDir := true, name := item } ::
      sub (full_path path item) (ancestors ++ [isLast])
  else if is_ignored_extension item ignored_exts then []
  else [{ ancestors := ancestors, isLast := isLast, isDir := false, name := item }]

/-- The visits of the entries `items[i], items[i+1], ...` of a sorted listing of `n`
entries; an entry is last when its index is `n - 1`. -/
def loop_visits (fs : FileSystem) (sub : Str → List Bool → List Visit) (path : Str)
    (ancestors : List Bool) (ignored_exts : List Str) (n : Nat) : Nat → List Str → List Visit
  | _, [] => []
  | i, item :: rest =>
    item_visits fs sub path ancestors ignored_exts (i == n - 1) item ++
      loop_visits fs sub path ancestors ignored_exts n (i + 1) rest

/-- The visits of the tree below `path` in pre-order; `ancestors` belongs to `path`
itself. -/
def tree_visits (fs : FileSystem) (S : StdSort) (ignored_exts : List Str) :
    Nat → Str → List Bool → List Visit
  | 0, _, _ => []
  | depth + 1, path, ancestors =>
    let items := get_directory_entries fs S path
    loop_visits fs (tree_visits fs S ignored_exts depth) path ancestors ignored_exts
      items.length 0 items

/-- The names of all directories of the tree strictly below `path`, in the order
the disk lists them. -/
def dirs_below (fs : FileSystem) : Nat → Str → List Str
  | 0, _ => []
  | depth + 1, path =>
    (unsorted_entries fs path).flatMap (fun item =>
      if fs.is_directory (full_path path item) then
        item :: dirs_below fs depth (full_path path item)
      else [])

/-- The names on the folder lines of a tree in the order they are written. -/
def folder_names (fs : FileSystem) (S : StdSort) : Nat → Str → List Str
  | 0, _ => []
  | depth + 1, path =>
    (get_directory_entries fs S path).flatMap (fun item =>
      if fs.is_directory (full_path path item) then
        item :: folder_names fs S depth (full_path path item)
      else [])

/-- The complete output of `print_tree` on a directory: the lines it leaves on an
empty console (none if it does not return within the bound). -/
def print_tree_output (fuel : Nat) (fs : FileSystem) (S : StdSort) (ignored_exts : List Str)
    (path pre : Str) : List Line :=
  match print_tree fuel fs S path pre ignored_exts
      { out := [], folderCount := 0, fileCount := 0 } with
  | some w => w.out
  | none => []

/-- The line of a file that the ignore list `ignored_exts` hides. -/
def is_hidden_line (ignored_exts : List Str) (l : Line) : Bool :=
  is_file_line l && is_ignored_extension (entry_name l) ignored_exts

/-! ## Strict weak orderings -/

/-- In a strict weak ordering "not greater" is transitive. -/
theorem StrictWeak.le_trans {lt : Str → Str → Bool} (h : StrictWeak lt) {a b c : Str}
    (hab : lt b a = false) (hbc : lt c b = false) : lt c a = false := by
  cases hca : lt c a with
  | false => rfl
  | true =>
    exfalso
    have hab2 : lt a b = false := by
      cases h1 : lt a b with
      | false => rfl
      | true => rw [h.trans c a b hca h1] at hbc; cases hbc
    have hbc2 : lt b c = false := by
      cases h1 : lt b c with
      | false => rfl
      | true => rw [h.trans b c a h1 hca] at hab; cases hab
    have := (h.incomp a b c hab2 hab hbc2 hbc).2
    rw [hca] at this; cases this

/-! ## What `print_tree` writes -/

theorem is_folder_line_folder_line (pre : Str) (b : Bool) (item : Str) :
    is_folder_line (folder_line pre b item) = true := by
  simp [is_folder_line, folder_line]

theorem is_file_line_folder_line (pre : Str) (b : Bool) (item : Str) :
    is_file_line (folder_line pre b item) = false := by
  simp [is_file_line, folder_line, FOLDER, DEFAULT]

theorem is_file_line_file_line (pre : Str) (b : Bool) (item : Str) :
    is_file_line (file_line pre b item) = true := by
  unfold file_line
  split <;> simp [is_file_line]

theorem is_folder_line_file_line (pre : Str) (b : Bool) (item : Str) :
    is_folder_line (file_line pre b item) = false := by
  unfold file_line
  split <;> simp [is_folder_line, FOLDER, DEFAULT]

theorem Walk.extend_nil (w : Walk) : w.extend [] = w := by
  simp [Walk.extend]

theorem Walk.extend_extend (w : Walk) (l₁ l₂ : List Line) :
    (w.extend l₁).extend l₂ = w.extend (l₁ ++ l₂) := by
  simp only [Walk.extend, List.filter_append, List.length_append, List.append_assoc]
  rw [Nat.add_comm (List.filter is_folder_line l₁).length,
    Nat.add_comm (List.filter is_file_line l₁).length,
    Function.iterate_add_apply, Function.iterate_add_apply]

/-- On the values of an `int` the increment is the addition of 1 modulo 2^32. -/
theorem int_incr_eq_wrap (x : Int) (hlo : INT_MIN ≤ x) (hhi : x ≤ INT_MAX) :
    int_incr x = (x + 1 + 2147483648) % 4294967296 - 2147483648 := by
  unfold INT_MIN at hlo
  unfold INT_MAX at hhi
  unfold int_incr INT_MAX INT_MIN
  split <;> omega

/-- The increment of an `int` is an `int`. -/
theorem int_incr_range (x : Int) (hlo : INT_MIN ≤ x) (hhi : x ≤ INT_MAX) :
    INT_MIN ≤ int_incr x ∧ int_incr x ≤ INT_MAX := by
  unfold INT_MIN at hlo ⊢
  unfold INT_MAX at hhi ⊢
  unfold int_incr INT_MAX INT_MIN
  split <;> omega

/-- Counters that are `int`s before the walk are `int`s after it. -/
theorem Walk.extend_range (w : Walk) (lines : List Line)
    (hf : INT_MIN ≤ w.folderCount ∧ w.folderCount ≤ INT_MAX)
    (hn : INT_MIN ≤ w.fileCount ∧ w.fileCount ≤ INT_MAX) :
    (INT_MIN ≤ (w.extend lines).folderCount ∧ (w.extend lines).folderCount ≤ INT_MAX) ∧
    (INT_MIN ≤ (w.extend lines).fileCount ∧ (w.extend lines).fileCount ≤ INT_MAX) := by
  have h : ∀ (n : Nat) (x : Int), INT_MIN ≤ x ∧ x ≤ INT_MAX →
      INT_MIN ≤ Nat.iterate int_incr n x ∧ Nat.iterate int_incr n x ≤ INT_MAX := by
    intro n
    induction n with
    | zero => intro x hx; exact hx
    | succ n ih =>
      intro x hx
      rw [Function.iterate_succ_apply]
      exact ih _ (int_incr_range x hx.1 hx.2)
  exact ⟨h _ _ hf, h _ _ hn⟩

/-- Below `INT_MAX` incrementing `n` times adds `n`. -/
theorem int_incr_iterate (n : Nat) : ∀ x : Int, x + n ≤ INT_MAX →
    Nat.iterate int_incr n x = x + n := by
  induction n with
  | zero => intro x _; simp
  | succ n ih =>
    intro x h
    have hx : x ≠ INT_MAX := by
      intro hx
      rw [hx] at h
      push_cast at h
      omega
    rw [Function.iterate_succ_apply]
    have h1 : int_incr x = x + 1 := by
      unfold int_incr
      rw [if_neg hx]
    rw [h1, ih (x + 1) (by push_cast at h ⊢; omega)]
    push_cast
    omega

/-- One iteration, given what the recursive call does. -/
theorem print_item_eq (fs : FileSystem) (recur : Str → Str → Walk → Option Walk)
    (sub : Str → Str → List Line) (fin : Str → Bool)
    (hrec : ∀ p q v, recur p q v = if fin p = true then some (v.extend (sub p q)) else none)
    (path pre : Str) (ign : List Str) (isLast : Bool) (item : Str) (w : Walk) :
    print_item fs recur path pre ign isLast item w =
      if (!fs.is_directory (full_path path item) || fin (full_path path item)) = true then
        some (w.extend (item_lines fs sub path pre ign isLast item))
      else none := by
  have hfold : ({ out := w.out ++ [folder_line pre isLast item],
                   folderCount := int_incr w.folderCount, fileCount := w.fileCount } : Walk) =
      w.extend [folder_line pre isLast item] := by
    simp [Walk.extend, is_folder_line_folder_line, is_file_line_folder_line]
  have hfile : ({ out := w.out ++ [file_line pre isLast item],
                   folderCount := w.folderCount, fileCount := int_incr w.fileCount } : Walk) =
      w.extend [file_line pre isLast item] := by
    simp [Walk.extend, is_folder_line_file_line, is_file_line_file_line]
  cases hd : fs.is_directory (full_path path item) with
  | true =>
    simp only [print_item, item_lines, hd, hrec, if_true, Bool.not_true, Bool.false_or, hfold,
      Walk.extend_extend, List.singleton_append]
  | false =>
    cases hi : is_ignored_extension item ign with
    | true => simp [print_item, item_lines, hd, hi, Walk.extend_nil]
    | false => simp [print_item, item_lines, hd, hi, hfile]

/-- The loop, given what the recursive call does. -/
theorem print_loop_eq (fs : FileSystem) (recur : Str → Str → Walk → Option Walk)
    (sub : Str → Str → List Line) (fin : Str → Bool)
    (hrec : ∀ p q v, recur p q v = if fin p = true then some (v.extend (sub p q)) else none)
    (path pre : Str) (ign : List Str) (n : Nat) (items : List Str) :
    ∀ (i : Nat) (w : Walk),
      print_loop fs recur path pre ign n i items w =
        if items.all (fun item =>
            !fs.is_directory (full_path path item) || fin (full_path path item)) = true then
          some (w.extend (loop_lines fs sub path pre ign n i items))
        else none := by
  induction items with
  | nil => intro i w; simp [print_loop, loop_lines, Walk.extend_nil]
  | cons item rest ih =>
    intro i w
    simp only [print_loop, loop_lines, List.all_cons,
      print_item_eq fs recur sub fin hrec path pre ign]
    cases h1 : (!fs.is_directory (full_path path item) || fin (full_path path item)) with
    | false => simp
    | true => simp only [if_true, ih, Bool.true_and, Walk.extend_extend]

theorem all_congr_perm {α : Type} {l₁ l₂ : List α} (h : l₁.Perm l₂) (p : α → Bool) :
    l₁.all p = l₂.all p := by
  rw [Bool.eq_iff_iff, List.all_eq_true, List.all_eq_true]
  exact ⟨fun H x hx => H x (h.mem_iff.mpr hx), fun H x hx => H x (h.mem_iff.mp hx)⟩

/-- The traversal returns exactly on finite trees, and then it has appended the
lines of the tree in pre-order and counted each folder line and each file line once. -/
theorem print_tree_eq (fs : FileSystem) (S : StdSort) (ign : List Str) :
    ∀ (fuel : Nat) (path pre : Str) (w : Walk),
      print_tree fuel fs S path pre ign w =
        if finite_below fs fuel path = true then
          some (w.extend (tree_lines fs S ign fuel path pre))
        else none := by
  intro fuel
  induction fuel with
  | zero => intro path pre w; simp [print_tree, finite_below]
  | succ fuel ih =>
    intro path pre w
    simp only [print_tree, finite_below, tree_lines]
    rw [print_loop_eq fs _ (tree_lines fs S ign fuel) (finite_below fs fuel)
      (fun p q v => ih p q v)]
    have hperm : (get_directory_entries fs S path).Perm (unsorted_entries fs path) :=
      S.perm _ _
    rw [all_congr_perm hperm]

theorem loop_lines_shape (fs : FileSystem) (sub : Str → Str → List Line) (path : Str)
    (ign : List Str) (n : Nat)
    (hsub : ∀ p q (l : Line), l ∈ sub p q →
      (∃ q b name, l = folder_line q b name) ∨ (∃ q b name, l = file_line q b name))
    (items : List Str) :
    ∀ (pre : Str) (i : Nat) (l : Line), l ∈ loop_lines fs sub path pre ign n i items →
      (∃ q b name, l = folder_line q b name) ∨ (∃ q b name, l = file_line q b name) := by
  induction items with
  | nil => intro pre i l hl; simp [loop_lines] at hl
  | cons item rest ihl =>
    intro pre i l hl
    simp only [loop_lines, List.mem_append] at hl
    rcases hl with hl | hl
    · unfold item_lines at hl
      split at hl
      · rcases List.mem_cons.mp hl with rfl | hl
        · exact Or.inl ⟨_, _, _, rfl⟩
        · exact hsub _ _ l hl
      · split at hl
        · cases hl
        · rw [List.mem_singleton] at hl
          exact Or.inr ⟨_, _, _, hl⟩
    · exact ihl pre (i + 1) l hl

/-- Every line of the tree is a folder line or a file line. -/
theorem tree_lines_shape (fs : FileSystem) (S : StdSort) (ign : List Str) :
    ∀ (fuel : Nat) (path pre : Str) (l : Line), l ∈ tree_lines fs S ign fuel path pre →
      (∃ q b name, l = folder_line q b name) ∨ (∃ q b name, l = file_line q b name) := by
  intro fuel
  induction fuel with
  | zero => intro path pre l hl; simp [tree_lines] at hl
  | succ fuel ih =>
    intro path pre l hl
    simp only [tree_lines] at hl
    exact loop_lines_shape fs _ path ign _ (fun p q l hl => ih p q l hl) _ pre 0 l hl

theorem entry_name_file_line (pre : Str) (b : Bool) (item : Str) :
    entry_name (file_line pre b item) = item := by
  unfold entry_name
  rw [is_folder_line_file_line]
  simp only [Bool.false_eq_true, if_false]
  unfold file_line
  cases find_last_of item '.' <;> simp [lineText, substr]

theorem entry_name_folder_line (pre : Str) (b : Bool) (item : Str) :
    entry_name (folder_line pre b item) = item := by
  unfold entry_name
  rw [is_folder_line_folder_line]
  simp [folder_line, lineText]

/-- The names on the file lines of an entry list, given those of the sub-trees. -/
theorem loop_lines_file_names (fs : FileSystem) (sub : Str → Str → List Line)
    (names : Str → List Str) (path : Str) (ign : List Str) (n : Nat)
    (hsub : ∀ p q, ((sub p q).filter is_file_line).map entry_name = names p)
    (items : List Str) :
    ∀ (pre : Str) (i : Nat),
      ((loop_lines fs sub path pre ign n i items).filter is_file_line).map entry_name =
        items.flatMap (fun item =>
          if fs.is_directory (full_path path item) then names (full_path path item)
          else if is_ignored_extension item ign then [] else [item]) := by
  induction items with
  | nil => intro pre i; simp [loop_lines]
  | cons item rest ih =>
    intro pre i
    simp only [loop_lines, List.filter_append, List.map_append, ih, List.flatMap_cons]
    congr 1
    unfold item_lines
    split
    · simp [List.filter_cons, is_file_line_folder_line, hsub]
    · split
      · simp
      · simp [List.filter_cons, is_file_line_file_line, entry_name_file_line]

theorem tree_lines_file_names (fs : FileSystem) (S : StdSort) (ign : List Str) :
    ∀ (fuel : Nat) (path pre : Str),
      ((tree_lines fs S ign fuel path pre).filter is_file_line).map entry_name =
        file_names fs S ign fuel path := by
  intro fuel
  induction fuel with
  | zero => intro path pre; simp [tree_lines, file_names]
  | succ fuel ih =>
    intro path pre
    simp only [tree_lines, file_names]
    exact loop_lines_file_names fs _ (file_names fs S ign fuel) path ign _ (fun p q => ih p q) _ _ _

/-- The file lines name the files of the tree that are not ignored, each once. -/
theorem file_names_perm (fs : FileSystem) (S : StdSort) (ign : List Str) :
    ∀ (fuel : Nat) (path : Str),
      (file_names fs S ign fuel path).Perm
        ((files_below fs fuel path).filter (fun f => !is_ignored_extension f ign)) := by
  intro fuel
  induction fuel with
  | zero => intro path; simp [file_names, files_below]
  | succ fuel ih =>
    intro path
    simp only [file_names, files_below]
    have hperm : (get_directory_entries fs S path).Perm (unsorted_entries fs path) :=
      S.perm _ _
    refine (List.Perm.flatMap_right _ hperm).trans ?_
    rw [List.filter_flatMap]
    refine List.Perm.flatMap_left _ ?_
    intro item _
    split
    · exact ih _
    · split
      · rename_i h; simp [h]
      · rename_i h; simp [h]

/-! ## Searching a string -/

theorem find_last_eq_none_iff (p : Char → Bool) (s : Str) :
    find_last p s = none ↔ ∀ x ∈ s, p x = false := by
  induction s with
  | nil => simp [find_last]
  | cons c cs ih =>
    simp only [find_last, List.mem_cons, forall_eq_or_imp]
    cases h : find_last p cs with
    | some i =>
      simp only [reduceCtorEq, false_iff, not_and]
      intro _ hall
      rw [ih.mpr hall] at h
      cases h
    | none =>
      have := ih.mp h
      cases hc : p c
      · simpa using this
      · simp

theorem find_last_append (p : Char → Bool) (a : Str) (c : Char) (b : Str)
    (hc : p c = true) (hb : ∀ x ∈ b, p x = false) :
    find_last p (a ++ c :: b) = some a.length := by
  induction a with
  | nil => simp [find_last, (find_last_eq_none_iff p b).mpr hb, hc]
  | cons x xs ih => simp [find_last, ih]

theorem find_last_split (p : Char → Bool) (s : Str) :
    ∀ i, find_last p s = some i →
      ∃ c b, s = s.take i ++ c :: b ∧ p c = true ∧ ∀ x ∈ b, p x = false := by
  induction s with
  | nil => intro i h; simp [find_last] at h
  | cons x xs ih =>
    intro i h
    simp only [find_last] at h
    cases hx : find_last p xs with
    | some j =>
      rw [hx] at h
      simp only [Option.some.injEq] at h
      subst h
      obtain ⟨c, b, h1, h2, h3⟩ := ih j hx
      refine ⟨c, b, ?_, h2, h3⟩
      simp only [List.take_succ_cons, List.cons_append]
      rw [← h1]
    | none =>
      rw [hx] at h
      simp only at h
      split at h
      · rename_i hpx
        simp only [Option.some.injEq] at h
        subst h
        exact ⟨x, xs, by simp, hpx, (find_last_eq_none_iff p xs).mp hx⟩
      · cases h

theorem find_first_eq_none_iff (p : Char → Bool) (s : Str) :
    find_first p s = none ↔ ∀ x ∈ s, p x = false := by
  induction s with
  | nil => simp [find_first]
  | cons c cs ih =>
    simp only [find_first, List.mem_cons, forall_eq_or_imp]
    cases hc : p c with
    | true => simp
    | false => simp [ih]

theorem find_first_append (p : Char → Bool) (a : Str) (c : Char) (b : Str)
    (ha : ∀ x ∈ a, p x = false) (hc : p c = true) :
    find_first p (a ++ c :: b) = some a.length := by
  induction a with
  | nil => simp [find_first, hc]
  | cons x xs ih =>
    have hx : p x = false := ha x (List.mem_cons_self _ _)
    have hxs : ∀ y ∈ xs, p y = false := fun y hy => ha y (List.mem_cons_of_mem _ hy)
    simp [find_first, hx, ih hxs]

/-- `trim` of a string made of whitespace only is empty. -/
theorem trim_blank (s : Str) (h : ∀ x ∈ s, isTrimChar x = true) : trim s = [] := by
  unfold trim find_first_not_of
  rw [(find_first_eq_none_iff _ s).mpr (by intro x hx; simp [h x hx])]

/-- `trim` removes whitespace around a string that neither begins nor ends with
whitespace. -/
theorem trim_core (w₁ w₂ : Str) (c : Char) (m : Str) (d : Char) (core : Str)
    (h₁ : ∀ x ∈ w₁, isTrimChar x = true) (h₂ : ∀ x ∈ w₂, isTrimChar x = true)
    (hhead : core = c :: m) (hc : isTrimChar c = false)
    (hlast : ∃ init, core = init ++ [d]) (hd : isTrimChar d = false) :
    trim (w₁ ++ core ++ w₂) = core := by
  obtain ⟨init, hinit⟩ := hlast
  have hfirst : find_first_not_of (w₁ ++ core ++ w₂) = some w₁.length := by
    unfold find_first_not_of
    rw [hhead, List.append_assoc, List.cons_append]
    exact find_first_append _ w₁ c (m ++ w₂) (by intro x hx; simp [h₁ x hx]) (by simp [hc])
  have hlst : find_last_not_of (w₁ ++ core ++ w₂) = some (w₁.length + init.length) := by
    unfold find_last_not_of
    have : w₁ ++ core ++ w₂ = (w₁ ++ init) ++ d :: w₂ := by rw [hinit]; simp
    rw [this, find_last_append _ (w₁ ++ init) d w₂ (by simp [hd]) (by intro x hx; simp [h₂ x hx])]
    simp
  unfold trim
  rw [hfirst, hlst]
  simp only [substr, List.append_assoc, List.drop_left]
  have hlen : w₁.length + init.length - w₁.length + 1 = core.length := by
    rw [hinit]; simp
  rw [hlen, List.take_left]

/-- `trim` leaves a non-empty string without whitespace at its ends unchanged. -/
theorem trim_id (c : Char) (m : Str) (d : Char) (core : Str)
    (hhead : core = c :: m) (hc : isTrimChar c = false)
    (hlast : ∃ init, core = init ++ [d]) (hd : isTrimChar d = false) :
    trim core = core := by
  have := trim_core [] [] c m d core (by simp) (by simp) hhead hc hlast hd
  simpa using this

/-- `is_ignored_extension` in the words of the specification: the name has a final
`.` and the lowercased suffix from that `.` on is in the ignore list. -/
theorem is_ignored_extension_iff (f : Str) (ign : List Str) :
    is_ignored_extension f ign = true ↔
      has_ignored_suffix f ign := by
  unfold is_ignored_extension find_last_of has_ignored_suffix
  constructor
  · intro h
    cases hf : find_last (fun d => d == '.') f with
    | none => rw [hf] at h; cases h
    | some pos =>
      rw [hf] at h
      obtain ⟨c, b, h1, h2, h3⟩ := find_last_split _ f pos hf
      have hc : c = '.' := by simpa using h2
      subst hc
      have hlen : (f.take pos).length = pos := by
        have hle : pos ≤ f.length := by
          by_contra hgt
          have hgt : f.length < pos := Nat.lt_of_not_le hgt
          have : f.take pos = f := List.take_of_length_le (Nat.le_of_lt hgt)
          rw [this] at h1
          have := congrArg List.length h1
          simp at this
        simp [List.length_take, hle]
      have hdrop : f.drop pos = '.' :: b := by
        have h0 : f.drop pos = (f.take pos ++ '.' :: b).drop pos := by rw [← h1]
        rw [h0, List.drop_append_eq_append_drop, hlen]
        simp [List.drop_of_length_le, hlen]
      refine ⟨f.take pos, b, h1, ?_, ?_⟩
      · intro hmem
        have := h3 _ hmem
        simp at this
      · simp only [hdrop] at h
        simpa using h
  · rintro ⟨stem, ext, rfl, hdot, hmem⟩
    have hb : ∀ x ∈ ext, (fun d => d == '.') x = false := by
      intro x hx
      simp only [beq_eq_false_iff_ne, ne_eq]
      rintro rfl
      exact hdot hx
    rw [find_last_append _ stem '.' ext (by simp) hb]
    simpa using hmem

/-! ## The lines of one directory level -/

theorem loop_lines_marker (fs : FileSystem) (sub : Str → Str → List Line) (path : Str)
    (ign : List Str) (n : Nat)
    (hsub : ∀ p q (l : Line), l ∈ sub p q → ∃ r b rest, l = (TREE, q ++ r ++ branch b) :: rest)
    (items : List Str) :
    ∀ (pre : Str) (i : Nat) (l : Line), l ∈ loop_lines fs sub path pre ign n i items →
      ∃ r b rest, l = (TREE, pre ++ r ++ branch b) :: rest := by
  induction items with
  | nil => intro pre i l hl; simp [loop_lines] at hl
  | cons item rest ihl =>
    intro pre i l hl
    simp only [loop_lines, List.mem_append] at hl
    rcases hl with hl | hl
    · unfold item_lines at hl
      split at hl
      · rcases List.mem_cons.mp hl with rfl | hl
        · exact ⟨[], (i == n - 1), [(FOLDER, '[' :: item ++ [']'])], by simp [folder_line]⟩
        · obtain ⟨r, b, rest, rfl⟩ := hsub _ _ l hl
          exact ⟨indent (i == n - 1) ++ r, b, rest, by simp⟩
      · split at hl
        · cases hl
        · rw [List.mem_singleton] at hl
          subst hl
          unfold file_line
          cases find_last_of item '.'
          · exact ⟨[], (i == n - 1), _, by simp; rfl⟩
          · exact ⟨[], (i == n - 1), _, by simp; rfl⟩
    · exact ihl pre (i + 1) l hl

/-- Every line of a tree starts with a marker chunk: the prefix, further indentation
and a branch. -/
theorem tree_lines_marker (fs : FileSystem) (S : StdSort) (ign : List Str) :
    ∀ (fuel : Nat) (path pre : Str) (l : Line), l ∈ tree_lines fs S ign fuel path pre →
      ∃ r b rest, l = (TREE, pre ++ r ++ branch b) :: rest := by
  intro fuel
  induction fuel with
  | zero => intro path pre l hl; simp [tree_lines] at hl
  | succ fuel ih =>
    intro path pre l hl
    simp only [tree_lines] at hl
    exact loop_lines_marker fs _ path ign _ (fun p q l hl => ih p q l hl) _ pre 0 l hl

theorem is_child_line_folder_line (pre : Str) (b : Bool) (item : Str) :
    is_child_line pre (folder_line pre b item) = true := by
  cases b <;> simp [is_child_line, folder_line]

theorem is_child_line_file_line (pre : Str) (b : Bool) (item : Str) :
    is_child_line pre (file_line pre b item) = true := by
  unfold file_line
  cases find_last_of item '.' <;> cases b <;> simp [is_child_line]

theorem is_child_line_deeper (pre : Str) (b b' : Bool) (r : Str) (rest : Line) :
    is_child_line pre ((TREE, pre ++ indent b ++ r ++ branch b') :: rest) = false := by
  have hlen : ∀ x : Bool, (pre ++ indent b ++ r ++ branch b').length ≠ (pre ++ branch x).length := by
    intro x
    cases b <;> cases b' <;> cases x <;> simp [indent, branch]
  have hne : ∀ x : Bool, pre ++ indent b ++ r ++ branch b' ≠ pre ++ branch x :=
    fun x h => hlen x (congrArg List.length h)
  simp only [is_child_line, Bool.or_eq_false_iff, beq_eq_false_iff_ne, ne_eq]
  exact ⟨hne true, hne false⟩

/-- The lines of one directory level are those of its entries themselves. -/
theorem loop_lines_child_lines (fs : FileSystem) (sub : Str → Str → List Line) (path : Str)
    (ign : List Str) (n : Nat)
    (hsub : ∀ p q (l : Line), l ∈ sub p q → ∃ r b rest, l = (TREE, q ++ r ++ branch b) :: rest)
    (pre : Str) (items : List Str) :
    ∀ (i : Nat),
      (loop_lines fs sub path pre ign n i items).filter (is_child_line pre) =
        own_lines fs path pre ign n i items := by
  induction items with
  | nil => intro i; simp [loop_lines, own_lines]
  | cons item rest ihl =>
    intro i
    simp only [loop_lines, own_lines, List.filter_append, ihl]
    congr 1
    unfold item_lines
    split
    · rw [List.filter_cons, is_child_line_folder_line]
      simp only [if_true, List.cons.injEq, true_and, List.filter_eq_nil_iff]
      intro l hl
      obtain ⟨r, b, tl, rfl⟩ := hsub _ _ l hl
      simpa [List.append_assoc] using is_child_line_deeper pre (i == n - 1) b r tl
    · split
      · rfl
      · simp [List.filter_cons, is_child_line_file_line]

theorem own_lines_names (fs : FileSystem) (path pre : Str) (ign : List Str) (n : Nat)
    (items : List Str) :
    ∀ (i : Nat),
      (own_lines fs path pre ign n i items).map entry_name =
        items.filter (is_visible fs path ign) := by
  induction items with
  | nil => intro i; simp [own_lines]
  | cons item rest ihl =>
    intro i
    simp only [own_lines, List.map_append, ihl, List.filter_cons]
    by_cases hd : fs.is_directory (full_path path item) = true
    · simp [is_visible, hd, entry_name_folder_line]
    · by_cases hi : is_ignored_extension item ign = true
      · simp [is_visible, hd, hi]
      · simp [is_visible, hd, hi, entry_name_file_line]

theorem line_marker_folder_line (pre : Str) (b : Bool) (item : Str) :
    line_marker (folder_line pre b item) = pre ++ branch b := rfl

theorem line_marker_file_line (pre : Str) (b : Bool) (item : Str) :
    line_marker (file_line pre b item) = pre ++ branch b := by
  unfold file_line
  cases find_last_of item '.' <;> rfl

/-- The line of an entry carries the marker of its index in the listing. -/
theorem own_lines_enum (fs : FileSystem) (path pre : Str) (ign : List Str) (n : Nat)
    (items : List Str) :
    ∀ (i : Nat),
      (own_lines fs path pre ign n i items).map (fun l => (line_marker l, entry_name l)) =
        ((items.enumFrom i).filter (fun p => is_visible fs path ign p.2)).map
          (fun p => (pre ++ branch (p.1 == n - 1), p.2)) := by
  induction items with
  | nil => intro i; simp [own_lines]
  | cons item rest ihl =>
    intro i
    simp only [own_lines, List.map_append, ihl, List.enumFrom_cons, List.filter_cons]
    by_cases hd : fs.is_directory (full_path path item) = true
    · simp [is_visible, hd, entry_name_folder_line, line_marker_folder_line]
    · by_cases hi : is_ignored_extension item ign = true
      · simp [is_visible, hd, hi]
      · simp [is_visible, hd, hi, entry_name_file_line, line_marker_file_line]

theorem own_lines_append (fs : FileSystem) (path pre : Str) (ign : List Str) (n : Nat)
    (a b : List Str) :
    ∀ (i : Nat),
      own_lines fs path pre ign n i (a ++ b) =
        own_lines fs path pre ign n i a ++ own_lines fs path pre ign n (i + a.length) b := by
  induction a with
  | nil => intro i; simp [own_lines]
  | cons x a ih =>
    intro i
    have hstep : own_lines fs path pre ign n i (x :: (a ++ b)) =
        (if fs.is_directory (full_path path x) then [folder_line pre (i == n - 1) x]
         else if is_ignored_extension x ign then []
         else [file_line pre (i == n - 1) x]) ++
          own_lines fs path pre ign n (i + 1) (a ++ b) := rfl
    rw [List.cons_append, hstep, ih]
    simp only [own_lines, List.append_assoc, List.length_cons]
    rw [show i + (a.length + 1) = i + 1 + a.length by omega]

/-- The entries in front of the last one are written with `|-->`. -/
theorem own_lines_inner (fs : FileSystem) (path pre : Str) (ign : List Str) (n : Nat)
    (items : List Str) :
    ∀ (i : Nat), i + items.length ≤ n - 1 →
      ∀ l ∈ own_lines fs path pre ign n i items, line_marker l = pre ++ branch false := by
  induction items with
  | nil => intro i _ l hl; simp [own_lines] at hl
  | cons item rest ihl =>
    intro i hi l hl
    simp only [List.length_cons] at hi
    have hne : (i == n - 1) = false := by
      rw [beq_eq_false_iff_ne]
      omega
    simp only [own_lines, hne, List.mem_append] at hl
    rcases hl with hl | hl
    · split at hl
      · rw [List.mem_singleton] at hl
        rw [hl, line_marker_folder_line]
      · split at hl
        · cases hl
        · rw [List.mem_singleton] at hl
          rw [hl, line_marker_file_line]
    · exact ihl (i + 1) (by omega) l hl

/-- Within one directory level every line but the last carries `|-->`, and the last
line carries `#-->` exactly when the last entry of the listing is written. -/
theorem own_lines_last (fs : FileSystem) (path pre : Str) (ign : List Str)
    (items : List Str) :
    (∀ l ∈ (own_lines fs path pre ign items.length 0 items).dropLast,
      line_marker l = pre ++ branch false) ∧
    (∀ l, (own_lines fs path pre ign items.length 0 items).getLast? = some l →
      ((line_marker l = pre ++ branch true ↔
        ∃ last, items.getLast? = some last ∧ is_visible fs path ign last = true) ∧
      (line_marker l = pre ++ branch true ∨ line_marker l = pre ++ branch false))) := by
  have hbranch : pre ++ branch false ≠ pre ++ branch true := by
    intro h
    have := List.append_cancel_left h
    revert this
    decide
  rcases List.eq_nil_or_concat items with rfl | ⟨init, last, rfl⟩
  · simp [own_lines]
  · rw [List.concat_eq_append]
    have hinner := own_lines_inner fs path pre ign (init ++ [last]).length init 0 (by simp)
    rw [own_lines_append, Nat.zero_add]
    have hidx : (init.length == (init ++ [last]).length - 1) = true := by simp
    have hlast : (init ++ [last]).getLast? = some last := by simp
    by_cases hv : is_visible fs path ign last = true
    · obtain ⟨l, hl, hm⟩ : ∃ l, own_lines fs path pre ign (init ++ [last]).length init.length
          [last] = [l] ∧ line_marker l = pre ++ branch true := by
        simp only [own_lines, hidx, List.append_nil]
        by_cases hd : fs.is_directory (full_path path last) = true
        · exact ⟨_, by rw [if_pos hd], line_marker_folder_line _ _ _⟩
        · have hi : is_ignored_extension last ign = false := by
            simpa [is_visible, hd] using hv
          exact ⟨_, by rw [if_neg hd, if_neg (by rw [hi]; exact Bool.false_ne_true)],
            line_marker_file_line _ _ _⟩
      rw [hl]
      refine ⟨?_, ?_⟩
      · intro x hx
        rw [List.dropLast_concat] at hx
        exact hinner x hx
      · intro x hx
        rw [List.getLast?_concat] at hx
        cases hx
        exact ⟨⟨fun _ => ⟨last, hlast, hv⟩, fun _ => hm⟩, Or.inl hm⟩
    · have hnil : own_lines fs path pre ign (init ++ [last]).length init.length [last] = [] := by
        have hd : fs.is_directory (full_path path last) = false := by
          cases h : fs.is_directory (full_path path last)
          · rfl
          · exact absurd (by simp [is_visible, h]) hv
        have hi : is_ignored_extension last ign = true := by
          cases h : is_ignored_extension last ign
          · exact absurd (by simp [is_visible, h]) hv
          · rfl
        simp [own_lines, hd, hi]
      rw [hnil, List.append_nil]
      refine ⟨?_, ?_⟩
      · intro x hx
        exact hinner x (List.mem_of_mem_dropLast hx)
      · intro x hx
        have hx' := hinner x (List.mem_of_getLast?_eq_some hx)
        refine ⟨⟨fun h => absurd (hx'.symm.trans h) hbranch, ?_⟩, Or.inr hx'⟩
        rintro ⟨last', hl', hv'⟩
        rw [hlast] at hl'
        cases hl'
        exact absurd hv' hv

/-- The names on the lines of the top directory level: the visible entries in the
order of `get_directory_entries`. -/
theorem tree_lines_child_names (fs : FileSystem) (S : StdSort) (ign : List Str)
    (fuel : Nat) (path pre : Str) :
    ((tree_lines fs S ign (fuel + 1) path pre).filter (is_child_line pre)).map entry_name =
      (get_directory_entries fs S path).filter (is_visible fs path ign) := by
  simp only [tree_lines]
  rw [loop_lines_child_lines fs _ path ign _ (fun p q l hl => tree_lines_marker fs S ign fuel p q l hl),
    own_lines_names]

/-! ## The order on strings -/

theorem strLt_irrefl : ∀ a : Str, strLt a a = false := by
  intro a
  induction a with
  | nil => rfl
  | cons x xs ih => simp [strLt, ih]

theorem strLt_trans : ∀ a b c : Str, strLt a b = true → strLt b c = true → strLt a c = true := by
  intro a
  induction a with
  | nil =>
    intro b c hab hbc
    cases b with
    | nil => simp [strLt] at hab
    | cons y ys =>
      cases c with
      | nil => simp [strLt] at hbc
      | cons z zs => rfl
  | cons x xs ih =>
    intro b c hab hbc
    cases b with
    | nil => simp [strLt] at hab
    | cons y ys =>
      cases c with
      | nil => simp [strLt] at hbc
      | cons z zs =>
        simp only [strLt] at hab hbc ⊢
        rcases lt_trichotomy x y with hxy | hxy | hxy
        · rcases lt_trichotomy y z with hyz | hyz | hyz
          · simp [lt_trans hxy hyz]
          · subst hyz; simp [hxy]
          · simp [hyz, not_lt_of_gt hyz] at hbc
        · subst hxy
          rcases lt_trichotomy x z with hyz | hyz | hyz
          · simp [hyz]
          · subst hyz
            simp only [lt_self_iff_false, if_false] at hab hbc ⊢
            exact ih _ _ hab hbc
          · simp [hyz, not_lt_of_gt hyz] at hbc
        · simp [hxy, not_lt_of_gt hxy] at hab

/-- Two strings neither of which is less than the other are equal. -/
theorem strLt_total : ∀ a b : Str, strLt a b = false → strLt b a = false → a = b := by
  intro a
  induction a with
  | nil =>
    intro b hab _
    cases b with
    | nil => rfl
    | cons y ys => simp [strLt] at hab
  | cons x xs ih =>
    intro b hab hba
    cases b with
    | nil => simp [strLt] at hba
    | cons y ys =>
      simp only [strLt] at hab hba
      rcases lt_trichotomy x y with hxy | hxy | hxy
      · simp [hxy] at hab
      · subst hxy
        simp only [lt_self_iff_false, if_false] at hab hba
        rw [ih ys hab hba]
      · simp [hxy] at hba

theorem strictWeak_strLt : StrictWeak strLt where
  irrefl := strLt_irrefl
  trans := strLt_trans
  incomp := by
    intro a b c h1 h2 h3 h4
    have hab := strLt_total a b h1 h2
    have hbc := strLt_total b c h3 h4
    subst hab; subst hbc
    exact ⟨strLt_irrefl a, strLt_irrefl a⟩

/-- The comparator of `get_directory_entries` is a strict weak ordering. -/
theorem strictWeak_lower : StrictWeak (fun a b => strLt (to_lower a) (to_lower b)) where
  irrefl := fun a => strLt_irrefl _
  trans := fun a b c => strLt_trans _ _ _
  incomp := by
    intro a b c h1 h2 h3 h4
    have hab := strLt_total _ _ h1 h2
    have hbc := strLt_total _ _ h3 h4
    simp only [hab, hbc, strLt_irrefl, and_self]

/-! ## Independence of the recursion bound -/

theorem loop_lines_congr (fs : FileSystem) (sub sub' : Str → Str → List Line) (path : Str)
    (ign : List Str) (n : Nat) (items : List Str)
    (h : ∀ item ∈ items, fs.is_directory (full_path path item) = true →
      ∀ q, sub (full_path path item) q = sub' (full_path path item) q) :
    ∀ (pre : Str) (i : Nat),
      loop_lines fs sub path pre ign n i items = loop_lines fs sub' path pre ign n i items := by
  induction items with
  | nil => intro pre i; rfl
  | cons item rest ih =>
    intro pre i
    simp only [loop_lines]
    rw [ih (fun x hx => h x (List.mem_cons_of_mem _ hx))]
    congr 1
    unfold item_lines
    split
    · rename_i hd
      rw [h item (List.mem_cons_self _ _) hd]
    · rfl

theorem finite_below_succ (fs : FileSystem) : ∀ (n : Nat) (path : Str),
    finite_below fs n path = true → finite_below fs (n + 1) path = true := by
  intro n
  induction n with
  | zero => intro path h; simp [finite_below] at h
  | succ n ih =>
    intro path h
    rw [finite_below, List.all_eq_true] at h ⊢
    intro item hitem
    have := h item hitem
    simp only [Bool.or_eq_true, Bool.not_eq_true'] at this ⊢
    rcases this with hd | hf
    · exact Or.inl hd
    · exact Or.inr (ih _ hf)

/-- On a finite tree a larger bound gives the same lines. -/
theorem tree_lines_succ (fs : FileSystem) (S : StdSort) (ign : List Str) :
    ∀ (n : Nat) (path pre : Str), finite_below fs n path = true →
      tree_lines fs S ign (n + 1) path pre = tree_lines fs S ign n path pre := by
  intro n
  induction n with
  | zero => intro path pre h; simp [finite_below] at h
  | succ n ih =>
    intro path pre h
    rw [tree_lines, tree_lines]
    refine loop_lines_congr fs _ _ path ign _ _ ?_ pre 0
    intro item hitem hd q
    rw [finite_below, List.all_eq_true] at h
    have hmem : item ∈ unsorted_entries fs path := (S.perm _ _).mem_iff.mp hitem
    have := h item hmem
    simp only [hd, Bool.not_true, Bool.false_or] at this
    exact ih _ q this

/-- Once `print_tree` returns within a bound it returns the same within any larger
one. -/
theorem print_tree_fuel (fs : FileSystem) (S : StdSort) (ign : List Str) (n : Nat)
    (path pre : Str) (w w' : Walk) (h : print_tree n fs S path pre ign w = some w') :
    ∀ k, print_tree (n + k) fs S path pre ign w = some w' := by
  have hfin : finite_below fs n path = true := by
    rw [print_tree_eq] at h
    by_contra hf
    rw [if_neg hf] at h
    cases h
  rw [print_tree_eq, if_pos hfin] at h
  intro k
  induction k with
  | zero => rw [Nat.add_zero, print_tree_eq, if_pos hfin]; exact h
  | succ k ih =>
    have hfk : finite_below fs (n + k) path = true := by
      rw [print_tree_eq] at ih
      by_contra hf
      rw [if_neg hf] at ih
      cases ih
    rw [print_tree_eq, if_pos hfk] at ih
    rw [← Nat.add_assoc, print_tree_eq, if_pos (finite_below_succ fs _ _ hfk),
      tree_lines_succ fs S ign _ _ _ hfk]
    exact ih

/-! ## Independence of the sorting algorithm -/

/-- Where no two names of a listing differ in case only, every `std::sort` orders
the listing the same way. -/
theorem get_directory_entries_unique (fs : FileSystem) (S S' : StdSort) (path : Str)
    (h : ∀ a ∈ unsorted_entries fs path, ∀ b ∈ unsorted_entries fs path,
      to_lower a = to_lower b → a = b) :
    get_directory_entries fs S path = get_directory_entries fs S' path := by
  have hs : (get_directory_entries fs S path).Pairwise
      (fun a b => strLt (to_lower b) (to_lower a) = false) := S.sorted _ _ strictWeak_lower
  have hs' : (get_directory_entries fs S' path).Pairwise
      (fun a b => strLt (to_lower b) (to_lower a) = false) := S'.sorted _ _ strictWeak_lower
  have hp : (get_directory_entries fs S path).Perm (get_directory_entries fs S' path) :=
    (S.perm _ _).trans (S'.perm _ _).symm
  have hanti : ∀ a b, a ∈ get_directory_entries fs S path →
      b ∈ get_directory_entries fs S' path →
      strLt (to_lower b) (to_lower a) = false → strLt (to_lower a) (to_lower b) = false →
      a = b := by
    intro a b ha hb hab hba
    exact h a ((S.perm _ _).mem_iff.mp ha) b ((S'.perm _ _).mem_iff.mp hb)
      (strLt_total _ _ hba hab)
  exact List.Perm.eq_of_sorted hanti hs hs' hp

theorem tree_lines_sort (fs : FileSystem) (S S' : StdSort) (ign : List Str)
    (h : ∀ path, ∀ a ∈ unsorted_entries fs path, ∀ b ∈ unsorted_entries fs path,
      to_lower a = to_lower b → a = b) :
    ∀ (n : Nat) (path pre : Str),
      tree_lines fs S ign n path pre = tree_lines fs S' ign n path pre := by
  intro n
  induction n with
  | zero => intro path pre; rfl
  | succ n ih =>
    intro path pre
    rw [tree_lines, tree_lines, get_directory_entries_unique fs S S' path (h path)]
    exact loop_lines_congr fs _ _ path ign _ _ (fun item _ _ q => ih _ q) pre 0

/-- Where no two names of a listing differ in case only, `print_tree` does the
same under every `std::sort`. -/
theorem print_tree_sort (fs : FileSystem) (S S' : StdSort) (ign : List Str)
    (h : ∀ path, ∀ a ∈ unsorted_entries fs path, ∀ b ∈ unsorted_entries fs path,
      to_lower a = to_lower b → a = b)
    (n : Nat) (path pre : Str) (w : Walk) :
    print_tree n fs S path pre ign w = print_tree n fs S' path pre ign w := by
  rw [print_tree_eq, print_tree_eq, tree_lines_sort fs S S' ign h]

/-! ## Tokens -/

theorem tokens_on_nil (p : Char → Bool) : tokens_on p [] = [] := by
  simp [tokens_on]

theorem tokens_on_sep_cons (p : Char → Bool) (c : Char) (l : Str) (hc : p c = true) :
    tokens_on p (c :: l) = tokens_on p l := by
  simp [tokens_on, hc]

theorem tokens_on_blank_append (p : Char → Bool) (a l : Str) (ha : ∀ x ∈ a, p x = true) :
    tokens_on p (a ++ l) = tokens_on p l := by
  induction a with
  | nil => rfl
  | cons x xs ih =>
    rw [List.cons_append, tokens_on_sep_cons p x _ (ha x (List.mem_cons_self _ _))]
    exact ih (fun y hy => ha y (List.mem_cons_of_mem _ hy))

theorem tokens_on_word_append (p : Char → Bool) (tok rest : Str) (hne : tok ≠ [])
    (htok : ∀ x ∈ tok, p x = false)
    (hrest : rest = [] ∨ ∃ c r, rest = c :: r ∧ p c = true) :
    tokens_on p (tok ++ rest) = tok :: tokens_on p rest := by
  have hne' : tok.isEmpty = false := by
    cases tok with
    | nil => exact absurd rfl hne
    | cons _ _ => rfl
  have htok' : ∀ x ∈ tok, ¬ p x = true := fun x hx => by simp [htok x hx]
  rcases hrest with rfl | ⟨c, r, rfl, hc⟩
  · rw [List.append_nil, tokens_on_nil]
    simp [tokens_on, List.splitOnP_eq_single p tok htok', hne']
  · rw [tokens_on_sep_cons p c r hc]
    simp [tokens_on, List.splitOnP_first p tok htok' c hc r, hne']

theorem dropWhile_head (p : Char → Bool) (l : Str) :
    l.dropWhile p = [] ∨ ∃ c r, l.dropWhile p = c :: r ∧ p c = false := by
  induction l with
  | nil => exact Or.inl rfl
  | cons x xs ih =>
    cases hx : p x with
    | true => simpa [List.dropWhile_cons, hx] using ih
    | false => exact Or.inr ⟨x, xs, by simp [List.dropWhile_cons, hx], hx⟩

/-- A failed extraction: the stream holds no token. -/
theorem extract_none (ss : Str) (h : extract ss = none) : tokens_on isspace ss = [] := by
  unfold extract at h
  simp only at h
  split at h
  · rename_i he
    have he : ss.dropWhile isspace = [] := by simpa using he
    have hall : ∀ x ∈ ss, isspace x = true := by
      rw [List.dropWhile_eq_nil_iff] at he
      exact he
    have := tokens_on_blank_append isspace ss [] hall
    rw [List.append_nil] at this
    rw [this, tokens_on_nil]
  · cases h

/-- A successful extraction: the token is the first token of the stream, the rest
holds the others and is shorter. -/
theorem extract_some (ss tok rest : Str) (h : extract ss = some (tok, rest)) :
    tok ≠ [] ∧ (∀ x ∈ tok, isspace x = false) ∧
    tokens_on isspace ss = tok :: tokens_on isspace rest ∧ rest.length < ss.length := by
  unfold extract at h
  simp only at h
  split at h
  · cases h
  · rename_i he
    simp only [Option.some.injEq, Prod.mk.injEq] at h
    obtain ⟨htok, hrest⟩ := h
    have hss : ss = ss.takeWhile isspace ++ ss.dropWhile isspace :=
      (List.takeWhile_append_dropWhile isspace ss).symm
    have hs : ss.dropWhile isspace = tok ++ rest := by
      rw [← htok, ← hrest, List.takeWhile_append_dropWhile]
    rcases dropWhile_head isspace ss with hnil | ⟨c, r, hcr, hc⟩
    · rw [hnil] at he; simp at he
    · have htokne : tok ≠ [] := by
        rw [← htok, hcr]
        simp [List.takeWhile_cons, hc]
      have htokall : ∀ x ∈ tok, isspace x = false := by
        intro x hx
        rw [← htok] at hx
        simpa using List.mem_takeWhile_imp hx
      have hresthead : rest = [] ∨ ∃ c r, rest = c :: r ∧ isspace c = true := by
        rcases dropWhile_head (fun c => !isspace c) (ss.dropWhile isspace) with h0 | ⟨c', r', h1, h2⟩
        · left; rw [← hrest, h0]
        · right; exact ⟨c', r', by rw [← hrest, h1], by simpa using h2⟩
      refine ⟨htokne, htokall, ?_, ?_⟩
      · rw [hss, tokens_on_blank_append isspace _ _ (fun x hx => List.mem_takeWhile_imp hx), hs]
        exact tokens_on_word_append isspace tok rest htokne htokall hresthead
      · have hlen := congrArg List.length hss
        rw [hs] at hlen
        simp only [List.length_append] at hlen
        have : 0 < tok.length := List.length_pos.mpr htokne
        omega

/-- With more iterations than characters the loop ends because the stream is
exhausted: it has pushed the normalised tokens of the stream in order. -/
theorem token_loop_eq : ∀ (fuel : Nat) (ss : Str) (out : List Str), ss.length < fuel →
    token_loop fuel ss out = out ++ (tokens_on isspace ss).filterMap normalize_token := by
  intro fuel
  induction fuel with
  | zero => intro ss out h; omega
  | succ fuel ih =>
    intro ss out hlen
    simp only [token_loop]
    cases he : extract ss with
    | none => simp [extract_none ss he]
    | some pr =>
      obtain ⟨tok, rest⟩ := pr
      obtain ⟨_, _, htoks, hlt⟩ := extract_some ss tok rest he
      simp only [htoks, List.filterMap_cons]
      cases hn : normalize_token tok with
      | none => simp only; exact ih rest out (by omega)
      | some t =>
        simp only
        rw [ih rest (out ++ [t]) (by omega)]
        simp

theorem splitOnP_map_eq (p q : Char → Bool) (f : Char → Char)
    (hq : ∀ c, q c = p (f c)) (hf : ∀ c, q c = false → f c = c) (l : Str) :
    (l.map f).splitOnP p = l.splitOnP q := by
  induction l with
  | nil => rfl
  | cons x xs ih =>
    rw [List.map_cons, List.splitOnP_cons, List.splitOnP_cons, ih, ← hq x]
    cases hx : q x with
    | true => rfl
    | false => simp [hf x hx]

theorem splitOnP_sep_free (p : Char → Bool) (l : Str) :
    ∀ t ∈ l.splitOnP p, ∀ x ∈ t, p x = false := by
  induction l with
  | nil => intro t ht x hx; simp at ht; subst ht; cases hx
  | cons c cs ih =>
    intro t ht x hx
    rw [List.splitOnP_cons] at ht
    cases hc : p c with
    | true =>
      rw [hc] at ht
      simp only [if_true, List.mem_cons] at ht
      rcases ht with rfl | ht
      · cases hx
      · exact ih t ht x hx
    | false =>
      rw [hc] at ht
      simp only [Bool.false_eq_true, if_false] at ht
      cases hs : cs.splitOnP p with
      | nil => exact absurd hs (List.splitOnP_ne_nil p cs)
      | cons h tl =>
        rw [hs] at ht ih
        simp only [List.modifyHead_cons, List.mem_cons] at ht
        rcases ht with rfl | ht
        · rcases List.mem_cons.mp hx with rfl | hx
          · exact hc
          · exact ih h (List.mem_cons_self _ _) x hx
        · exact ih t (List.mem_cons_of_mem _ ht) x hx

theorem isspace_replace (c : Char) :
    isspace (if (c == ',' || c == '&') = true then ' ' else c) = is_separator c := by
  unfold is_separator
  by_cases h : (c == ',' || c == '&') = true
  · rw [if_pos h]
    have : isspace ' ' = true := by decide
    rw [this]
    simp only [Bool.or_eq_true] at h
    rcases h with h | h <;> simp [h]
  · rw [if_neg h]
    simp only [Bool.or_eq_true, not_or, Bool.not_eq_true] at h
    simp [h.1, h.2]

/-- The tokens `ss >> tok` reads after `,` and `&` were overwritten with blanks are
the tokens between separators. -/
theorem tokens_on_replace (raw : Str) :
    tokens_on isspace (raw.map (fun c => if c == ',' || c == '&' then ' ' else c)) =
      spec_tokens raw := by
  unfold spec_tokens tokens_on
  rw [splitOnP_map_eq isspace is_separator _ (fun c => (isspace_replace c).symm) _ raw]
  intro c hc
  unfold is_separator at hc
  simp only [Bool.or_eq_false_iff] at hc
  simp [hc.1.2, hc.2]

theorem isTrimChar_isspace (c : Char) (h : isspace c = false) : isTrimChar c = false := by
  unfold isspace at h
  unfold isTrimChar
  simp only [Bool.or_eq_false_iff] at h ⊢
  exact ⟨⟨⟨h.1.1.1.1.1, h.1.1.1.1.2⟩, h.1.1.1.2⟩, h.2⟩

/-- The loop body on a token without whitespace. -/
theorem normalize_token_word (t : Str) (hne : t ≠ []) (ht : ∀ x ∈ t, isspace x = false) :
    normalize_token t = some (spec_normalize t) := by
  have htrim : trim t = t := by
    cases ht0 : t with
    | nil => exact absurd ht0 hne
    | cons c m =>
      rcases List.eq_nil_or_concat t with hnil | ⟨init, d, hd⟩
      · exact absurd hnil hne
      · rw [← ht0]
        refine trim_id c m d t ht0 (isTrimChar_isspace c (ht c (by rw [ht0]; simp)))
          ⟨init, by simpa using hd⟩ (isTrimChar_isspace d (ht d (by rw [hd]; simp)))
  have he : t.isEmpty = false := by
    cases t with
    | nil => exact absurd rfl hne
    | cons _ _ => rfl
  unfold normalize_token spec_normalize
  simp only [htrim, he, Bool.false_eq_true, if_false]
  by_cases hh : t.head? = some '.'
  · simp [hh]
  · simp [hh]

theorem mem_unique (x : Str) : ∀ l : List Str, x ∈ unique l ↔ x ∈ l := by
  intro l
  induction l with
  | nil => simp [unique]
  | cons a rest ih =>
    cases rest with
    | nil => simp [unique]
    | cons b r =>
      have hstep : unique (a :: b :: r) =
          if (a == b) = true then unique (b :: r) else a :: unique (b :: r) := rfl
      rw [hstep]
      by_cases hab : (a == b) = true
      · rw [if_pos hab, ih]
        have : a = b := by simpa using hab
        subst this
        simp
      · rw [if_neg hab, List.mem_cons, ih, List.mem_cons (a := x) (b := a)]

/-- The vector `out` before sorting: the normalised tokens in order. -/
theorem token_loop_parse (raw : Str) :
    token_loop ((raw.map (fun c => if c == ',' || c == '&' then ' ' else c)).length + 1)
        (raw.map (fun c => if c == ',' || c == '&' then ' ' else c)) [] =
      (spec_tokens raw).map spec_normalize := by
  rw [token_loop_eq _ _ _ (Nat.lt_succ_self _), tokens_on_replace, List.nil_append]
  have hall : ∀ t ∈ spec_tokens raw, normalize_token t = some (spec_normalize t) := by
    intro t ht
    unfold spec_tokens tokens_on at ht
    rw [List.mem_filter] at ht
    refine normalize_token_word t ?_ ?_
    · intro h; rw [h] at ht; simp at ht
    · intro x hx
      have := splitOnP_sep_free is_separator raw t ht.1 x hx
      unfold is_separator at this
      simp only [Bool.or_eq_false_iff] at this
      exact this.1.1
  generalize spec_tokens raw = l at hall
  induction l with
  | nil => rfl
  | cons t ts ih =>
    rw [List.filterMap_cons, hall t (List.mem_cons_self _ _), List.map_cons,
      ih (fun u hu => hall u (List.mem_cons_of_mem _ hu))]

/-- Membership in the parsed ignore list. -/
theorem parse_mem_iff (S : StdSort) (raw e : Str) :
    e ∈ parse_ignored_extensions S raw ↔ ∃ t ∈ spec_tokens raw, e = spec_normalize t := by
  unfold parse_ignored_extensions
  simp only
  rw [mem_unique, (S.perm _ _).mem_iff, token_loop_parse, List.mem_map]
  constructor
  · rintro ⟨t, ht, rfl⟩; exact ⟨t, ht, rfl⟩
  · rintro ⟨t, ht, rfl⟩; exact ⟨t, ht, rfl⟩

/-- `std::unique` turns an ascending list into a strictly ascending one. -/
theorem unique_strict : ∀ l : List Str, l.Pairwise (fun a b => strLt b a = false) →
    (unique l).Pairwise (fun a b => strLt a b = true) := by
  intro l
  induction l with
  | nil => intro _; simp [unique]
  | cons a rest ih =>
    intro hl
    rw [List.pairwise_cons] at hl
    cases rest with
    | nil => simp [unique]
    | cons b r =>
      have hstep : unique (a :: b :: r) =
          if (a == b) = true then unique (b :: r) else a :: unique (b :: r) := rfl
      rw [hstep]
      by_cases hab : (a == b) = true
      · rw [if_pos hab]; exact ih hl.2
      · rw [if_neg hab, List.pairwise_cons]
        refine ⟨?_, ih hl.2⟩
        have hne : a ≠ b := by simpa using hab
        have hltab : strLt a b = true := by
          cases h : strLt a b with
          | true => rfl
          | false => exact absurd (strLt_total a b h (hl.1 b (List.mem_cons_self _ _))) hne
        intro x hx
        rw [mem_unique] at hx
        rcases List.mem_cons.mp hx with rfl | hxr
        · exact hltab
        · cases h : strLt a x with
          | true => rfl
          | false =>
            have hxb : strLt x b = false := (List.pairwise_cons.mp hl.2).1 x hxr
            have := strictWeak_strLt.le_trans hxb h
            rw [hltab] at this
            cases this

theorem toLower_not_upper (c : Char) : (Char.toLower c).isUpper = false := by
  unfold Char.toLower
  simp only
  split
  · rename_i h
    obtain ⟨h1, h2⟩ := h
    have h1 : 65 ≤ c.toNat := h1
    have hc : c.toNat - 65 < 26 := by omega
    have : c.toNat = (c.toNat - 65) + 65 := by omega
    rw [this]
    generalize c.toNat - 65 = k at hc
    interval_cases k <;> decide
  · rename_i h
    unfold Char.isUpper
    simp only [Char.toNat, ge_iff_le, not_and, not_le] at h
    cases h1 : decide (c.val ≥ 65) with
    | false => simp [h1]
    | true =>
      have h1' : 65 ≤ c.val := by simpa using h1
      have h2 : 65 ≤ c.val.toNat := h1'
      have h3 := h h2
      have : ¬ c.val ≤ 90 := by
        intro h4
        have h4 : c.val.toNat ≤ 90 := h4
        omega
      simp [this]

theorem spec_normalize_head (t : Str) : (spec_normalize t).head? = some '.' := by
  unfold spec_normalize to_lower
  by_cases h : t.head? = some '.'
  · rw [if_pos h]
    cases t with
    | nil => cases h
    | cons c m =>
      simp only [List.head?_cons, Option.some.injEq] at h
      subst h
      rfl
  · rw [if_neg h]; rfl

theorem spec_normalize_no_upper (t : Str) : ∀ c ∈ spec_normalize t, c.isUpper = false := by
  intro c hc
  unfold spec_normalize to_lower at hc
  rw [List.mem_map] at hc
  obtain ⟨d, _, rfl⟩ := hc
  exact toLower_not_upper d

/-! ## The directive scan -/

theorem compare_at_key2 (L : Str) (j : Nat) :
    compare_at L j key2 = true ↔ key2 <+: L.drop j := by
  unfold compare_at substr
  rw [List.prefix_iff_eq_take]
  simp only [beq_iff_eq]
  exact eq_comm

theorem take_nine_eq_key1 (l : Str) :
    l.take 9 = key1 ↔ l.take 8 = key2 ∧ l[8]? = some ':' := by
  have hk : key1 = key2 ++ [':'] := by decide
  have hlen2 : key2.length = 8 := by decide
  have h9 : l.take 9 = l.take 8 ++ (l.drop 8).take 1 := by
    rw [show (9 : Nat) = 8 + 1 from rfl, List.take_add]
  have htl : (l.drop 8).take 1 = [':'] ↔ l[8]? = some ':' := by
    rw [← List.head?_drop]
    cases l.drop 8 with
    | nil => simp
    | cons x xs => simp
  rw [h9, hk]
  constructor
  · intro h
    have hl : (l.take 8).length = key2.length := by
      have h1 := congrArg List.length h
      simp only [List.length_append, List.length_take, List.length_drop, List.length_singleton,
        hlen2] at h1 ⊢
      omega
    obtain ⟨h1, h2⟩ := List.append_inj h hl
    exact ⟨h1, htl.mp h2⟩
  · rintro ⟨h1, h2⟩
    rw [h1, htl.mpr h2]

theorem compare_at_key1 (L : Str) (j : Nat) :
    compare_at L j key1 = true ↔ compare_at L j key2 = true ∧ L[j + 8]? = some ':' := by
  unfold compare_at substr
  have h9 : key1.length = 9 := by decide
  have h8 : key2.length = 8 := by decide
  simp only [beq_iff_eq, h9, h8]
  rw [take_nine_eq_key1, List.getElem?_drop]

/-- The length the scan records at a position where `--ignore` occurs. -/
theorem scan_directive_here (L : Str) (k j : Nat) (hocc : compare_at L j key2 = true) :
    scan_directive L (k + 1) j = some (j, if L[j + 8]? = some ':' then 9 else 8) := by
  simp only [scan_directive]
  by_cases hc : L[j + 8]? = some ':'
  · rw [if_pos ((compare_at_key1 L j).mpr ⟨hocc, hc⟩), if_pos hc]; rfl
  · have h1 : ¬ compare_at L j key1 = true := fun h => hc ((compare_at_key1 L j).mp h).2
    rw [if_neg h1, if_pos hocc, if_neg hc]; rfl

theorem scan_directive_none (L : Str) : ∀ (k i : Nat),
    (∀ j, i ≤ j → j < i + k → compare_at L j key2 = false) → scan_directive L k i = none := by
  intro k
  induction k with
  | zero => intro i _; rfl
  | succ k ih =>
    intro i h
    have h2 : compare_at L i key2 = false := h i (Nat.le_refl _) (by omega)
    have h1 : ¬ compare_at L i key1 = true := by
      intro hc
      rw [((compare_at_key1 L i).mp hc).1] at h2
      cases h2
    simp only [scan_directive, if_neg h1, h2, Bool.false_eq_true, if_false]
    exact ih (i + 1) (fun j hj1 hj2 => h j (by omega) (by omega))

theorem scan_directive_first (L : Str) : ∀ (k i j : Nat), i ≤ j → j < i + k →
    compare_at L j key2 = true → (∀ j', i ≤ j' → j' < j → compare_at L j' key2 = false) →
    scan_directive L k i = some (j, if L[j + 8]? = some ':' then 9 else 8) := by
  intro k
  induction k with
  | zero => intro i j h1 h2; omega
  | succ k ih =>
    intro i j hij hjk hocc hbefore
    by_cases heq : i = j
    · subst heq
      exact scan_directive_here L k i hocc
    · have h2 : compare_at L i key2 = false := hbefore i (Nat.le_refl _) (by omega)
      have h1 : ¬ compare_at L i key1 = true := by
        intro hc
        rw [((compare_at_key1 L i).mp hc).1] at h2
        cases h2
      simp only [scan_directive, if_neg h1, h2, Bool.false_eq_true, if_false]
      exact ih (i + 1) j (by omega) (by omega) hocc
        (fun j' hj1 hj2 => hbefore j' (by omega) hj2)

theorem compare_at_lt_length (L : Str) (j : Nat) (h : compare_at L j key2 = true) :
    j < L.length := by
  rw [compare_at_key2] at h
  by_contra hge
  rw [List.drop_of_length_le (Nat.le_of_not_lt hge)] at h
  have := List.IsPrefix.length_le h
  simp [key2] at this

/-! ## The scenario directory -/

theorem projFs_listing (path : Str) :
    unsorted_entries projFs path = [] ∨
    unsorted_entries projFs path = ["src".toList, "readme.md".toList] ∨
    unsorted_entries projFs path = ["main.cpp".toList] := by
  unfold unsorted_entries
  simp only [projFs]
  split
  · exact Or.inl rfl
  · by_cases h1 : trim path ++ ['\\', '*'] = "C:\\proj\\*".toList
    · rw [if_pos h1]
      exact Or.inr (Or.inl (by decide))
    · rw [if_neg h1]
      by_cases h2 : trim path ++ ['\\', '*'] = "C:\\proj\\src\\*".toList
      · rw [if_pos h2]
        exact Or.inr (Or.inr (by decide))
      · rw [if_neg h2]
        exact Or.inl rfl

theorem projFs_distinct (path : Str) :
    ∀ a ∈ unsorted_entries projFs path, ∀ b ∈ unsorted_entries projFs path,
      to_lower a = to_lower b → a = b := by
  rcases projFs_listing path with h | h | h <;> rw [h] <;> decide

theorem workFs_listing (path : Str) :
    unsorted_entries workFs path = [] ∨
    unsorted_entries workFs path =
      ["zeta.cpp".toList, "LICENSE".toList, "notes.txt".toList] := by
  unfold unsorted_entries
  simp only [workFs]
  split
  · exact Or.inl rfl
  · by_cases h1 : trim path ++ ['\\', '*'] = "D:\\work\\*".toList
    · rw [if_pos h1]
      exact Or.inr (by decide)
    · rw [if_neg h1]
      exact Or.inl rfl

theorem workFs_distinct (path : Str) :
    ∀ a ∈ unsorted_entries workFs path, ∀ b ∈ unsorted_entries workFs path,
      to_lower a = to_lower b → a = b := by
  rcases workFs_listing path with h | h <;> rw [h] <;> decide

/-! ## The driver -/

theorem parse_line_fst (S : StdSort) (line : Str) :
    (parse_line S line).1 = (split_line line).1 := by
  unfold parse_line
  split <;> rename_i h <;> rw [h]

/-- The three ways `main` ends. -/
theorem main_eq (fuel : Nat) (fs : FileSystem) (S : StdSort) (input : Str) :
    main fuel fs S input =
      if trim input = [] then some (abort "No input provided. Exiting.".toList)
      else if sanitize_path (split_line (trim input)).1 = [] ∨
          fs.is_directory (sanitize_path (split_line (trim input)).1) = false then
        some (abort "Invalid or inaccessible directory path. Exiting.".toList)
      else
        (print_tree fuel fs S (sanitize_path (split_line (trim input)).1) []
          (parse_line S (trim input)).2
          { out := header_lines (sanitize_path (split_line (trim input)).1)
              (parse_line S (trim input)).2,
            folderCount := 0, fileCount := 0 }).map
          (finish (sanitize_path (split_line (trim input)).1)) := by
  rw [← parse_line_fst S]
  unfold main
  simp only
  by_cases h1 : trim input = []
  · simp [h1, abort]
  · have h1' : (trim input).isEmpty = false := by
      cases h : trim input with
      | nil => exact absurd h h1
      | cons _ _ => rfl
    rw [if_neg h1]
    simp only [h1', Bool.false_eq_true, if_false]
    by_cases h2 : sanitize_path (parse_line S (trim input)).1 = [] ∨
        fs.is_directory (sanitize_path (parse_line S (trim input)).1) = false
    · rw [if_pos h2]
      have : ((sanitize_path (parse_line S (trim input)).1).isEmpty ||
          !fs.is_directory (sanitize_path (parse_line S (trim input)).1)) = true := by
        rcases h2 with h2 | h2
        · simp [h2]
        · simp [h2]
      rw [if_pos this]
      rfl
    · rw [if_neg h2]
      have : ¬ ((sanitize_path (parse_line S (trim input)).1).isEmpty ||
          !fs.is_directory (sanitize_path (parse_line S (trim input)).1)) = true := by
        intro h
        apply h2
        simp only [Bool.or_eq_true, List.isEmpty_iff, Bool.not_eq_true'] at h
        exact h
      rw [if_neg this]
      simp only [header_lines]
      split
      · rename_i h; rw [h]; rfl
      · rename_i w h; rw [h]; rfl

/-! ## The characters of an ignore list element -/

theorem is_separator_toLower (c : Char) : is_separator c.toLower = is_separator c := by
  by_cases h : 65 ≤ c.toNat ∧ c.toNat ≤ 90
  · have hc : c = Char.ofNat c.toNat := (Char.ofNat_toNat c).symm
    rw [hc]
    generalize c.toNat = n at h
    obtain ⟨h1, h2⟩ := h
    interval_cases n <;> decide
  · have : c.toLower = c := by
      unfold Char.toLower
      simp only
      rw [if_neg h]
    rw [this]

/-- An element of the parsed list: a `.` followed by lowercased characters of a
token, none of them a separator. -/
theorem parse_mem_shape (S : StdSort) (raw e : Str) (he : e ∈ parse_ignored_extensions S raw) :
    ∃ rest, e = '.' :: rest ∧ ∀ c ∈ rest, c.isUpper = false ∧ is_separator c = false := by
  obtain ⟨t, ht, rfl⟩ := (parse_mem_iff S raw e).mp he
  have hsep : ∀ x ∈ t, is_separator x = false := by
    unfold spec_tokens tokens_on at ht
    exact splitOnP_sep_free is_separator raw t (List.mem_filter.mp ht).1
  have hall : ∀ (u : Str), (∀ x ∈ u, is_separator x = false) →
      ∀ c ∈ to_lower u, c.isUpper = false ∧ is_separator c = false := by
    intro u hu c hc
    unfold to_lower at hc
    obtain ⟨d, hd, rfl⟩ := List.mem_map.mp hc
    exact ⟨toLower_not_upper d, by rw [is_separator_toLower]; exact hu d hd⟩
  unfold spec_normalize
  by_cases hh : t.head? = some '.'
  · rw [if_pos hh]
    cases t with
    | nil => cases hh
    | cons c m =>
      simp only [List.head?_cons, Option.some.injEq] at hh
      subst hh
      refine ⟨to_lower m, rfl, hall m (fun x hx => hsep x (List.mem_cons_of_mem _ hx))⟩
  · rw [if_neg hh]
    exact ⟨to_lower t, rfl, hall t hsep⟩

/-! ## Names that differ in case only -/

/-- Two rearrangements of each other in which all elements are equal are the same
list. -/
theorem perm_eq_of_all_eq {l₁ l₂ : List Str} (hp : l₁.Perm l₂)
    (h : ∀ x ∈ l₁, ∀ y ∈ l₁, x = y) : l₁ = l₂ := by
  have hpw : ∀ l : List Str, (∀ x ∈ l, ∀ y ∈ l, x = y) → l.Pairwise (fun a b => a = b) := by
    intro l
    induction l with
    | nil => intro _; exact List.Pairwise.nil
    | cons a as ih =>
      intro hl
      rw [List.pairwise_cons]
      exact ⟨fun b hb => hl a (List.mem_cons_self _ _) b (List.mem_cons_of_mem _ hb),
        ih (fun x hx y hy => hl x (List.mem_cons_of_mem _ hx) y (List.mem_cons_of_mem _ hy))⟩
  have h₂ : ∀ x ∈ l₂, ∀ y ∈ l₂, x = y :=
    fun x hx y hy => h x (hp.mem_iff.mpr hx) y (hp.mem_iff.mpr hy)
  have hanti : ∀ a b : Str, a ∈ l₁ → b ∈ l₂ → a = b → b = a → a = b :=
    fun _ _ _ _ hab _ => hab
  exact List.Perm.eq_of_sorted hanti (hpw l₁ h) (hpw l₂ h₂) hp

/-- Inserting into a list keeps the order among the names of one lowercased form. -/
theorem insert_sorted_filter (k a : Str) (l : List Str) :
    (insert_sorted (fun a b => strLt (to_lower a) (to_lower b)) a l).filter
        (fun x => to_lower x == k) =
      (a :: l).filter (fun x => to_lower x == k) := by
  induction l with
  | nil => rfl
  | cons b bs ih =>
    unfold insert_sorted
    by_cases hlt : strLt (to_lower b) (to_lower a) = true
    · rw [if_pos hlt]
      have hne : ¬ (to_lower a = k ∧ to_lower b = k) := by
        rintro ⟨ha, hb⟩
        rw [ha, hb, strLt_irrefl] at hlt
        cases hlt
      rw [List.filter_cons, ih]
      by_cases ha : to_lower a = k
      · have hb : ¬ to_lower b = k := fun hb => hne ⟨ha, hb⟩
        simp [List.filter_cons, ha, hb]
      · simp [List.filter_cons, ha]
    · rw [if_neg hlt]

/-- The insertion sort is stable: names with the same lowercased form keep the
order of the input. -/
theorem insertion_sort_stable (l : List Str) :
    keeps_tie_order l (insertion_sort (fun a b => strLt (to_lower a) (to_lower b)) l) := by
  intro k
  induction l with
  | nil => rfl
  | cons a as ih =>
    unfold insertion_sort
    rw [insert_sorted_filter, List.filter_cons, List.filter_cons, ih]

/-- Read in lowercase, the sorted listing is the same under every `std::sort`. -/
theorem sorted_lower_eq (S S' : StdSort) (l : List Str) :
    (S.sort (fun a b => strLt (to_lower a) (to_lower b)) l).map to_lower =
      (S'.sort (fun a b => strLt (to_lower a) (to_lower b)) l).map to_lower := by
  have hs : ∀ T : StdSort,
      ((T.sort (fun a b => strLt (to_lower a) (to_lower b)) l).map to_lower).Pairwise
        (fun x y => strLt y x = false) := by
    intro T
    rw [List.pairwise_map]
    exact T.sorted _ _ strictWeak_lower
  have hp : ((S.sort (fun a b => strLt (to_lower a) (to_lower b)) l).map to_lower).Perm
      ((S'.sort (fun a b => strLt (to_lower a) (to_lower b)) l).map to_lower) :=
    ((S.perm _ _).trans (S'.perm _ _).symm).map _
  exact List.Perm.eq_of_sorted (fun a b _ _ hab hba => strLt_total a b hba hab) (hs S) (hs S') hp

/-! ## Prefixes -/

theorem segments_append (a : List Bool) (b : Bool) :
    segments (a ++ [b]) = segments a ++ indent b := by
  simp [segments]

theorem indent_length (b : Bool) : (indent b).length = 5 := by
  cases b <;> rfl

theorem segments_length (a : List Bool) : (segments a).length = 5 * a.length := by
  induction a with
  | nil => rfl
  | cons b bs ih =>
    have : segments (b :: bs) = indent b ++ segments bs := by simp [segments]
    rw [this, List.length_append, indent_length, ih, List.length_cons]
    omega

/-- The `k`-th segment of a prefix is the indentation of the `k`-th ancestor. -/
theorem segments_get (a : List Bool) : ∀ (k : Nat) (b : Bool), a[k]? = some b →
    ((segments a).drop (5 * k)).take 5 = indent b := by
  induction a with
  | nil => intro k b h; simp at h
  | cons x xs ih =>
    intro k b h
    have hs : segments (x :: xs) = indent x ++ segments xs := by simp [segments]
    cases k with
    | zero =>
      simp only [List.getElem?_cons_zero, Option.some.injEq] at h
      subst h
      rw [hs, Nat.mul_zero, List.drop_zero, ← indent_length x, List.take_left]
    | succ k =>
      simp only [List.getElem?_cons_succ] at h
      have h5 : 5 * (k + 1) = (indent x).length + 5 * k := by rw [indent_length]; omega
      rw [hs, h5, List.drop_append]
      exact ih k b h

theorem loop_lines_visits (fs : FileSystem) (sub : Str → Str → List Line)
    (subv : Str → List Bool → List Visit) (path : Str) (ign : List Str) (n : Nat)
    (hsub : ∀ p a, sub p (segments a) = (subv p a).map visit_line)
    (anc : List Bool) (items : List Str) :
    ∀ (i : Nat),
      loop_lines fs sub path (segments anc) ign n i items =
        (loop_visits fs subv path anc ign n i items).map visit_line := by
  induction items with
  | nil => intro i; rfl
  | cons item rest ih =>
    intro i
    simp only [loop_lines, loop_visits, List.map_append, ih]
    congr 1
    unfold item_lines item_visits
    split
    · rw [← segments_append, hsub]
      simp [visit_line]
    · split
      · rfl
      · simp [visit_line]

/-- The lines of a tree are the lines of its visits. -/
theorem tree_lines_visits (fs : FileSystem) (S : StdSort) (ign : List Str) :
    ∀ (fuel : Nat) (path : Str) (anc : List Bool),
      tree_lines fs S ign fuel path (segments anc) =
        (tree_visits fs S ign fuel path anc).map visit_line := by
  intro fuel
  induction fuel with
  | zero => intro path anc; rfl
  | succ fuel ih =>
    intro path anc
    simp only [tree_lines, tree_visits]
    exact loop_lines_visits fs _ _ path ign _ (fun p a => ih p a) anc _ 0

theorem visit_line_marker (v : Visit) :
    ∃ body, visit_line v = (TREE, segments v.ancestors ++ branch v.isLast) :: body := by
  unfold visit_line
  split
  · exact ⟨_, rfl⟩
  · unfold file_line
    cases find_last_of v.name '.'
    · exact ⟨_, rfl⟩
    · exact ⟨_, rfl⟩

/-! ## Folder lines -/

theorem loop_lines_folder_names (fs : FileSystem) (sub : Str → Str → List Line)
    (names : Str → List Str) (path : Str) (ign : List Str) (n : Nat)
    (hsub : ∀ p q, ((sub p q).filter is_folder_line).map entry_name = names p)
    (items : List Str) :
    ∀ (pre : Str) (i : Nat),
      ((loop_lines fs sub path pre ign n i items).filter is_folder_line).map entry_name =
        items.flatMap (fun item =>
          if fs.is_directory (full_path path item) then item :: names (full_path path item)
          else []) := by
  induction items with
  | nil => intro pre i; simp [loop_lines]
  | cons item rest ih =>
    intro pre i
    simp only [loop_lines, List.filter_append, List.map_append, ih, List.flatMap_cons]
    congr 1
    unfold item_lines
    split
    · simp [List.filter_cons, is_folder_line_folder_line, entry_name_folder_line, hsub]
    · split
      · simp
      · simp [List.filter_cons, is_folder_line_file_line]

theorem tree_lines_folder_names (fs : FileSystem) (S : StdSort) (ign : List Str) :
    ∀ (fuel : Nat) (path pre : Str),
      ((tree_lines fs S ign fuel path pre).filter is_folder_line).map entry_name =
        folder_names fs S fuel path := by
  intro fuel
  induction fuel with
  | zero => intro path pre; simp [tree_lines, folder_names]
  | succ fuel ih =>
    intro path pre
    simp only [tree_lines, folder_names]
    exact loop_lines_folder_names fs _ (folder_names fs S fuel) path ign _
      (fun p q => ih p q) _ _ _

/-- The folder lines name the directories below the root, each once. -/
theorem folder_names_perm (fs : FileSystem) (S : StdSort) :
    ∀ (fuel : Nat) (path : Str),
      (folder_names fs S fuel path).Perm (dirs_below fs fuel path) := by
  intro fuel
  induction fuel with
  | zero => intro path; simp [folder_names, dirs_below]
  | succ fuel ih =>
    intro path
    simp only [folder_names, dirs_below]
    have hperm : (get_directory_entries fs S path).Perm (unsorted_entries fs path) :=
      S.perm _ _
    refine (List.Perm.flatMap_right _ hperm).trans ?_
    refine List.Perm.flatMap_left _ ?_
    intro item _
    split
    · exact List.Perm.cons _ (ih _)
    · exact List.Perm.refl _

/-- A list of folder lines and file lines is as long as the two kinds together. -/
theorem length_folder_file (L : List Line)
    (h : ∀ l ∈ L, (∃ q b name, l = folder_line q b name) ∨ (∃ q b name, l = file_line q b name)) :
    L.length = (L.filter is_folder_line).length + (L.filter is_file_line).length := by
  induction L with
  | nil => rfl
  | cons l ls ih =>
    have ih := ih (fun x hx => h x (List.mem_cons_of_mem _ hx))
    rcases h l (List.mem_cons_self _ _) with ⟨q, b, name, rfl⟩ | ⟨q, b, name, rfl⟩
    · simp only [List.filter_cons, is_folder_line_folder_line, is_file_line_folder_line,
        if_true, Bool.false_eq_true, if_false, List.length_cons]
      omega
    · simp only [List.filter_cons, is_folder_line_file_line, is_file_line_file_line,
        if_true, Bool.false_eq_true, if_false, List.length_cons]
      omega

/-! ## Pre-order -/

theorem loop_lines_enum (fs : FileSystem) (sub : Str → Str → List Line) (path pre : Str)
    (ign : List Str) (n : Nat) (items : List Str) :
    ∀ (i : Nat),
      loop_lines fs sub path pre ign n i items =
        (items.enumFrom i).flatMap
          (fun p => item_lines fs sub path pre ign (p.1 == n - 1) p.2) := by
  induction items with
  | nil => intro i; rfl
  | cons item rest ih =>
    intro i
    simp only [loop_lines, List.enumFrom_cons, List.flatMap_cons, ih]

theorem print_tree_output_eq (fs : FileSystem) (S : StdSort) (ign : List Str) (fuel : Nat)
    (path pre : Str) (hfin : finite_below fs fuel path = true) :
    print_tree_output fuel fs S ign path pre = tree_lines fs S ign fuel path pre := by
  unfold print_tree_output
  rw [print_tree_eq, if_pos hfin]
  simp [Walk.extend]

/-! ## The ignore list as a filter -/

theorem is_ignored_extension_nil (f : Str) : is_ignored_extension f [] = false := by
  unfold is_ignored_extension
  cases find_last_of f '.' <;> simp

theorem not_file_of_folder (l : Line) (h : is_folder_line l = true) : is_file_line l = false := by
  unfold is_folder_line at h
  unfold is_file_line
  split at h
  · rename_i t _ c _ _
    simp only [Bool.and_eq_true, beq_iff_eq] at h
    simp [h.1, h.2, FOLDER, DEFAULT]
  · cases h

theorem loop_lines_filter (fs : FileSystem) (sub sub₀ : Str → Str → List Line) (path : Str)
    (ign : List Str) (n : Nat)
    (hsub : ∀ p q, sub p q = (sub₀ p q).filter (fun l => !is_hidden_line ign l))
    (items : List Str) :
    ∀ (pre : Str) (i : Nat),
      loop_lines fs sub path pre ign n i items =
        (loop_lines fs sub₀ path pre [] n i items).filter (fun l => !is_hidden_line ign l) := by
  induction items with
  | nil => intro pre i; rfl
  | cons item rest ih =>
    intro pre i
    simp only [loop_lines, List.filter_append, ih]
    congr 1
    unfold item_lines
    rw [is_ignored_extension_nil]
    by_cases hd : fs.is_directory (full_path path item) = true
    · simp [hd, List.filter_cons, is_hidden_line, is_file_line_folder_line, hsub]
    · by_cases hi : is_ignored_extension item ign = true
      · simp [hd, hi, List.filter_cons, is_hidden_line, is_file_line_file_line,
          entry_name_file_line]
      · simp [hd, hi, List.filter_cons, is_hidden_line, is_file_line_file_line,
          entry_name_file_line]

/-- The lines written with an ignore list are those written without one, the lines
of the ignored files left out. -/
theorem tree_lines_filter (fs : FileSystem) (S : StdSort) (ign : List Str) :
    ∀ (fuel : Nat) (path pre : Str),
      tree_lines fs S ign fuel path pre =
        (tree_lines fs S [] fuel path pre).filter (fun l => !is_hidden_line ign l) := by
  intro fuel
  induction fuel with
  | zero => intro path pre; rfl
  | succ fuel ih =>
    intro path pre
    simp only [tree_lines]
    exact loop_lines_filter fs _ _ path ign _ (fun p q => ih p q) _ pre 0

theorem filter_folder_of_visible (ign : List Str) (L : List Line) :
    (L.filter (fun l => !is_hidden_line ign l)).filter is_folder_line =
      L.filter is_folder_line := by
  rw [List.filter_filter]
  refine List.filter_congr ?_
  intro l _
  cases h : is_folder_line l with
  | false => simp
  | true => simp [is_hidden_line, not_file_of_folder l h]

/-! ## Suffixes with one dot -/

theorem toLower_eq_dot (c : Char) (h : c.toLower = '.') : c = '.' := by
  by_cases hu : 65 ≤ c.toNat ∧ c.toNat ≤ 90
  · exfalso
    have hc : c = Char.ofNat c.toNat := (Char.ofNat_toNat c).symm
    rw [hc] at h
    generalize c.toNat = n at hu h
    obtain ⟨h1, h2⟩ := hu
    revert h
    interval_cases n <;> decide
  · have : c.toLower = c := by
      unfold Char.toLower
      simp only
      rw [if_neg hu]
    rw [this] at h
    exact h

/-- An element that does not start with `.` or holds a `.` after its first
character equals the extension of no file name. -/
theorem not_ignored_of_dots (e f : Str) (h : e.head? ≠ some '.' ∨ '.' ∈ e.drop 1) :
    is_ignored_extension f [e] = false := by
  cases hi : is_ignored_extension f [e] with
  | false => rfl
  | true =>
    exfalso
    obtain ⟨stem, ext, _, hdot, hmem⟩ := (is_ignored_extension_iff f [e]).mp hi
    rw [List.mem_singleton] at hmem
    have he : e = '.' :: to_lower ext := by
      rw [← hmem]
      rfl
    rcases h with h | h
    · apply h
      rw [he]
      rfl
    · rw [he] at h
      simp only [List.drop_succ_cons, List.drop_zero] at h
      unfold to_lower at h
      obtain ⟨d, hd, hdl⟩ := List.mem_map.mp h
      have := toLower_eq_dot d hdl
      subst this
      exact hdot hd

theorem archiveFs_listing (path : Str) :
    unsorted_entries archiveFs path = [] ∨
    unsorted_entries archiveFs path = ["a.tar.gz".toList] := by
  unfold unsorted_entries
  simp only [archiveFs]
  split
  · exact Or.inl rfl
  · by_cases h1 : trim path ++ ['\\', '*'] = "F:\\pkg\\*".toList
    · rw [if_pos h1]
      exact Or.inr (by decide)
    · rw [if_neg h1]
      exact Or.inl rfl

theorem archiveFs_distinct (path : Str) :
    ∀ a ∈ unsorted_entries archiveFs path, ∀ b ∈ unsorted_entries archiveFs path,
      to_lower a = to_lower b → a = b := by
  rcases archiveFs_listing path with h | h <;> rw [h] <;> decide

/-- The ignore list of a single token, under every `std::sort`. -/
theorem parse_single (S : StdSort) (raw e : Str)
    (h : parse_ignored_extensions insertionSort raw = [e]) :
    parse_ignored_extensions S raw = [e] := by
  have hmem : ∀ x, x ∈ parse_ignored_extensions S raw ↔ x = e := by
    intro x
    rw [parse_mem_iff, ← parse_mem_iff insertionSort raw x, h, List.mem_singleton]
  have hs : (parse_ignored_extensions S raw).Pairwise (fun a b => strLt a b = true) := by
    unfold parse_ignored_extensions
    exact unique_strict _ (S.sorted _ _ strictWeak_strLt)
  cases hl : parse_ignored_extensions S raw with
  | nil =>
    have := (hmem e).mpr rfl
    rw [hl] at this
    cases this
  | cons a rest =>
    rw [hl] at hs
    have ha : a = e := (hmem a).mp (by rw [hl]; exact List.mem_cons_self _ _)
    cases rest with
    | nil => rw [ha]
    | cons b r =>
      have hb : b = e :=
        (hmem b).mp (by rw [hl]; exact List.mem_cons_of_mem _ (List.mem_cons_self _ _))
      have := (List.pairwise_cons.mp hs).1 b (List.mem_cons_self _ _)
      rw [ha, hb, strLt_irrefl] at this
      cases this

/-! ## The partial operations stay in their domain -/

theorem find_last_lt (p : Char → Bool) (s : Str) :
    ∀ b, find_last p s = some b → b < s.length := by
  induction s with
  | nil => intro b h; simp [find_last] at h
  | cons c cs ih =>
    intro b h
    simp only [find_last] at h
    cases hcs : find_last p cs with
    | some j =>
      rw [hcs] at h
      simp only [Option.some.injEq] at h
      subst h
      have := ih j hcs
      simp only [List.length_cons]
      omega
    | none =>
      rw [hcs] at h
      simp only at h
      split at h
      · simp only [Option.some.injEq] at h
        subst h
        simp
      · cases h

/-- Where a first match exists a last one exists, at the same index or later. -/
theorem find_first_le_last (p : Char → Bool) (s : Str) :
    ∀ a, find_first p s = some a → ∃ b, find_last p s = some b ∧ a ≤ b := by
  induction s with
  | nil => intro a h; simp [find_first] at h
  | cons c cs ih =>
    intro a h
    simp only [find_first] at h
    by_cases hc : p c = true
    · rw [if_pos hc] at h
      simp only [Option.some.injEq] at h
      subst h
      simp only [find_last]
      cases find_last p cs with
      | some j => exact ⟨j + 1, rfl, Nat.zero_le _⟩
      | none => exact ⟨0, by simp [hc], Nat.le_refl _⟩
    · rw [if_neg hc] at h
      cases hcs : find_first p cs with
      | none => rw [hcs] at h; cases h
      | some a' =>
        rw [hcs] at h
        simp only [Option.map_some', Option.some.injEq] at h
        subst h
        obtain ⟨b', hb', hle⟩ := ih a' hcs
        exact ⟨b' + 1, by simp [find_last, hb'], by omega⟩

theorem trim_checked_eq (s : Str) : trim_checked s = some (trim s) := by
  unfold trim_checked trim
  cases ha : find_first_not_of s with
  | none => rfl
  | some a =>
    obtain ⟨b, hb, hab⟩ := find_first_le_last _ s a ha
    have hb' : find_last_not_of s = some b := hb
    have hlt : b < s.length := find_last_lt _ s b hb
    simp only [hb']
    rw [if_pos ⟨hab, by omega⟩]

theorem unsorted_entries_blank (fs : FileSystem) (path : Str) (h : trim path = []) :
    unsorted_entries fs path = [] := by
  unfold unsorted_entries
  simp [h]

theorem get_directory_entries_blank (fs : FileSystem) (S : StdSort) (path : Str)
    (h : trim path = []) : get_directory_entries fs S path = [] := by
  have hp : (get_directory_entries fs S path).Perm (unsorted_entries fs path) := S.perm _ _
  rw [unsorted_entries_blank fs path h] at hp
  exact List.Perm.eq_nil hp

/-- A directory with entries has a non-empty path. -/
theorem path_ne_nil_of_entries (fs : FileSystem) (S : StdSort) (path : Str)
    (h : get_directory_entries fs S path ≠ []) : path ≠ [] := by
  intro hp
  apply h
  apply get_directory_entries_blank
  rw [hp]
  rfl

theorem print_item_checked_eq (fs : FileSystem) (recur : Str → Str → Walk → Option Walk)
    (recur_c : Str → Str → Walk → Outcome)
    (hrec : ∀ p q v, recur_c p q v = Outcome.ofOption (recur p q v))
    (path pre : Str) (ign : List Str) (n i : Nat) (item : Str) (w : Walk)
    (hn : n ≠ 0) (hpath : path ≠ []) :
    print_item_checked fs recur_c path pre ign n i item w =
      Outcome.ofOption (print_item fs recur path pre ign (i == n - 1) item w) := by
  unfold print_item_checked print_item full_path
  rw [if_neg hn]
  rcases List.eq_nil_or_concat path with hnil | ⟨init, c, hc⟩
  · exact absurd hnil hpath
  · have hlast : path.getLast? = some c := by rw [hc]; simp
    simp only [hlast, hrec]
    have hbeq : (some c == some '\\') = (c == '\\') := by
      by_cases h : c = '\\'
      · simp [h]
      · simp [h]
    rw [hbeq]
    simp only [apply_ite Outcome.ofOption]
    rfl

theorem print_loop_checked_eq (fs : FileSystem) (recur : Str → Str → Walk → Option Walk)
    (recur_c : Str → Str → Walk → Outcome)
    (hrec : ∀ p q v, recur_c p q v = Outcome.ofOption (recur p q v))
    (path pre : Str) (ign : List Str) (n : Nat) (items : List Str) :
    ∀ (i : Nat) (w : Walk), (items ≠ [] → n ≠ 0 ∧ path ≠ []) →
      print_loop_checked fs recur_c path pre ign n i items w =
        Outcome.ofOption (print_loop fs recur path pre ign n i items w) := by
  induction items with
  | nil => intro i w _; rfl
  | cons item rest ih =>
    intro i w h
    obtain ⟨hn, hpath⟩ := h (List.cons_ne_nil _ _)
    simp only [print_loop_checked, print_loop,
      print_item_checked_eq fs recur recur_c hrec path pre ign n i item w hn hpath]
    cases print_item fs recur path pre ign (i == n - 1) item w with
    | none => rfl
    | some w' =>
      simp only [Outcome.ofOption]
      exact ih (i + 1) w' (fun _ => ⟨hn, hpath⟩)

/-- The checked traversal never stops for a partial operation: it ends as the
unchecked one does. -/
theorem print_tree_checked_eq (fs : FileSystem) (S : StdSort) (ign : List Str) :
    ∀ (fuel : Nat) (path pre : Str) (w : Walk),
      print_tree_checked fuel fs S path pre ign w =
        Outcome.ofOption (print_tree fuel fs S path pre ign w) := by
  intro fuel
  induction fuel with
  | zero => intro path pre w; rfl
  | succ fuel ih =>
    intro path pre w
    simp only [print_tree_checked, print_tree]
    refine print_loop_checked_eq fs _ _ (fun p q v => ih p q v) path pre ign _ _ 0 w ?_
    intro hne
    refine ⟨?_, path_ne_nil_of_entries fs S path hne⟩
    intro h0
    exact hne (List.length_eq_zero.mp h0)

/-! ## Counting lines -/

/-- There are as many folder lines as directories below the root. -/
theorem tree_lines_folder_count (fs : FileSystem) (S : StdSort) (ign : List Str)
    (fuel : Nat) (path pre : Str) :
    ((tree_lines fs S ign fuel path pre).filter is_folder_line).length =
      (dirs_below fs fuel path).length := by
  have h := (folder_names_perm fs S fuel path).length_eq
  rw [← tree_lines_folder_names fs S ign fuel path pre, List.length_map] at h
  exact h

/-- There are as many file lines as files that are not ignored. -/
theorem tree_lines_file_count (fs : FileSystem) (S : StdSort) (ign : List Str)
    (fuel : Nat) (path pre : Str) :
    ((tree_lines fs S ign fuel path pre).filter is_file_line).length =
      ((files_below fs fuel path).filter (fun f => !is_ignored_extension f ign)).length := by
  have h := (file_names_perm fs S ign fuel path).length_eq
  rw [← tree_lines_file_names fs S ign fuel path pre, List.length_map] at h
  exact h

/-- Incrementing below `INT_MAX` does not decrease. -/
theorem le_int_incr_iterate (n : Nat) (x : Int) (h : x + n ≤ INT_MAX) :
    x ≤ Nat.iterate int_incr n x := by
  rw [int_incr_iterate n x h]
  omega

/-- From `INT_MAX` one more increment leads to `INT_MIN`. -/
theorem int_incr_iterate_wrap : Nat.iterate int_incr 2147483648 0 = INT_MIN := by
  rw [show (2147483648 : Nat) = 2147483647 + 1 from rfl, Function.iterate_succ_apply',
    int_incr_iterate 2147483647 0 (by decide)]
  decide

/-! ## A directory of 2^31 files -/

theorem hugeNames_length : hugeNames.length = 2147483648 := by
  unfold hugeNames
  rw [List.length_map, List.length_range]

theorem unsorted_entries_hugeFs : unsorted_entries hugeFs "H:\\big".toList = hugeNames := by
  have htrim : trim "H:\\big".toList = "H:\\big".toList := by decide
  have hpat : "H:\\big".toList ++ ['\\', '*'] = "H:\\big\\*".toList := by decide
  unfold unsorted_entries
  simp only [htrim, hpat, hugeFs, if_true]
  rw [if_neg (by decide)]
  have h1 : (".".toList != ['.'] && ".".toList != ['.', '.']) = false := by decide
  have h2 : ("..".toList != ['.'] && "..".toList != ['.', '.']) = false := by decide
  rw [List.filter_cons_of_neg (by rw [h1]; exact Bool.false_ne_true),
    List.filter_cons_of_neg (by rw [h2]; exact Bool.false_ne_true)]
  rw [List.filter_eq_self]
  intro name hname
  unfold hugeNames at hname
  rw [List.mem_map] at hname
  obtain ⟨i, _, rfl⟩ := hname
  have hf : ('f' == '.') = false := by decide
  simp only [bne, List.cons_beq_cons, hf, Bool.false_and, Bool.not_false, Bool.and_self]

theorem hugeFs_no_directory (item : Str) :
    hugeFs.is_directory (full_path "H:\\big".toList item) = false := by
  have hlast : ("H:\\big".toList.getLast? == some '\\') = false := by decide
  have hne : "H:\\big".toList ++ ['\\'] ++ item ≠ "H:\\big".toList := by
    intro h
    have := congrArg List.length h
    have h6 : "H:\\big".toList.length = 6 := by decide
    simp only [List.length_append, List.length_cons, List.length_nil, h6] at this
    omega
  unfold full_path
  simp only [hlast, hugeFs, Bool.false_eq_true, if_false]
  exact decide_eq_false hne

theorem finite_below_hugeFs : finite_below hugeFs 1 "H:\\big".toList = true := by
  unfold finite_below
  rw [List.all_eq_true]
  intro item _
  rw [hugeFs_no_directory]
  rfl

theorem files_below_hugeFs : files_below hugeFs 1 "H:\\big".toList = hugeNames := by
  unfold files_below
  rw [unsorted_entries_hugeFs]
  have h : ∀ l : List Str, l.flatMap (fun item =>
      if hugeFs.is_directory (full_path "H:\\big".toList item) = true then
        files_below hugeFs 0 (full_path "H:\\big".toList item)
      else [item]) = l := by
    intro l
    induction l with
    | nil => rfl
    | cons a l ih =>
      rw [List.flatMap_cons, ih, hugeFs_no_directory]
      rfl
  exact h _

/-! ## The claims -/

/-- C2, where the claim fails: started with `folderCount` at `INT_MAX`, the walk of
the scenario directory writes one folder line and ends with `folderCount` at
`INT_MIN`, which is not `INT_MAX + 1` and is smaller than before; so it is under
every `std::sort` and every recursion bound from 2 on. -/
theorem folder_counter_wraps :
    print_tree 2 projFs insertionSort "C:\\proj".toList [] []
        { out := [], folderCount := 2147483647, fileCount := 0 } =
      some { out := [[(TREE, "|-->".toList), (DEFAULT, "readme".toList),
                      (EXTENSION, ".md".toList)],
                     [(TREE, "#-->".toList), (FOLDER, "[src]".toList)],
                     [(TREE, "     #-->".toList), (DEFAULT, "main".toList),
                      (EXTENSION, ".cpp".toList)]],
             folderCount := -2147483648, fileCount := 2 } ∧
    (-2147483648 : Int) < 2147483647 ∧ (-2147483648 : Int) ≠ 2147483647 + 1 ∧
    (∀ (S : StdSort) (fuel : Nat),
      print_tree (fuel + 2) projFs S "C:\\proj".toList [] []
          { out := [], folderCount := 2147483647, fileCount := 0 } =
        some { out := [[(TREE, "|-->".toList), (DEFAULT, "readme".toList),
                        (EXTENSION, ".md".toList)],
                       [(TREE, "#-->".toList), (FOLDER, "[src]".toList)],
                       [(TREE, "     #-->".toList), (DEFAULT, "main".toList),
                        (EXTENSION, ".cpp".toList)]],
               folderCount := -2147483648, fileCount := 2 }) := by
  have heval : print_tree 2 projFs insertionSort "C:\\proj".toList [] []
        { out := [], folderCount := 2147483647, fileCount := 0 } =
      some { out := [[(TREE, "|-->".toList), (DEFAULT, "readme".toList),
                      (EXTENSION, ".md".toList)],
                     [(TREE, "#-->".toList), (FOLDER, "[src]".toList)],
                     [(TREE, "     #-->".toList), (DEFAULT, "main".toList),
                      (EXTENSION, ".cpp".toList)]],
             folderCount := -2147483648, fileCount := 2 } := by decide
  refine ⟨heval, by decide, by decide, ?_⟩
  intro S fuel
  rw [print_tree_sort projFs S insertionSort _ projFs_distinct, Nat.add_comm]
  exact print_tree_fuel projFs insertionSort _ 2 _ _ _ _ heval fuel

/-- C2, amended: on a finite directory tree `print_tree` returns with `folderCount`
incremented once for every folder line it wrote and `fileCount` once for every file
line, as 32-bit integers; every line it wrote is one of the two, a folder line being
prefix, branch and the bracketed name; as long as the initial value plus the number
of lines does not exceed `INT_MAX`, the counter has grown by exactly that number and
is not smaller than before. -/
theorem print_tree_counters (fs : FileSystem) (S : StdSort) (ign : List Str)
    (fuel : Nat) (path pre : Str) (w : Walk) (hfin : finite_below fs fuel path = true) :
    ∃ w' lines,
      print_tree fuel fs S path pre ign w = some w' ∧
      w'.out = w.out ++ lines ∧
      w'.folderCount = Nat.iterate int_incr (lines.filter is_folder_line).length w.folderCount ∧
      w'.fileCount = Nat.iterate int_incr (lines.filter is_file_line).length w.fileCount ∧
      (∀ l ∈ lines,
        (is_folder_line l = true ∧ is_file_line l = false ∧
          ∃ q b name, lineText l = q ++ branch b ++ ['['] ++ name ++ [']']) ∨
        (is_file_line l = true ∧ is_folder_line l = false ∧
          ∃ q b name, lineText l = q ++ branch b ++ name)) ∧
      (w.folderCount + ((lines.filter is_folder_line).length : Nat) ≤ INT_MAX →
        w'.folderCount = w.folderCount + ((lines.filter is_folder_line).length : Nat) ∧
        w.folderCount ≤ w'.folderCount) ∧
      (w.fileCount + ((lines.filter is_file_line).length : Nat) ≤ INT_MAX →
        w'.fileCount = w.fileCount + ((lines.filter is_file_line).length : Nat) ∧
        w.fileCount ≤ w'.fileCount) := by
  refine ⟨w.extend (tree_lines fs S ign fuel path pre), tree_lines fs S ign fuel path pre,
    ?_, rfl, rfl, rfl, ?_, ?_, ?_⟩
  · rw [print_tree_eq, if_pos hfin]
  · intro l hl
    rcases tree_lines_shape fs S ign fuel path pre l hl with ⟨q, b, name, rfl⟩ | ⟨q, b, name, rfl⟩
    · refine Or.inl ⟨is_folder_line_folder_line _ _ _, is_file_line_folder_line _ _ _,
        q, b, name, ?_⟩
      simp [lineText, folder_line]
    · refine Or.inr ⟨is_file_line_file_line _ _ _, is_folder_line_file_line _ _ _,
        q, b, name, ?_⟩
      unfold file_line
      cases find_last_of name '.' <;> simp [lineText, substr]
  · intro h
    exact ⟨int_incr_iterate _ _ h, le_int_incr_iterate _ _ h⟩
  · intro h
    exact ⟨int_incr_iterate _ _ h, le_int_incr_iterate _ _ h⟩

/-- C2 on the scenario directory, started from the counters 5 and 7: one folder line
and two file lines are written and the counters end at 6 and 9. -/
theorem print_tree_counters_witness :
    finite_below projFs 2 "C:\\proj".toList = true ∧
    ∃ w' lines,
      print_tree 2 projFs insertionSort "C:\\proj".toList [] []
        { out := [], folderCount := 5, fileCount := 7 } = some w' ∧
      w'.out = [] ++ lines ∧
      (lines.filter is_folder_line).length = 1 ∧ (lines.filter is_file_line).length = 2 ∧
      w'.folderCount = Nat.iterate int_incr (lines.filter is_folder_line).length 5 ∧
      w'.fileCount = Nat.iterate int_incr (lines.filter is_file_line).length 7 ∧
      (∀ l ∈ lines,
        (is_folder_line l = true ∧ is_file_line l = false ∧
          ∃ q b name, lineText l = q ++ branch b ++ ['['] ++ name ++ [']']) ∨
        (is_file_line l = true ∧ is_folder_line l = false ∧
          ∃ q b name, lineText l = q ++ branch b ++ name)) ∧
      (w'.folderCount = 5 + ((lines.filter is_folder_line).length : Nat) ∧
        (5 : Int) ≤ w'.folderCount) ∧
      (w'.fileCount = 7 + ((lines.filter is_file_line).length : Nat) ∧
        (7 : Int) ≤ w'.fileCount) ∧
      w'.folderCount = 6 ∧ w'.fileCount = 9 := by
  refine ⟨by decide, ?_⟩
  obtain ⟨w', lines, h1, h2, h3, h4, h5, h6, h7⟩ :=
    print_tree_counters projFs insertionSort [] 2 "C:\\proj".toList []
      { out := [], folderCount := 5, fileCount := 7 } (by decide)
  have hw : w' = { out := [[(TREE, "|-->".toList), (DEFAULT, "readme".toList),
                      (EXTENSION, ".md".toList)],
                     [(TREE, "#-->".toList), (FOLDER, "[src]".toList)],
                     [(TREE, "     #-->".toList), (DEFAULT, "main".toList),
                      (EXTENSION, ".cpp".toList)]],
                   folderCount := 6, fileCount := 9 } := by
    have heval : print_tree 2 projFs insertionSort "C:\\proj".toList [] []
        { out := [], folderCount := 5, fileCount := 7 } =
      some { out := [[(TREE, "|-->".toList), (DEFAULT, "readme".toList),
                      (EXTENSION, ".md".toList)],
                     [(TREE, "#-->".toList), (FOLDER, "[src]".toList)],
                     [(TREE, "     #-->".toList), (DEFAULT, "main".toList),
                      (EXTENSION, ".cpp".toList)]],
             folderCount := 6, fileCount := 9 } := by decide
    rw [heval] at h1
    exact (Option.some.inj h1).symm
  have hl : lines = [[(TREE, "|-->".toList), (DEFAULT, "readme".toList),
                      (EXTENSION, ".md".toList)],
                     [(TREE, "#-->".toList), (FOLDER, "[src]".toList)],
                     [(TREE, "     #-->".toList), (DEFAULT, "main".toList),
                      (EXTENSION, ".cpp".toList)]] := by
    rw [hw] at h2
    simpa using h2.symm
  have hf : (lines.filter is_folder_line).length = 1 := by rw [hl]; decide
  have hn : (lines.filter is_file_line).length = 2 := by rw [hl]; decide
  refine ⟨w', lines, h1, h2, hf, hn, h3, h4, h5, h6 ?_, h7 ?_, ?_, ?_⟩
  · rw [hf]; decide
  · rw [hn]; decide
  · rw [hw]
  · rw [hw]

/-- C3: when the disk answers the listing of `path` with `raw`,
`get_directory_entries` returns a rearrangement of `raw` without the names `.` and
`..`, in which no name is followed by one whose lowercased form is smaller; and the
lines `print_tree` writes for the entries of `path` name a sub-sequence of that
list (the ignored files are missing), so they are in the same ascending order. -/
theorem get_directory_entries_sorted (fs : FileSystem) (S : StdSort) (path : Str)
    (raw : List Str) (hpath : trim path ≠ [])
    (hraw : fs.find (trim path ++ ['\\', '*']) = some raw) :
    (get_directory_entries fs S path).Perm
      (raw.filter (fun name => !(name == ['.'] || name == ['.', '.']))) ∧
    (get_directory_entries fs S path).Chain'
      (fun a b => strLt (to_lower b) (to_lower a) = false) ∧
    ∀ (ign : List Str) (fuel : Nat) (pre : Str) (w : Walk),
      finite_below fs fuel path = true →
      ∃ w' lines,
        print_tree fuel fs S path pre ign w = some w' ∧
        w'.out = w.out ++ lines ∧
        ((lines.filter (is_child_line pre)).map entry_name).Sublist
          (get_directory_entries fs S path) ∧
        ((lines.filter (is_child_line pre)).map entry_name).Chain'
          (fun a b => strLt (to_lower b) (to_lower a) = false) := by
  have hsorted : (get_directory_entries fs S path).Pairwise
      (fun a b => strLt (to_lower b) (to_lower a) = false) :=
    S.sorted _ _ strictWeak_lower
  refine ⟨?_, List.Pairwise.chain' hsorted, ?_⟩
  · have h : unsorted_entries fs path =
        raw.filter (fun name => !(name == ['.'] || name == ['.', '.'])) := by
      unfold unsorted_entries
      have he : (trim path).isEmpty = false := by
        cases h : trim path with
        | nil => exact absurd h hpath
        | cons _ _ => rfl
      simp only [he, Bool.false_eq_true, if_false, hraw]
      congr 1
      funext name
      simp [bne, Bool.not_or]
    rw [← h]
    exact S.perm _ _
  · intro ign fuel pre w hfin
    cases fuel with
    | zero => simp [finite_below] at hfin
    | succ fuel =>
      refine ⟨w.extend (tree_lines fs S ign (fuel + 1) path pre),
        tree_lines fs S ign (fuel + 1) path pre, ?_, rfl, ?_, ?_⟩
      · rw [print_tree_eq, if_pos hfin]
      · rw [tree_lines_child_names]
        exact List.filter_sublist _
      · rw [tree_lines_child_names]
        exact List.Pairwise.chain' (hsorted.sublist (List.filter_sublist _))

/-- C3 on the scenario directory, whose disk order is `src`, `readme.md`. -/
theorem get_directory_entries_sorted_witness :
    trim "C:\\proj".toList ≠ [] ∧
    projFs.find (trim "C:\\proj".toList ++ ['\\', '*']) =
      some [".".toList, "..".toList, "src".toList, "readme.md".toList] ∧
    ((get_directory_entries projFs insertionSort "C:\\proj".toList).Perm
      ([".".toList, "..".toList, "src".toList, "readme.md".toList].filter
        (fun name => !(name == ['.'] || name == ['.', '.']))) ∧
    (get_directory_entries projFs insertionSort "C:\\proj".toList).Chain'
      (fun a b => strLt (to_lower b) (to_lower a) = false) ∧
    ∀ (ign : List Str) (fuel : Nat) (pre : Str) (w : Walk),
      finite_below projFs fuel "C:\\proj".toList = true →
      ∃ w' lines,
        print_tree fuel projFs insertionSort "C:\\proj".toList pre ign w = some w' ∧
        w'.out = w.out ++ lines ∧
        ((lines.filter (is_child_line pre)).map entry_name).Sublist
          (get_directory_entries projFs insertionSort "C:\\proj".toList) ∧
        ((lines.filter (is_child_line pre)).map entry_name).Chain'
          (fun a b => strLt (to_lower b) (to_lower a) = false)) ∧
    get_directory_entries projFs insertionSort "C:\\proj".toList =
      ["readme.md".toList, "src".toList] ∧
    finite_below projFs 2 "C:\\proj".toList = true ∧
    ∃ w' lines,
      print_tree 2 projFs insertionSort "C:\\proj".toList [] [".md".toList]
        { out := [], folderCount := 0, fileCount := 0 } = some w' ∧
      w'.out = [] ++ lines ∧
      ((lines.filter (is_child_line [])).map entry_name).Sublist
        (get_directory_entries projFs insertionSort "C:\\proj".toList) ∧
      ((lines.filter (is_child_line [])).map entry_name).Chain'
        (fun a b => strLt (to_lower b) (to_lower a) = false) :=
  ⟨by decide, by decide,
   get_directory_entries_sorted projFs insertionSort "C:\\proj".toList
     [".".toList, "..".toList, "src".toList, "readme.md".toList] (by decide) (by decide),
   by decide, by decide,
   (get_directory_entries_sorted projFs insertionSort "C:\\proj".toList
     [".".toList, "..".toList, "src".toList, "readme.md".toList] (by decide) (by decide)).2.2
     [".md".toList] 2 [] { out := [], folderCount := 0, fileCount := 0 } (by decide)⟩

/-- C8: `sanitize_path` of `w₁ ++ q₁ ++ p ++ q₂ ++ w₂` is `p`, for `w₁`, `w₂` of
whitespace only, `q₁`, `q₂` each a double or single quote, and `p` (possibly empty,
possibly itself quoted) neither beginning nor ending with whitespace. -/
theorem sanitize_path_quoted (p w₁ w₂ : Str) (q₁ q₂ : Char)
    (hw₁ : ∀ x ∈ w₁, isTrimChar x = true) (hw₂ : ∀ x ∈ w₂, isTrimChar x = true)
    (hq₁ : q₁ = '"' ∨ q₁ = '\'') (hq₂ : q₂ = '"' ∨ q₂ = '\'')
    (hhead : ∀ c, p.head? = some c → isTrimChar c = false)
    (hlast : ∀ c, p.getLast? = some c → isTrimChar c = false) :
    sanitize_path (w₁ ++ [q₁] ++ p ++ [q₂] ++ w₂) = p := by
  have hq₁t : isTrimChar q₁ = false := by rcases hq₁ with rfl | rfl <;> decide
  have hq₂t : isTrimChar q₂ = false := by rcases hq₂ with rfl | rfl <;> decide
  have htrim : trim (w₁ ++ [q₁] ++ p ++ [q₂] ++ w₂) = q₁ :: p ++ [q₂] := by
    have := trim_core w₁ w₂ q₁ (p ++ [q₂]) q₂ (q₁ :: p ++ [q₂]) hw₁ hw₂ (by simp) hq₁t
      ⟨q₁ :: p, by simp⟩ hq₂t
    simpa using this
  have hp : trim p = p := by
    cases hp : p with
    | nil => rfl
    | cons c m =>
      rcases List.eq_nil_or_concat p with hnil | ⟨init, d, hd⟩
      · rw [hp] at hnil; cases hnil
      · rw [← hp]
        refine trim_id c m d p hp (hhead c (by rw [hp]; rfl)) ⟨init, by simpa using hd⟩
          (hlast d (by rw [hd]; simp))
  unfold sanitize_path
  rw [htrim]
  have h1 : (!(q₁ :: p ++ [q₂]).isEmpty &&
      ((q₁ :: p ++ [q₂]).head? == some '"' || (q₁ :: p ++ [q₂]).head? == some '\'')) = true := by
    rcases hq₁ with rfl | rfl <;> simp
  simp only [List.cons_append] at h1 ⊢
  simp only [h1, if_true, List.drop_succ_cons, List.drop_zero]
  have h2 : (!(p ++ [q₂]).isEmpty &&
      ((p ++ [q₂]).getLast? == some '"' || (p ++ [q₂]).getLast? == some '\'')) = true := by
    rcases hq₂ with rfl | rfl <;> simp
  simp only [h2, if_true, List.dropLast_concat]
  exact hp

/-- C8 at `  "C:\proj'` followed by a tab, and one layer only: `""a""` gives `"a"`. -/
theorem sanitize_path_quoted_witness :
    (∀ x ∈ "  ".toList, isTrimChar x = true) ∧ (∀ x ∈ "\t".toList, isTrimChar x = true) ∧
    sanitize_path ("  ".toList ++ ['"'] ++ "C:\\proj".toList ++ ['\''] ++ "\t".toList) =
      "C:\\proj".toList ∧
    sanitize_path "\"\"a\"\"".toList = "\"a\"".toList ∧
    sanitize_path "\"'".toList = [] :=
  ⟨by decide, by decide,
   sanitize_path_quoted "C:\\proj".toList "  ".toList "\t".toList '"' '\''
     (by decide) (by decide) (Or.inl rfl) (Or.inr rfl) (by decide) (by decide),
   by decide, by decide⟩

/-- C4: a string is in `parse_ignored_extensions raw` exactly when it is the
lowercased form of a non-empty token of `raw` split on whitespace, `,` and `&`,
the token given a leading `.` when it has none. -/
theorem parse_ignored_extensions_mem (S : StdSort) (raw e : Str) :
    e ∈ parse_ignored_extensions S raw ↔ ∃ t ∈ spec_tokens raw, e = spec_normalize t :=
  parse_mem_iff S raw e

/-- C4 on the text after the directive of `--ignore: .cpp, .json & py`. -/
theorem parse_ignored_extensions_mem_witness :
    parse_ignored_extensions insertionSort " .cpp, .json & py".toList =
      [".cpp".toList, ".json".toList, ".py".toList] ∧
    spec_tokens " .cpp, .json & py".toList = [".cpp".toList, ".json".toList, "py".toList] ∧
    (".py".toList ∈ parse_ignored_extensions insertionSort " .cpp, .json & py".toList ↔
      ∃ t ∈ spec_tokens " .cpp, .json & py".toList, ".py".toList = spec_normalize t) :=
  ⟨by decide, by decide,
   parse_ignored_extensions_mem insertionSort " .cpp, .json & py".toList ".py".toList⟩

/-- C5: `parse_ignored_extensions raw` is strictly ascending in the order of
`operator<`, so it has no duplicates; every element begins with `.` and holds no
uppercase ASCII letter; `CPP`, `.cpp` and `cpp` collapse to the one element `.cpp`. -/
theorem parse_ignored_extensions_strict (S : StdSort) (raw : Str) :
    (parse_ignored_extensions S raw).Pairwise (fun a b => strLt a b = true) ∧
    (parse_ignored_extensions S raw).Nodup ∧
    (∀ e ∈ parse_ignored_extensions S raw,
      e.head? = some '.' ∧ ∀ c ∈ e, c.isUpper = false) ∧
    parse_ignored_extensions S "CPP .cpp cpp".toList = [".cpp".toList] := by
  have hstrict : ∀ r, (parse_ignored_extensions S r).Pairwise (fun a b => strLt a b = true) := by
    intro r
    unfold parse_ignored_extensions
    exact unique_strict _ (S.sorted _ _ strictWeak_strLt)
  refine ⟨hstrict raw, ?_, ?_, ?_⟩
  · refine (hstrict raw).imp ?_
    intro a b hab heq
    subst heq
    rw [strLt_irrefl] at hab
    cases hab
  · intro e he
    obtain ⟨t, _, rfl⟩ := (parse_mem_iff S raw e).mp he
    exact ⟨spec_normalize_head t, spec_normalize_no_upper t⟩
  · have hmem : ∀ e, e ∈ parse_ignored_extensions S "CPP .cpp cpp".toList ↔ e = ".cpp".toList := by
      intro e
      rw [parse_mem_iff]
      have htok : spec_tokens "CPP .cpp cpp".toList =
          ["CPP".toList, ".cpp".toList, "cpp".toList] := by decide
      rw [htok]
      constructor
      · rintro ⟨t, ht, rfl⟩
        simp only [List.mem_cons, List.mem_singleton, List.not_mem_nil, or_false] at ht
        rcases ht with rfl | rfl | rfl <;> decide
      · rintro rfl
        exact ⟨".cpp".toList, by simp, by decide⟩
    have hs := hstrict "CPP .cpp cpp".toList
    cases hl : parse_ignored_extensions S "CPP .cpp cpp".toList with
    | nil =>
      have := (hmem ".cpp".toList).mpr rfl
      rw [hl] at this
      cases this
    | cons a rest =>
      rw [hl] at hs
      have ha : a = ".cpp".toList := (hmem a).mp (by rw [hl]; exact List.mem_cons_self _ _)
      cases rest with
      | nil => rw [ha]
      | cons b r =>
        have hb : b = ".cpp".toList :=
          (hmem b).mp (by rw [hl]; exact List.mem_cons_of_mem _ (List.mem_cons_self _ _))
        have := (List.pairwise_cons.mp hs).1 b (List.mem_cons_self _ _)
        rw [ha, hb, strLt_irrefl] at this
        cases this

/-- C6: with `L` the lowercased line, if `--ignore` occurs in `L` and `i` is the
smallest index where it does, the scan records position `i` and length 9 when
`L[i+8]` is `:` and 8 otherwise, `pathPart` is the first `i` characters of the line
and `rawIgnore` is the line after the directive (the ignore set is `ignore_list`
of it); if `--ignore` does not occur, `pathPart` is the whole line and the ignore
set is empty. -/
theorem directive_detection (S : StdSort) (line : Str) :
    (∀ i, key2 <+: (to_lower line).drop i →
      (∀ j, j < i → ¬ key2 <+: (to_lower line).drop j) →
      find_directive line =
        some (i, if (to_lower line)[i + 8]? = some ':' then 9 else 8) ∧
      split_line line =
        (line.take i,
          some (line.drop (i + if (to_lower line)[i + 8]? = some ':' then 9 else 8))) ∧
      parse_line S line =
        (line.take i,
          ignore_list S
            (line.drop (i + if (to_lower line)[i + 8]? = some ':' then 9 else 8)))) ∧
    (key2 <:+: to_lower line →
      ∃ i, key2 <+: (to_lower line).drop i ∧
        ∀ j, j < i → ¬ key2 <+: (to_lower line).drop j) ∧
    (¬ key2 <:+: to_lower line →
      find_directive line = none ∧ split_line line = (line, none) ∧
      parse_line S line = (line, [])) := by
  refine ⟨?_, ?_, ?_⟩
  · intro i hocc hmin
    have hfind : find_directive line =
        some (i, if (to_lower line)[i + 8]? = some ':' then 9 else 8) := by
      unfold find_directive
      have hocc' := (compare_at_key2 (to_lower line) i).mpr hocc
      refine scan_directive_first (to_lower line) _ 0 i (Nat.zero_le _) ?_ hocc' ?_
      · have := compare_at_lt_length _ _ hocc'
        omega
      · intro j _ hj
        cases h : compare_at (to_lower line) j key2 with
        | false => rfl
        | true => exact absurd ((compare_at_key2 _ j).mp h) (hmin j hj)
    have hsplit : split_line line =
        (line.take i,
          some (line.drop (i + if (to_lower line)[i + 8]? = some ':' then 9 else 8))) := by
      unfold split_line
      rw [hfind]
      simp [substr]
    refine ⟨hfind, hsplit, ?_⟩
    unfold parse_line
    rw [hsplit]
  · intro hinf
    have hex : ∃ i, key2 <+: (to_lower line).drop i := by
      obtain ⟨a, b, hab⟩ := hinf
      refine ⟨a.length, b, ?_⟩
      rw [← hab, List.append_assoc, List.drop_left]
    classical
    exact ⟨Nat.find hex, Nat.find_spec hex, fun j hj => Nat.find_min hex hj⟩
  · intro hno
    have hnone : find_directive line = none := by
      unfold find_directive
      refine scan_directive_none (to_lower line) _ 0 ?_
      intro j _ _
      cases h : compare_at (to_lower line) j key2 with
      | false => rfl
      | true =>
        exfalso
        apply hno
        obtain ⟨t, ht⟩ := (compare_at_key2 _ j).mp h
        refine ⟨(to_lower line).take j, t, ?_⟩
        rw [List.append_assoc, ht, List.take_append_drop]
    have hsplit : split_line line = (line, none) := by
      unfold split_line
      rw [hnone]
    refine ⟨hnone, hsplit, ?_⟩
    unfold parse_line
    rw [hsplit]

/-- C6 on `C:\my--IGNORE:dir .CPP`: the directive is found in upper case inside
what looks like the path, at index 5 with length 9. -/
theorem directive_detection_witness :
    key2 <+: (to_lower "C:\\my--IGNORE:dir .CPP".toList).drop 5 ∧
    (∀ j, j < 5 → ¬ key2 <+: (to_lower "C:\\my--IGNORE:dir .CPP".toList).drop j) ∧
    (find_directive "C:\\my--IGNORE:dir .CPP".toList =
        some (5, if (to_lower "C:\\my--IGNORE:dir .CPP".toList)[5 + 8]? = some ':' then 9 else 8) ∧
      split_line "C:\\my--IGNORE:dir .CPP".toList =
        ("C:\\my--IGNORE:dir .CPP".toList.take 5,
          some ("C:\\my--IGNORE:dir .CPP".toList.drop
            (5 + if (to_lower "C:\\my--IGNORE:dir .CPP".toList)[5 + 8]? = some ':' then 9 else 8))) ∧
      parse_line insertionSort "C:\\my--IGNORE:dir .CPP".toList =
        ("C:\\my--IGNORE:dir .CPP".toList.take 5,
          ignore_list insertionSort ("C:\\my--IGNORE:dir .CPP".toList.drop
            (5 + if (to_lower "C:\\my--IGNORE:dir .CPP".toList)[5 + 8]? = some ':' then 9 else 8)))) ∧
    parse_line insertionSort "C:\\my--IGNORE:dir .CPP".toList =
      ("C:\\my".toList, [".cpp".toList, ".dir".toList]) ∧
    ¬ key2 <:+: to_lower "C:\\proj".toList ∧
    (find_directive "C:\\proj".toList = none ∧
      split_line "C:\\proj".toList = ("C:\\proj".toList, none) ∧
      parse_line insertionSort "C:\\proj".toList = ("C:\\proj".toList, [])) :=
  ⟨by decide, by decide,
   (directive_detection insertionSort "C:\\my--IGNORE:dir .CPP".toList).1 5
     (by decide) (by decide),
   by decide, by decide,
   (directive_detection insertionSort "C:\\proj".toList).2.2 (by decide)⟩

/-- C7: a name without `.` is never ignored, whatever the ignore list; so on a
finite tree the file lines with a dotless name are, each as often as it occurs,
the dotless files of the tree, and `fileCount` is incremented once for every file
line (a 32-bit increment: the number of file lines is added as long as the counter
stays within `INT_MAX`). -/
theorem dotless_files_kept (fs : FileSystem) (S : StdSort) (ign : List Str)
    (fuel : Nat) (path pre : Str) (w : Walk) (hfin : finite_below fs fuel path = true) :
    (∀ f : Str, '.' ∉ f → is_ignored_extension f ign = false) ∧
    ∃ w' lines,
      print_tree fuel fs S path pre ign w = some w' ∧
      w'.out = w.out ++ lines ∧
      (((lines.filter is_file_line).map entry_name).filter (fun f => !f.contains '.')).Perm
        ((files_below fs fuel path).filter (fun f => !f.contains '.')) ∧
      w'.fileCount = Nat.iterate int_incr (lines.filter is_file_line).length w.fileCount ∧
      (w.fileCount +
          (((files_below fs fuel path).filter
            (fun f => !is_ignored_extension f ign)).length : Nat) ≤ INT_MAX →
        w'.fileCount = w.fileCount + ((lines.filter is_file_line).length : Nat)) := by
  have hdot : ∀ f : Str, '.' ∉ f → is_ignored_extension f ign = false := by
    intro f hf
    unfold is_ignored_extension find_last_of
    rw [(find_last_eq_none_iff _ f).mpr]
    intro x hx
    simp only [beq_eq_false_iff_ne, ne_eq]
    rintro rfl
    exact hf hx
  refine ⟨hdot, w.extend (tree_lines fs S ign fuel path pre), tree_lines fs S ign fuel path pre,
    ?_, rfl, ?_, rfl, ?_⟩
  · rw [print_tree_eq, if_pos hfin]
  rotate_left
  · intro hle
    rw [← tree_lines_file_count fs S ign fuel path pre] at hle
    exact int_incr_iterate _ _ hle
  · rw [tree_lines_file_names]
    refine ((file_names_perm fs S ign fuel path).filter _).trans ?_
    rw [List.filter_filter]
    refine List.Perm.of_eq (List.filter_congr ?_)
    intro f _
    cases hc : f.contains '.' with
    | true => simp
    | false =>
      have hf : '.' ∉ f := by
        intro hmem
        have : f.contains '.' = true := by simpa using hmem
        rw [hc] at this
        cases this
      simp [hdot f hf]

/-- C7 on `D:\work` with an ignore list that is not a parser output: the dotless
`LICENSE` is written and counted. -/
theorem dotless_files_kept_witness :
    finite_below workFs 1 "D:\\work".toList = true ∧
    ((∀ f : Str, '.' ∉ f → is_ignored_extension f ["LICENSE".toList, [], ".".toList] = false) ∧
    ∃ w' lines,
      print_tree 1 workFs insertionSort "D:\\work".toList []
        ["LICENSE".toList, [], ".".toList] { out := [], folderCount := 0, fileCount := 0 } =
        some w' ∧
      w'.out = [] ++ lines ∧
      (((lines.filter is_file_line).map entry_name).filter (fun f => !f.contains '.')).Perm
        ((files_below workFs 1 "D:\\work".toList).filter (fun f => !f.contains '.')) ∧
      w'.fileCount = Nat.iterate int_incr (lines.filter is_file_line).length 0 ∧
      w'.fileCount = 0 + ((lines.filter is_file_line).length : Nat)) ∧
    (files_below workFs 1 "D:\\work".toList).filter (fun f => !f.contains '.') =
      ["LICENSE".toList] ∧
    print_tree 1 workFs insertionSort "D:\\work".toList []
        ["LICENSE".toList, [], ".".toList] { out := [], folderCount := 0, fileCount := 0 } =
      some { out := [[(TREE, "|-->".toList), (DEFAULT, "LICENSE".toList)],
                     [(TREE, "|-->".toList), (DEFAULT, "notes".toList),
                      (EXTENSION, ".txt".toList)],
                     [(TREE, "#-->".toList), (DEFAULT, "zeta".toList),
                      (EXTENSION, ".cpp".toList)]],
             folderCount := 0, fileCount := 3 } :=
  ⟨by decide,
   (dotless_files_kept workFs insertionSort ["LICENSE".toList, [], ".".toList] 1
     "D:\\work".toList [] { out := [], folderCount := 0, fileCount := 0 } (by decide)).elim
     (fun hdot h => ⟨hdot, h.elim (fun w' h => h.elim (fun lines h =>
       ⟨w', lines, h.1, h.2.1, h.2.2.1, h.2.2.2.1, h.2.2.2.2 (by decide)⟩))⟩),
   by decide, by decide⟩

/-- C9: for the input line `C:\proj` on the scenario directory, under every
`std::sort` and every recursion bound from 2 on, the program writes the header
`proj\`, then exactly the tree lines `|-->readme.md`, `#-->[src]` and
`     #-->main.cpp` (names split into stem and extension chunk), and ends with
1 folder and 2 files. -/
theorem scenario_proj (S : StdSort) (fuel : Nat) :
    ∃ run, main (fuel + 2) projFs S "C:\\proj".toList = some run ∧
      run.console =
        [[(PROMPT, "Enter Path : ".toList)],
         [(FOLDER, "proj\\".toList)],
         [(TREE, "|-->".toList), (DEFAULT, "readme".toList), (EXTENSION, ".md".toList)],
         [(TREE, "#-->".toList), (FOLDER, "[src]".toList)],
         [(TREE, "     #-->".toList), (DEFAULT, "main".toList), (EXTENSION, ".cpp".toList)],
         [],
         [(TREE, "Folders: 1".toList)],
         [(TREE, "Files  : 2".toList)],
         [],
         [(DEFAULT, "Press any key to exit...".toList)]] ∧
      run.console.map lineText =
        ["Enter Path : ".toList, "proj\\".toList, "|-->readme.md".toList, "#-->[src]".toList,
         "     #-->main.cpp".toList, [], "Folders: 1".toList, "Files  : 2".toList, [],
         "Press any key to exit...".toList] ∧
      run.traversal = some ("C:\\proj".toList, 1, 2) ∧
      run.status = 0 := by
  have hparse : parse_line S "C:\\proj".toList = ("C:\\proj".toList, []) := by
    unfold parse_line
    rw [show split_line "C:\\proj".toList = ("C:\\proj".toList, none) by decide]
  have hwalk : ∀ w, print_tree (fuel + 2) projFs S "C:\\proj".toList [] [] w =
      print_tree 2 projFs insertionSort "C:\\proj".toList [] [] w := by
    intro w
    rw [print_tree_sort projFs S insertionSort [] projFs_distinct]
    cases h : print_tree 2 projFs insertionSort "C:\\proj".toList [] [] w with
    | some w' =>
      have := print_tree_fuel projFs insertionSort [] 2 _ _ w w' h fuel
      rw [Nat.add_comm] at this
      exact this
    | none =>
      rw [print_tree_eq, if_pos (by decide)] at h
      cases h
  have hmain : main (fuel + 2) projFs S "C:\\proj".toList =
      main 2 projFs insertionSort "C:\\proj".toList := by
    have hparse' : parse_line insertionSort "C:\\proj".toList = ("C:\\proj".toList, []) := by
      decide
    unfold main
    simp only [show trim "C:\\proj".toList = "C:\\proj".toList by decide,
      show sanitize_path "C:\\proj".toList = "C:\\proj".toList by decide, hparse, hparse', hwalk]
  have heval : main 2 projFs insertionSort "C:\\proj".toList =
      some { console :=
               [[(PROMPT, "Enter Path : ".toList)],
                [(FOLDER, "proj\\".toList)],
                [(TREE, "|-->".toList), (DEFAULT, "readme".toList), (EXTENSION, ".md".toList)],
                [(TREE, "#-->".toList), (FOLDER, "[src]".toList)],
                [(TREE, "     #-->".toList), (DEFAULT, "main".toList), (EXTENSION, ".cpp".toList)],
                [],
                [(TREE, "Folders: 1".toList)],
                [(TREE, "Files  : 2".toList)],
                [],
                [(DEFAULT, "Press any key to exit...".toList)]],
             status := 0, traversal := some ("C:\\proj".toList, 1, 2) } := by decide
  rw [hmain]
  exact ⟨_, heval, rfl, by decide, rfl, rfl⟩

/-- C10, where the claim fails: in `D:\work` the sorted listing ends with
`zeta.cpp`; with `.cpp` ignored the lines written are `|-->LICENSE` and
`|-->notes.txt`, so the last line of the level carries `|-->` and no line carries
`#-->`; so it is under every `std::sort` and every recursion bound. -/
theorem last_line_after_ignored_file :
    print_tree 1 workFs insertionSort "D:\\work".toList [] [".cpp".toList]
        { out := [], folderCount := 0, fileCount := 0 } =
      some { out := [[(TREE, "|-->".toList), (DEFAULT, "LICENSE".toList)],
                     [(TREE, "|-->".toList), (DEFAULT, "notes".toList),
                      (EXTENSION, ".txt".toList)]],
             folderCount := 0, fileCount := 2 } ∧
    ([[(TREE, "|-->".toList), (DEFAULT, "LICENSE".toList)],
      [(TREE, "|-->".toList), (DEFAULT, "notes".toList),
       (EXTENSION, ".txt".toList)]].filter (is_child_line [])).getLast?.map line_marker =
      some "|-->".toList ∧
    get_directory_entries workFs insertionSort "D:\\work".toList =
      ["LICENSE".toList, "notes.txt".toList, "zeta.cpp".toList] ∧
    (∀ (S : StdSort) (fuel : Nat),
      print_tree (fuel + 1) workFs S "D:\\work".toList [] [".cpp".toList]
          { out := [], folderCount := 0, fileCount := 0 } =
        some { out := [[(TREE, "|-->".toList), (DEFAULT, "LICENSE".toList)],
                       [(TREE, "|-->".toList), (DEFAULT, "notes".toList),
                        (EXTENSION, ".txt".toList)]],
               folderCount := 0, fileCount := 2 } ∧
      get_directory_entries workFs S "D:\\work".toList =
        ["LICENSE".toList, "notes.txt".toList, "zeta.cpp".toList]) := by
  have heval : print_tree 1 workFs insertionSort "D:\\work".toList [] [".cpp".toList]
        { out := [], folderCount := 0, fileCount := 0 } =
      some { out := [[(TREE, "|-->".toList), (DEFAULT, "LICENSE".toList)],
                     [(TREE, "|-->".toList), (DEFAULT, "notes".toList),
                      (EXTENSION, ".txt".toList)]],
             folderCount := 0, fileCount := 2 } := by decide
  refine ⟨heval, by decide, by decide, ?_⟩
  intro S fuel
  refine ⟨?_, ?_⟩
  · rw [print_tree_sort workFs S insertionSort _ workFs_distinct, Nat.add_comm]
    exact print_tree_fuel workFs insertionSort _ 1 _ _ _ _ heval fuel
  · rw [get_directory_entries_unique workFs S insertionSort _ (workFs_distinct _)]
    decide

/-- C10, amended: on a finite tree, among the lines `print_tree` writes for the
entries of one directory (the lines carrying its prefix and a branch), the line of
an entry carries `#-->` exactly when the entry is the last one of the complete
sorted listing, ignored files included, and `|-->` otherwise; so every such line
but the last carries `|-->`, and the last one carries `#-->` exactly when the last
entry of the listing is written (a directory or a file that is not ignored) and
`|-->` when that entry is an ignored file. -/
theorem child_line_markers (fs : FileSystem) (S : StdSort) (ign : List Str)
    (fuel : Nat) (path pre : Str) (w : Walk)
    (hfin : finite_below fs (fuel + 1) path = true) :
    ∃ w' lines,
      print_tree (fuel + 1) fs S path pre ign w = some w' ∧
      w'.out = w.out ++ lines ∧
      (lines.filter (is_child_line pre)).map (fun l => (line_marker l, entry_name l)) =
        (((get_directory_entries fs S path).enumFrom 0).filter
            (fun p => is_visible fs path ign p.2)).map
          (fun p => (pre ++ (if p.1 = (get_directory_entries fs S path).length - 1
            then "#-->".toList else "|-->".toList), p.2)) ∧
      (∀ l ∈ (lines.filter (is_child_line pre)).dropLast,
        line_marker l = pre ++ "|-->".toList) ∧
      (∀ l, (lines.filter (is_child_line pre)).getLast? = some l →
        ((line_marker l = pre ++ "#-->".toList ↔
          ∃ last, (get_directory_entries fs S path).getLast? = some last ∧
            is_visible fs path ign last = true) ∧
        (line_marker l = pre ++ "#-->".toList ∨ line_marker l = pre ++ "|-->".toList))) := by
  have hchildren : (tree_lines fs S ign (fuel + 1) path pre).filter (is_child_line pre) =
      own_lines fs path pre ign (get_directory_entries fs S path).length 0
        (get_directory_entries fs S path) := by
    simp only [tree_lines]
    exact loop_lines_child_lines fs _ path ign _
      (fun p q l hl => tree_lines_marker fs S ign fuel p q l hl) pre _ 0
  have ht : branch true = "#-->".toList := rfl
  have hf : branch false = "|-->".toList := rfl
  refine ⟨w.extend (tree_lines fs S ign (fuel + 1) path pre),
    tree_lines fs S ign (fuel + 1) path pre, ?_, rfl, ?_, ?_, ?_⟩
  · rw [print_tree_eq, if_pos hfin]
  · rw [hchildren, own_lines_enum]
    refine List.map_congr_left ?_
    intro p _
    by_cases hp : p.1 = (get_directory_entries fs S path).length - 1
    · simp [hp, branch]
    · simp [hp, branch]
  · rw [hchildren, ← hf]
    exact (own_lines_last fs path pre ign _).1
  · rw [hchildren, ← hf, ← ht]
    exact (own_lines_last fs path pre ign _).2

/-- C10, amended, on `D:\work` with `.cpp` ignored (the last entry `zeta.cpp` is not
written: both lines carry `|-->`) and with nothing ignored (`zeta.cpp` is written
with `#-->`). -/
theorem child_line_markers_witness :
    finite_below workFs (0 + 1) "D:\\work".toList = true ∧
    (∃ w' lines,
      print_tree (0 + 1) workFs insertionSort "D:\\work".toList [] [".cpp".toList]
        { out := [], folderCount := 0, fileCount := 0 } = some w' ∧
      w'.out = [] ++ lines ∧
      (lines.filter (is_child_line [])).map (fun l => (line_marker l, entry_name l)) =
        (((get_directory_entries workFs insertionSort "D:\\work".toList).enumFrom 0).filter
            (fun p => is_visible workFs "D:\\work".toList [".cpp".toList] p.2)).map
          (fun p => ([] ++ (if p.1 =
              (get_directory_entries workFs insertionSort "D:\\work".toList).length - 1
            then "#-->".toList else "|-->".toList), p.2)) ∧
      (∀ l ∈ (lines.filter (is_child_line [])).dropLast,
        line_marker l = [] ++ "|-->".toList) ∧
      (∀ l, (lines.filter (is_child_line [])).getLast? = some l →
        ((line_marker l = [] ++ "#-->".toList ↔
          ∃ last, (get_directory_entries workFs insertionSort "D:\\work".toList).getLast? =
              some last ∧
            is_visible workFs "D:\\work".toList [".cpp".toList] last = true) ∧
        (line_marker l = [] ++ "#-->".toList ∨ line_marker l = [] ++ "|-->".toList)))) ∧
    (((get_directory_entries workFs insertionSort "D:\\work".toList).enumFrom 0).filter
          (fun p => is_visible workFs "D:\\work".toList [".cpp".toList] p.2)).map
        (fun p => ([] ++ (if p.1 =
            (get_directory_entries workFs insertionSort "D:\\work".toList).length - 1
          then "#-->".toList else "|-->".toList), p.2)) =
      [("|-->".toList, "LICENSE".toList), ("|-->".toList, "notes.txt".toList)] ∧
    ((tree_lines workFs insertionSort [] 1 "D:\\work".toList []).filter (is_child_line [])).map
        (fun l => (line_marker l, entry_name l)) =
      [("|-->".toList, "LICENSE".toList), ("|-->".toList, "notes.txt".toList),
       ("#-->".toList, "zeta.cpp".toList)] :=
  ⟨by decide,
   child_line_markers workFs insertionSort [".cpp".toList] 0 "D:\\work".toList []
     { out := [], folderCount := 0, fileCount := 0 } (by decide),
   by decide, by decide⟩

/-- C11: if the trimmed line is empty, or the path text before the directive
sanitizes to the empty string, or the sanitized path is not a directory, `main`
writes the prompt and one message and nothing else, does not call `print_tree` and
returns 0, whatever the recursion bound; otherwise `main` is one call of
`print_tree` on the sanitized path with the empty prefix and both counters 0,
followed by the summary. -/
theorem driver_gate (fuel : Nat) (fs : FileSystem) (S : StdSort) (input : Str) :
    ((trim input = [] ∨ sanitize_path (split_line (trim input)).1 = [] ∨
        fs.is_directory (sanitize_path (split_line (trim input)).1) = false) →
      ∃ run msg, main fuel fs S input = some run ∧ msg ≠ [] ∧
        run.console = [[(PROMPT, "Enter Path : ".toList), (DEFAULT, msg)]] ∧
        run.status = 0 ∧ run.traversal = none) ∧
    (¬ (trim input = [] ∨ sanitize_path (split_line (trim input)).1 = [] ∨
        fs.is_directory (sanitize_path (split_line (trim input)).1) = false) →
      main fuel fs S input =
        (print_tree fuel fs S (sanitize_path (split_line (trim input)).1) []
          (parse_line S (trim input)).2
          { out := header_lines (sanitize_path (split_line (trim input)).1)
              (parse_line S (trim input)).2,
            folderCount := 0, fileCount := 0 }).map
          (fun w =>
            { console := w.out ++ summary_lines w.folderCount w.fileCount
              status := 0
              traversal := some (sanitize_path (split_line (trim input)).1,
                w.folderCount, w.fileCount) })) := by
  constructor
  · intro h
    rw [main_eq]
    by_cases h1 : trim input = []
    · rw [if_pos h1]
      exact ⟨_, "No input provided. Exiting.".toList, rfl, by decide, rfl, rfl, rfl⟩
    · rw [if_neg h1]
      have h2 : sanitize_path (split_line (trim input)).1 = [] ∨
          fs.is_directory (sanitize_path (split_line (trim input)).1) = false := by
        rcases h with h | h | h
        · exact absurd h h1
        · exact Or.inl h
        · exact Or.inr h
      rw [if_pos h2]
      exact ⟨_, "Invalid or inaccessible directory path. Exiting.".toList, rfl, by decide,
        rfl, rfl, rfl⟩
  · intro h
    rw [main_eq]
    have h1 : ¬ trim input = [] := fun h1 => h (Or.inl h1)
    have h2 : ¬ (sanitize_path (split_line (trim input)).1 = [] ∨
        fs.is_directory (sanitize_path (split_line (trim input)).1) = false) :=
      fun h2 => h (Or.inr h2)
    rw [if_neg h1, if_neg h2]
    rfl

/-- C11 on the scenario filesystem: a blank line, a pair of quotes, the path of a
file, each with the recursion bound 0; and the directory `C:\proj`. -/
theorem driver_gate_witness :
    (∃ run msg, main 0 projFs insertionSort " \t".toList = some run ∧ msg ≠ [] ∧
        run.console = [[(PROMPT, "Enter Path : ".toList), (DEFAULT, msg)]] ∧
        run.status = 0 ∧ run.traversal = none) ∧
    (∃ run msg, main 0 projFs insertionSort "\"\" --ignore .cpp".toList = some run ∧ msg ≠ [] ∧
        run.console = [[(PROMPT, "Enter Path : ".toList), (DEFAULT, msg)]] ∧
        run.status = 0 ∧ run.traversal = none) ∧
    (∃ run msg, main 0 projFs insertionSort "C:\\proj\\readme.md".toList = some run ∧
        msg ≠ [] ∧
        run.console = [[(PROMPT, "Enter Path : ".toList), (DEFAULT, msg)]] ∧
        run.status = 0 ∧ run.traversal = none) ∧
    main 2 projFs insertionSort "C:\\proj".toList =
      (print_tree 2 projFs insertionSort (sanitize_path (split_line (trim "C:\\proj".toList)).1) []
        (parse_line insertionSort (trim "C:\\proj".toList)).2
        { out := header_lines (sanitize_path (split_line (trim "C:\\proj".toList)).1)
            (parse_line insertionSort (trim "C:\\proj".toList)).2,
          folderCount := 0, fileCount := 0 }).map
        (fun w =>
          { console := w.out ++ summary_lines w.folderCount w.fileCount
            status := 0
            traversal := some (sanitize_path (split_line (trim "C:\\proj".toList)).1,
              w.folderCount, w.fileCount) }) :=
  ⟨(driver_gate 0 projFs insertionSort " \t".toList).1 (Or.inl (by decide)),
   (driver_gate 0 projFs insertionSort "\"\" --ignore .cpp".toList).1
     (Or.inr (Or.inl (by decide))),
   (driver_gate 0 projFs insertionSort "C:\\proj\\readme.md".toList).1
     (Or.inr (Or.inr (by decide))),
   (driver_gate 2 projFs insertionSort "C:\\proj".toList).2 (by decide)⟩

/-- C12, where the claim fails: the token `c++` gives the element `.c++`, whose
characters after the `.` are not all lowercase alphanumeric. -/
theorem ignore_element_not_alnum :
    parse_ignored_extensions insertionSort "c++".toList = [".c++".toList] ∧
    ¬ ∀ e ∈ parse_ignored_extensions insertionSort "c++".toList,
        ∀ c ∈ e.drop 1, is_lower_alnum c = true := by
  decide

/-- C12 as amended: every element of `parse_ignored_extensions raw` is a `.`
followed by characters none of which is an uppercase ASCII letter, whitespace, `,`
or `&`. -/
theorem ignore_element_shape (S : StdSort) (raw : Str) :
    ∀ e ∈ parse_ignored_extensions S raw,
      ∃ rest, e = '.' :: rest ∧ ∀ c ∈ rest, c.isUpper = false ∧ is_separator c = false :=
  fun e he => parse_mem_shape S raw e he

/-- C12 as amended, on `TAR.GZ, c++ & py`. -/
theorem ignore_element_shape_witness :
    parse_ignored_extensions insertionSort "TAR.GZ, c++ & py".toList =
      [".c++".toList, ".py".toList, ".tar.gz".toList] ∧
    ∀ e ∈ parse_ignored_extensions insertionSort "TAR.GZ, c++ & py".toList,
      ∃ rest, e = '.' :: rest ∧ ∀ c ∈ rest, c.isUpper = false ∧ is_separator c = false :=
  ⟨by decide, ignore_element_shape insertionSort "TAR.GZ, c++ & py".toList⟩

/-- C14, where the claim fails: after the tree of the scenario the program writes
an empty line, `Folders: 1`, `Files  : 2` with two blanks before the colon, an empty
line and the exit prompt; the line `Files: 2` is not written. -/
theorem summary_label_padded :
    main 2 projFs insertionSort "C:\\proj".toList = some projRun ∧
    projRun.traversal = some ("C:\\proj".toList, 1, 2) ∧
    (projRun.console.drop 5).map lineText =
      [[], "Folders: 1".toList, "Files  : 2".toList, [],
       "Press any key to exit...".toList] ∧
    "Files: 2".toList ∉ projRun.console.map lineText := by
  refine ⟨?_, ?_, ?_, ?_⟩ <;> decide

/-- C14 as amended: a run that made the traversal and ended with the counters
`f` and `n` consists of what `print_tree` left on the console followed by an empty
line, the line `Folders: f`, the line `Files  : n` (the label padded with two blanks
to the width of `Folders`), an empty line and the exit prompt. -/
theorem summary_after_tree (fuel : Nat) (fs : FileSystem) (S : StdSort) (input : Str)
    (run : Run) (path : Str) (f n : Int)
    (hrun : main fuel fs S input = some run) (htr : run.traversal = some (path, f, n)) :
    ∃ w, print_tree fuel fs S path [] (parse_line S (trim input)).2
          { out := header_lines path (parse_line S (trim input)).2,
            folderCount := 0, fileCount := 0 } = some w ∧
      w.folderCount = f ∧ w.fileCount = n ∧
      run.console = w.out ++
        [[], [(TREE, "Folders: ".toList ++ decimal f)],
         [(TREE, "Files  : ".toList ++ decimal n)],
         [], [(DEFAULT, "Press any key to exit...".toList)]] ∧
      (run.console.drop w.out.length).map lineText =
        [[], "Folders: ".toList ++ decimal f, "Files  : ".toList ++ decimal n, [],
         "Press any key to exit...".toList] := by
  rw [main_eq] at hrun
  by_cases h1 : trim input = []
  · rw [if_pos h1] at hrun
    simp only [Option.some.injEq] at hrun
    subst hrun
    simp [abort] at htr
  · rw [if_neg h1] at hrun
    by_cases h2 : sanitize_path (split_line (trim input)).1 = [] ∨
        fs.is_directory (sanitize_path (split_line (trim input)).1) = false
    · rw [if_pos h2] at hrun
      simp only [Option.some.injEq] at hrun
      subst hrun
      simp [abort] at htr
    · rw [if_neg h2] at hrun
      cases hw : print_tree fuel fs S (sanitize_path (split_line (trim input)).1) []
          (parse_line S (trim input)).2
          { out := header_lines (sanitize_path (split_line (trim input)).1)
              (parse_line S (trim input)).2,
            folderCount := 0, fileCount := 0 } with
      | none => rw [hw] at hrun; cases hrun
      | some w =>
        rw [hw] at hrun
        simp only [Option.map_some', Option.some.injEq] at hrun
        subst hrun
        simp only [finish, Option.some.injEq, Prod.mk.injEq] at htr
        obtain ⟨hp, hf, hn⟩ := htr
        subst hp; subst hf; subst hn
        refine ⟨w, hw, rfl, rfl, rfl, ?_⟩
        simp [finish, summary_lines, lineText]

/-- C14 as amended, on the scenario. -/
theorem summary_after_tree_witness :
    main 2 projFs insertionSort "C:\\proj".toList = some projRun ∧
    projRun.traversal = some ("C:\\proj".toList, 1, 2) ∧
    ∃ w, print_tree 2 projFs insertionSort "C:\\proj".toList []
          (parse_line insertionSort (trim "C:\\proj".toList)).2
          { out := header_lines "C:\\proj".toList
              (parse_line insertionSort (trim "C:\\proj".toList)).2,
            folderCount := 0, fileCount := 0 } = some w ∧
      w.folderCount = 1 ∧ w.fileCount = 2 ∧
      projRun.console = w.out ++
        [[], [(TREE, "Folders: ".toList ++ decimal 1)],
         [(TREE, "Files  : ".toList ++ decimal 2)],
         [], [(DEFAULT, "Press any key to exit...".toList)]] ∧
      (projRun.console.drop w.out.length).map lineText =
        [[], "Folders: ".toList ++ decimal 1, "Files  : ".toList ++ decimal 2, [],
         "Press any key to exit...".toList] :=
  ⟨by decide, rfl,
   summary_after_tree 2 projFs insertionSort "C:\\proj".toList projRun "C:\\proj".toList 1 2
     (by decide) rfl⟩

set_option maxRecDepth 100000 in
/-- C13, where the claim fails: in the directory `D:\cs` the disk lists `z.txt`
before `Z.TXT`, followed by `a01` to `a38`; the `std::sort` of libstdc++ returns
`a01` to `a38`, then `Z.TXT`, then `z.txt`, so the two names with the lowercased
form `z.txt` come out in the reverse of their order in the listing. -/
theorem std_sort_reorders_ties :
    unsorted_entries caseFs "D:\\cs".toList =
      "z.txt".toList :: "Z.TXT".toList :: caseRest ∧
    libstdcxx.sort (fun a b => strLt (to_lower a) (to_lower b))
        ("z.txt".toList :: "Z.TXT".toList :: caseRest) =
      caseRest ++ ["Z.TXT".toList, "z.txt".toList] ∧
    get_directory_entries caseFs gccSort "D:\\cs".toList =
      caseRest ++ ["Z.TXT".toList, "z.txt".toList] ∧
    (unsorted_entries caseFs "D:\\cs".toList).filter (fun a => to_lower a == "z.txt".toList) =
      ["z.txt".toList, "Z.TXT".toList] ∧
    (get_directory_entries caseFs gccSort "D:\\cs".toList).filter
        (fun a => to_lower a == "z.txt".toList) =
      ["Z.TXT".toList, "z.txt".toList] ∧
    ¬ keeps_tie_order (unsorted_entries caseFs "D:\\cs".toList)
        (get_directory_entries caseFs gccSort "D:\\cs".toList) := by
  have h4 : (unsorted_entries caseFs "D:\\cs".toList).filter
      (fun a => to_lower a == "z.txt".toList) = ["z.txt".toList, "Z.TXT".toList] := by decide
  have h5 : (get_directory_entries caseFs gccSort "D:\\cs".toList).filter
      (fun a => to_lower a == "z.txt".toList) = ["Z.TXT".toList, "z.txt".toList] := by decide
  refine ⟨by decide, by decide, by decide, h4, h5, ?_⟩
  intro h
  have := h "z.txt".toList
  rw [h4, h5] at this
  revert this
  decide

/-- C13 as amended: the result of `get_directory_entries` is a rearrangement of the
listing of the disk in which no name is followed by one whose lowercased form is
smaller; at every position it holds a name with the same lowercased form as the
stably sorted listing (the insertion sort, which keeps names with the same
lowercased form in the order of the listing); the names with a given lowercased
form are the same names, each as often, as in the listing, in an order that
`std::sort` does not fix; where they are all the same name, they appear as in the
listing. -/
theorem equal_lowercase_order (fs : FileSystem) (S : StdSort) (path : Str) :
    (get_directory_entries fs S path).Perm (unsorted_entries fs path) ∧
    (get_directory_entries fs S path).Pairwise
      (fun a b => strLt (to_lower b) (to_lower a) = false) ∧
    (get_directory_entries fs S path).map to_lower =
      (insertion_sort (fun a b => strLt (to_lower a) (to_lower b))
        (unsorted_entries fs path)).map to_lower ∧
    keeps_tie_order (unsorted_entries fs path)
      (insertion_sort (fun a b => strLt (to_lower a) (to_lower b))
        (unsorted_entries fs path)) ∧
    (∀ k : Str, ((get_directory_entries fs S path).filter (fun a => to_lower a == k)).Perm
      ((unsorted_entries fs path).filter (fun a => to_lower a == k))) ∧
    (∀ k : Str,
      (∀ a ∈ unsorted_entries fs path, ∀ b ∈ unsorted_entries fs path,
        to_lower a = k → to_lower b = k → a = b) →
      (get_directory_entries fs S path).filter (fun a => to_lower a == k) =
        (unsorted_entries fs path).filter (fun a => to_lower a == k)) := by
  have hperm : ∀ k : Str,
      ((get_directory_entries fs S path).filter (fun a => to_lower a == k)).Perm
        ((unsorted_entries fs path).filter (fun a => to_lower a == k)) :=
    fun k => (S.perm _ _).filter _
  refine ⟨S.perm _ _, S.sorted _ _ strictWeak_lower, sorted_lower_eq S insertionSort _,
    insertion_sort_stable _, hperm, ?_⟩
  intro k hdist
  refine perm_eq_of_all_eq (hperm k) ?_
  intro x hx y hy
  rw [List.mem_filter] at hx hy
  have hxk : to_lower x = k := by simpa using hx.2
  have hyk : to_lower y = k := by simpa using hy.2
  exact hdist x ((S.perm _ _).mem_iff.mp hx.1) y ((S.perm _ _).mem_iff.mp hy.1) hxk hyk

set_option maxRecDepth 100000 in
/-- C13 as amended, on the directory `D:\cs` under the `std::sort` of libstdc++: the
names with the lowercased form `z.txt` are `z.txt` and `Z.TXT` in the listing and in
the result, in the result in the other order; read in lowercase the result is the
stably sorted listing; the one name `a07` is where the listing has it. -/
theorem equal_lowercase_order_witness :
    ((get_directory_entries caseFs gccSort "D:\\cs".toList).filter
        (fun a => to_lower a == "z.txt".toList)).Perm
      ((unsorted_entries caseFs "D:\\cs".toList).filter
        (fun a => to_lower a == "z.txt".toList)) ∧
    (get_directory_entries caseFs gccSort "D:\\cs".toList).map to_lower =
      (insertion_sort (fun a b => strLt (to_lower a) (to_lower b))
        (unsorted_entries caseFs "D:\\cs".toList)).map to_lower ∧
    (get_directory_entries caseFs gccSort "D:\\cs".toList).filter
        (fun a => to_lower a == "a07".toList) =
      (unsorted_entries caseFs "D:\\cs".toList).filter
        (fun a => to_lower a == "a07".toList) ∧
    (get_directory_entries caseFs gccSort "D:\\cs".toList).filter
        (fun a => to_lower a == "z.txt".toList) = ["Z.TXT".toList, "z.txt".toList] ∧
    (unsorted_entries caseFs "D:\\cs".toList).filter
        (fun a => to_lower a == "z.txt".toList) = ["z.txt".toList, "Z.TXT".toList] ∧
    insertion_sort (fun a b => strLt (to_lower a) (to_lower b))
        (unsorted_entries caseFs "D:\\cs".toList) =
      caseRest ++ ["z.txt".toList, "Z.TXT".toList] :=
  ⟨(equal_lowercase_order caseFs gccSort "D:\\cs".toList).2.2.2.2.1 "z.txt".toList,
   (equal_lowercase_order caseFs gccSort "D:\\cs".toList).2.2.1,
   (equal_lowercase_order caseFs gccSort "D:\\cs".toList).2.2.2.2.2 "a07".toList (by decide),
   by decide, by decide, by decide⟩

/-- C15: started with the empty prefix on a finite tree, `print_tree` writes the
lines of the visited entries in order; the line of an entry with `d` ancestors
below the root starts with a prefix of `5 * d` characters whose `k`-th segment is
five blanks if the ancestor at depth `k` was the last element of the listing of its
parent and `|` with four blanks otherwise, followed by `#-->` if the entry is the
last element of the listing of its own parent and by `|-->` otherwise. -/
theorem print_tree_prefixes (fs : FileSystem) (S : StdSort) (ign : List Str)
    (fuel : Nat) (path : Str) (w : Walk) (hfin : finite_below fs fuel path = true) :
    ∃ w', print_tree fuel fs S path [] ign w = some w' ∧
      w'.out = w.out ++ (tree_visits fs S ign fuel path []).map visit_line ∧
      ∀ v ∈ tree_visits fs S ign fuel path [],
        ∃ pre body,
          visit_line v =
            (TREE, pre ++ (if v.isLast = true then "#-->".toList else "|-->".toList)) :: body ∧
          pre.length = 5 * v.ancestors.length ∧
          ∀ (k : Nat) (b : Bool), v.ancestors[k]? = some b →
            (pre.drop (5 * k)).take 5 =
              (if b = true then "     ".toList else "|    ".toList) := by
  refine ⟨w.extend (tree_lines fs S ign fuel path []), ?_, ?_, ?_⟩
  · rw [print_tree_eq, if_pos hfin]
  · have := tree_lines_visits fs S ign fuel path []
    rw [show segments [] = ([] : Str) from rfl] at this
    rw [← this]
    rfl
  · intro v _
    obtain ⟨body, hbody⟩ := visit_line_marker v
    refine ⟨segments v.ancestors, body, ?_, segments_length _, ?_⟩
    · rw [hbody]
      cases v.isLast <;> rfl
    · intro k b hk
      rw [segments_get _ k b hk]
      cases b <;> rfl

/-- C15 on the three-level tree `E:\r`: `deep.md` at depth 2 lies below `docs` (not
last) and `sub` (last), so its line is `|`, four blanks, five blanks, `#-->deep.md`. -/
theorem print_tree_prefixes_witness :
    finite_below nestedFs 3 "E:\\r".toList = true ∧
    (∃ w', print_tree 3 nestedFs insertionSort "E:\\r".toList [] []
          { out := [], folderCount := 0, fileCount := 0 } = some w' ∧
      w'.out = [] ++ (tree_visits nestedFs insertionSort [] 3 "E:\\r".toList []).map visit_line ∧
      ∀ v ∈ tree_visits nestedFs insertionSort [] 3 "E:\\r".toList [],
        ∃ pre body,
          visit_line v =
            (TREE, pre ++ (if v.isLast = true then "#-->".toList else "|-->".toList)) :: body ∧
          pre.length = 5 * v.ancestors.length ∧
          ∀ (k : Nat) (b : Bool), v.ancestors[k]? = some b →
            (pre.drop (5 * k)).take 5 =
              (if b = true then "     ".toList else "|    ".toList)) ∧
    tree_visits nestedFs insertionSort [] 3 "E:\\r".toList [] =
      [{ ancestors := [], isLast := false, isDir := true, name := "docs".toList },
       { ancestors := [false], isLast := true, isDir := true, name := "sub".toList },
       { ancestors := [false, true], isLast := true, isDir := false, name := "deep.md".toList },
       { ancestors := [], isLast := false, isDir := true, name := "old.cpp".toList },
       { ancestors := [false], isLast := false, isDir := false, name := "a.cpp".toList },
       { ancestors := [false], isLast := true, isDir := false, name := "b.txt".toList },
       { ancestors := [], isLast := true, isDir := false, name := "z.cpp".toList }] ∧
    (tree_visits nestedFs insertionSort [] 3 "E:\\r".toList []).map
        (fun v => lineText (visit_line v)) =
      ["|-->[docs]".toList, "|    #-->[sub]".toList, "|         #-->deep.md".toList,
       "|-->[old.cpp]".toList, "|    |-->a.cpp".toList, "|    #-->b.txt".toList,
       "#-->z.cpp".toList] :=
  ⟨by decide,
   print_tree_prefixes nestedFs insertionSort [] 3 "E:\\r".toList
     { out := [], folderCount := 0, fileCount := 0 } (by decide),
   by decide, by decide⟩

/-- C16, where the claim fails: the directory `H:\big` is a finite tree with 2^31
files, none of them ignored; started with both counters 0, `print_tree` returns,
under every `std::sort`, with `fileCount` at `INT_MIN`, not at the number of files. -/
theorem file_counter_wraps :
    finite_below hugeFs 1 "H:\\big".toList = true ∧
    ((files_below hugeFs 1 "H:\\big".toList).filter
      (fun f => !is_ignored_extension f [])).length = 2147483648 ∧
    (∀ S : StdSort, ∃ w', print_tree 1 hugeFs S "H:\\big".toList [] []
        { out := [], folderCount := 0, fileCount := 0 } = some w' ∧
      w'.fileCount = -2147483648 ∧
      w'.fileCount ≠ (((files_below hugeFs 1 "H:\\big".toList).filter
        (fun f => !is_ignored_extension f [])).length : Nat)) := by
  have hlen : ((files_below hugeFs 1 "H:\\big".toList).filter
      (fun f => !is_ignored_extension f [])).length = 2147483648 := by
    rw [files_below_hugeFs, List.filter_eq_self.mpr, hugeNames_length]
    intro f _
    rw [is_ignored_extension_nil]
    rfl
  refine ⟨finite_below_hugeFs, hlen, ?_⟩
  intro S
  have hcount : (({ out := [], folderCount := 0, fileCount := 0 } : Walk).extend
      (tree_lines hugeFs S [] 1 "H:\\big".toList [])).fileCount = -2147483648 := by
    show Nat.iterate int_incr _ 0 = _
    rw [tree_lines_file_count, hlen, int_incr_iterate_wrap]
    rfl
  refine ⟨({ out := [], folderCount := 0, fileCount := 0 } : Walk).extend
      (tree_lines hugeFs S [] 1 "H:\\big".toList []), ?_, hcount, ?_⟩
  · rw [print_tree_eq, if_pos finite_below_hugeFs]
  · rw [hcount, hlen]
    decide

/-- C16, amended: on a finite tree with at most `INT_MAX` directories below the root
and at most `INT_MAX` files that are not ignored, started with both counters 0,
`print_tree` ends with `folderCount` the number of directories at any depth below
the root (whatever their names) and `fileCount` the number of files at any depth
that are not ignored, and it has written as many lines as the two counters
together. -/
theorem print_tree_totals (fs : FileSystem) (S : StdSort) (ign : List Str)
    (fuel : Nat) (path pre : Str) (out : List Line)
    (hfin : finite_below fs fuel path = true)
    (hdirs : (dirs_below fs fuel path).length ≤ 2147483647)
    (hfiles : ((files_below fs fuel path).filter
      (fun f => !is_ignored_extension f ign)).length ≤ 2147483647) :
    ∃ w' lines,
      print_tree fuel fs S path pre ign { out := out, folderCount := 0, fileCount := 0 } =
        some w' ∧
      w'.out = out ++ lines ∧
      w'.folderCount = ((dirs_below fs fuel path).length : Nat) ∧
      w'.fileCount =
        (((files_below fs fuel path).filter (fun f => !is_ignored_extension f ign)).length : Nat) ∧
      ((lines.length : Nat) : Int) = w'.folderCount + w'.fileCount := by
  have hfolders := tree_lines_folder_count fs S ign fuel path pre
  have hfilesc := tree_lines_file_count fs S ign fuel path pre
  have h1 : Nat.iterate int_incr (dirs_below fs fuel path).length 0 =
      ((dirs_below fs fuel path).length : Nat) := by
    rw [int_incr_iterate _ 0 (by unfold INT_MAX; omega), zero_add]
  have h2 : Nat.iterate int_incr
        ((files_below fs fuel path).filter (fun f => !is_ignored_extension f ign)).length 0 =
      (((files_below fs fuel path).filter
        (fun f => !is_ignored_extension f ign)).length : Nat) := by
    rw [int_incr_iterate _ 0 (by unfold INT_MAX; omega), zero_add]
  refine ⟨({ out := out, folderCount := 0, fileCount := 0 } : Walk).extend
      (tree_lines fs S ign fuel path pre), tree_lines fs S ign fuel path pre, ?_, rfl, ?_, ?_, ?_⟩
  · rw [print_tree_eq, if_pos hfin]
  · simp only [Walk.extend, hfolders, h1]
  · simp only [Walk.extend, hfilesc, h2]
  · simp only [Walk.extend, hfolders, hfilesc, h1, h2]
    rw [length_folder_file _ (tree_lines_shape fs S ign fuel path pre), hfolders, hfilesc]
    push_cast
    rfl

/-- C16 on the tree `E:\r` with `.cpp` ignored: the directory `old.cpp` is counted,
the files `a.cpp` and `z.cpp` are not; 3 folders, 2 files, 5 lines. -/
theorem print_tree_totals_witness :
    finite_below nestedFs 3 "E:\\r".toList = true ∧
    (dirs_below nestedFs 3 "E:\\r".toList).length ≤ 2147483647 ∧
    ((files_below nestedFs 3 "E:\\r".toList).filter
      (fun f => !is_ignored_extension f [".cpp".toList])).length ≤ 2147483647 ∧
    (∃ w' lines,
      print_tree 3 nestedFs insertionSort "E:\\r".toList [] [".cpp".toList]
        { out := [], folderCount := 0, fileCount := 0 } = some w' ∧
      w'.out = [] ++ lines ∧
      w'.folderCount = ((dirs_below nestedFs 3 "E:\\r".toList).length : Nat) ∧
      w'.fileCount =
        (((files_below nestedFs 3 "E:\\r".toList).filter
          (fun f => !is_ignored_extension f [".cpp".toList])).length : Nat) ∧
      ((lines.length : Nat) : Int) = w'.folderCount + w'.fileCount) ∧
    dirs_below nestedFs 3 "E:\\r".toList = ["old.cpp".toList, "docs".toList, "sub".toList] ∧
    (files_below nestedFs 3 "E:\\r".toList).filter
        (fun f => !is_ignored_extension f [".cpp".toList]) =
      ["b.txt".toList, "deep.md".toList] ∧
    print_tree 3 nestedFs insertionSort "E:\\r".toList [] [".cpp".toList]
        { out := [], folderCount := 0, fileCount := 0 } =
      some { out := [[(TREE, "|-->".toList), (FOLDER, "[docs]".toList)],
                     [(TREE, "|    #-->".toList), (FOLDER, "[sub]".toList)],
                     [(TREE, "|         #-->".toList), (DEFAULT, "deep".toList),
                      (EXTENSION, ".md".toList)],
                     [(TREE, "|-->".toList), (FOLDER, "[old.cpp]".toList)],
                     [(TREE, "|    #-->".toList), (DEFAULT, "b".toList),
                      (EXTENSION, ".txt".toList)]],
             folderCount := 3, fileCount := 2 } :=
  ⟨by decide, by decide, by decide,
   print_tree_totals nestedFs insertionSort [".cpp".toList] 3 "E:\\r".toList [] []
     (by decide) (by decide) (by decide),
   by decide, by decide, by decide⟩

/-- C17: on a finite tree the output of `print_tree` on a directory is the
concatenation, over its sorted entries in order, of the line of the entry (if it is
written) followed at once, for a directory, by the complete output of `print_tree`
on that directory, which returns. -/
theorem print_tree_preorder (fs : FileSystem) (S : StdSort) (ign : List Str)
    (fuel : Nat) (path pre : Str) (w : Walk)
    (hfin : finite_below fs (fuel + 1) path = true) :
    ∃ w', print_tree (fuel + 1) fs S path pre ign w = some w' ∧
      w'.out = w.out ++
        ((get_directory_entries fs S path).enumFrom 0).flatMap (fun p =>
          if fs.is_directory (full_path path p.2) then
            folder_line pre (p.1 == (get_directory_entries fs S path).length - 1) p.2 ::
              print_tree_output fuel fs S ign (full_path path p.2)
                (pre ++ indent (p.1 == (get_directory_entries fs S path).length - 1))
          else if is_ignored_extension p.2 ign then []
          else [file_line pre (p.1 == (get_directory_entries fs S path).length - 1) p.2]) ∧
      ∀ item ∈ get_directory_entries fs S path, fs.is_directory (full_path path item) = true →
        ∀ q v, ∃ v', print_tree fuel fs S (full_path path item) q ign v = some v' := by
  have hsub : ∀ item ∈ get_directory_entries fs S path,
      fs.is_directory (full_path path item) = true →
      finite_below fs fuel (full_path path item) = true := by
    intro item hitem hd
    rw [finite_below, List.all_eq_true] at hfin
    have := hfin item ((S.perm _ _).mem_iff.mp hitem)
    simpa [hd] using this
  refine ⟨w.extend (tree_lines fs S ign (fuel + 1) path pre), ?_, ?_, ?_⟩
  · rw [print_tree_eq, if_pos hfin]
  · have h1 : tree_lines fs S ign (fuel + 1) path pre =
        loop_lines fs (print_tree_output fuel fs S ign) path pre ign
          (get_directory_entries fs S path).length 0 (get_directory_entries fs S path) := by
      rw [tree_lines]
      refine loop_lines_congr fs _ _ path ign _ _ ?_ pre 0
      intro item hitem hd q
      rw [print_tree_output_eq fs S ign fuel _ q (hsub item hitem hd)]
    simp only [Walk.extend]
    rw [h1, loop_lines_enum]
    rfl
  · intro item hitem hd q v
    exact ⟨_, by rw [print_tree_eq, if_pos (hsub item hitem hd)]⟩

/-- C17 on the tree `E:\r`: the lines of `docs` and of everything below it come
directly after `[docs]` and before `[old.cpp]`. -/
theorem print_tree_preorder_witness :
    finite_below nestedFs (2 + 1) "E:\\r".toList = true ∧
    (∃ w', print_tree (2 + 1) nestedFs insertionSort "E:\\r".toList [] []
          { out := [], folderCount := 0, fileCount := 0 } = some w' ∧
      w'.out = [] ++
        ((get_directory_entries nestedFs insertionSort "E:\\r".toList).enumFrom 0).flatMap
          (fun p =>
            if nestedFs.is_directory (full_path "E:\\r".toList p.2) then
              folder_line []
                  (p.1 == (get_directory_entries nestedFs insertionSort "E:\\r".toList).length - 1)
                  p.2 ::
                print_tree_output 2 nestedFs insertionSort [] (full_path "E:\\r".toList p.2)
                  ([] ++ indent
                    (p.1 == (get_directory_entries nestedFs insertionSort "E:\\r".toList).length - 1))
            else if is_ignored_extension p.2 [] then []
            else [file_line []
                  (p.1 == (get_directory_entries nestedFs insertionSort "E:\\r".toList).length - 1)
                  p.2]) ∧
      ∀ item ∈ get_directory_entries nestedFs insertionSort "E:\\r".toList,
        nestedFs.is_directory (full_path "E:\\r".toList item) = true →
        ∀ q v, ∃ v', print_tree 2 nestedFs insertionSort (full_path "E:\\r".toList item) q [] v =
          some v') ∧
    (print_tree_output 3 nestedFs insertionSort [] "E:\\r".toList []).map lineText =
      ["|-->[docs]".toList, "|    #-->[sub]".toList, "|         #-->deep.md".toList,
       "|-->[old.cpp]".toList, "|    |-->a.cpp".toList, "|    #-->b.txt".toList,
       "#-->z.cpp".toList] ∧
    (print_tree_output 2 nestedFs insertionSort [] "E:\\r\\docs".toList "|    ".toList).map
        lineText =
      ["|    #-->[sub]".toList, "|         #-->deep.md".toList] :=
  ⟨by decide,
   print_tree_preorder nestedFs insertionSort [] 2 "E:\\r".toList []
     { out := [], folderCount := 0, fileCount := 0 } (by decide),
   by decide, by decide⟩

/-- C18: on a finite tree the lines `print_tree` writes with an ignore list are
exactly the lines it writes with the empty list from which the lines of the ignored
files are deleted, every other line unchanged; the folder lines and `folderCount`
are the same for both. -/
theorem print_tree_ignore_filter (fs : FileSystem) (S : StdSort) (ign : List Str)
    (fuel : Nat) (path pre : Str) (w : Walk) (hfin : finite_below fs fuel path = true) :
    ∃ w₁ w₀ lines₁ lines₀,
      print_tree fuel fs S path pre ign w = some w₁ ∧
      print_tree fuel fs S path pre [] w = some w₀ ∧
      w₁.out = w.out ++ lines₁ ∧ w₀.out = w.out ++ lines₀ ∧
      lines₁ = lines₀.filter
        (fun l => !(is_file_line l && is_ignored_extension (entry_name l) ign)) ∧
      lines₁.filter is_folder_line = lines₀.filter is_folder_line ∧
      w₁.folderCount = w₀.folderCount := by
  have hf := tree_lines_filter fs S ign fuel path pre
  have hfold : (tree_lines fs S ign fuel path pre).filter is_folder_line =
      (tree_lines fs S [] fuel path pre).filter is_folder_line := by
    rw [hf, filter_folder_of_visible]
  refine ⟨w.extend (tree_lines fs S ign fuel path pre),
    w.extend (tree_lines fs S [] fuel path pre),
    tree_lines fs S ign fuel path pre, tree_lines fs S [] fuel path pre,
    ?_, ?_, rfl, rfl, hf, hfold, ?_⟩
  · rw [print_tree_eq, if_pos hfin]
  · rw [print_tree_eq, if_pos hfin]
  · simp only [Walk.extend, hfold]

/-- C18 on the tree `E:\r` with `.cpp` ignored: the lines of `a.cpp` and `z.cpp` are
missing, `[old.cpp]` stays and the line of `b.txt` keeps its `#-->`. -/
theorem print_tree_ignore_filter_witness :
    finite_below nestedFs 3 "E:\\r".toList = true ∧
    (∃ w₁ w₀ lines₁ lines₀,
      print_tree 3 nestedFs insertionSort "E:\\r".toList [] [".cpp".toList]
        { out := [], folderCount := 0, fileCount := 0 } = some w₁ ∧
      print_tree 3 nestedFs insertionSort "E:\\r".toList [] []
        { out := [], folderCount := 0, fileCount := 0 } = some w₀ ∧
      w₁.out = [] ++ lines₁ ∧ w₀.out = [] ++ lines₀ ∧
      lines₁ = lines₀.filter
        (fun l => !(is_file_line l && is_ignored_extension (entry_name l) [".cpp".toList])) ∧
      lines₁.filter is_folder_line = lines₀.filter is_folder_line ∧
      w₁.folderCount = w₀.folderCount) ∧
    (print_tree_output 3 nestedFs insertionSort [".cpp".toList] "E:\\r".toList []).map lineText =
      ["|-->[docs]".toList, "|    #-->[sub]".toList, "|         #-->deep.md".toList,
       "|-->[old.cpp]".toList, "|    #-->b.txt".toList] ∧
    (print_tree_output 3 nestedFs insertionSort [] "E:\\r".toList []).map lineText =
      ["|-->[docs]".toList, "|    #-->[sub]".toList, "|         #-->deep.md".toList,
       "|-->[old.cpp]".toList, "|    |-->a.cpp".toList, "|    #-->b.txt".toList,
       "#-->z.cpp".toList] :=
  ⟨by decide,
   print_tree_ignore_filter nestedFs insertionSort [".cpp".toList] 3 "E:\\r".toList []
     { out := [], folderCount := 0, fileCount := 0 } (by decide),
   by decide, by decide⟩

/-- C19: an element that does not start with `.`, or that holds a `.` at an index
from 1 on, makes `is_ignored_extension` false for every file name; the token
`tar.gz` is normalised to `.tar.gz`, with which `a.tar.gz` is still written, while
`.gz` hides it. -/
theorem single_dot_suffix_only (S : StdSort) (fuel : Nat) :
    (∀ e f : Str, (e.head? ≠ some '.' ∨ '.' ∈ e.drop 1) →
      is_ignored_extension f [e] = false) ∧
    parse_ignored_extensions S "tar.gz".toList = [".tar.gz".toList] ∧
    print_tree (fuel + 1) archiveFs S "F:\\pkg".toList []
        (parse_ignored_extensions S "tar.gz".toList)
        { out := [], folderCount := 0, fileCount := 0 } =
      some { out := [[(TREE, "#-->".toList), (DEFAULT, "a.tar".toList),
                      (EXTENSION, ".gz".toList)]],
             folderCount := 0, fileCount := 1 } ∧
    print_tree (fuel + 1) archiveFs S "F:\\pkg".toList [] [".gz".toList]
        { out := [], folderCount := 0, fileCount := 0 } =
      some { out := [], folderCount := 0, fileCount := 0 } := by
  have hparse : parse_ignored_extensions S "tar.gz".toList = [".tar.gz".toList] :=
    parse_single S _ _ (by decide)
  refine ⟨not_ignored_of_dots, hparse, ?_, ?_⟩
  · rw [hparse, print_tree_sort archiveFs S insertionSort _ archiveFs_distinct, Nat.add_comm]
    exact print_tree_fuel archiveFs insertionSort _ 1 _ _ _ _ (by decide) fuel
  · rw [print_tree_sort archiveFs S insertionSort _ archiveFs_distinct, Nat.add_comm]
    exact print_tree_fuel archiveFs insertionSort _ 1 _ _ _ _ (by decide) fuel

/-- C19 at the element `.tar.gz` and the name `a.tar.gz`, and at an element without
a leading dot. -/
theorem single_dot_suffix_only_witness :
    ('.' ∈ ".tar.gz".toList.drop 1) ∧
    is_ignored_extension "a.tar.gz".toList [".tar.gz".toList] = false ∧
    is_ignored_extension "a.gz".toList ["gz".toList] = false ∧
    is_ignored_extension "a.tar.gz".toList [".gz".toList] = true :=
  ⟨by decide,
   (single_dot_suffix_only insertionSort 0).1 ".tar.gz".toList "a.tar.gz".toList
     (Or.inr (by decide)),
   (single_dot_suffix_only insertionSort 0).1 "gz".toList "a.gz".toList
     (Or.inl (by decide)),
   by decide⟩

/-- C20: the traversal with the domains of `path.back()` and `items.size() - 1`
checked ends exactly as the unchecked one, never with a domain fault, for every
path; for a path that trims to nothing `get_directory_entries` is empty and
`print_tree` returns its state unchanged; a listing with entries has a non-empty
path; and in `trim` a first non-blank index `a` comes with a last one `b` with
`a ≤ b`, inside the string, so `b - a + 1` does not underflow. -/
theorem partial_operations_in_domain (fs : FileSystem) (S : StdSort) (ign : List Str) :
    (∀ (fuel : Nat) (path pre : Str) (w : Walk),
      print_tree_checked fuel fs S path pre ign w =
        Outcome.ofOption (print_tree fuel fs S path pre ign w) ∧
      print_tree_checked fuel fs S path pre ign w ≠ Outcome.outside) ∧
    (∀ path : Str, trim path = [] →
      get_directory_entries fs S path = [] ∧
      ∀ (fuel : Nat) (pre : Str) (w : Walk),
        print_tree (fuel + 1) fs S path pre ign w = some w ∧
        print_tree_checked (fuel + 1) fs S path pre ign w = Outcome.done w) ∧
    (∀ path : Str, get_directory_entries fs S path ≠ [] →
      path ≠ [] ∧ 0 < (get_directory_entries fs S path).length) ∧
    (∀ s : Str, trim_checked s = some (trim s)) ∧
    (∀ (s : Str) (a : Nat), find_first_not_of s = some a →
      ∃ b, find_last_not_of s = some b ∧ a ≤ b ∧ b < s.length) := by
  refine ⟨?_, ?_, ?_, trim_checked_eq, ?_⟩
  · intro fuel path pre w
    have h := print_tree_checked_eq fs S ign fuel path pre w
    refine ⟨h, ?_⟩
    rw [h]
    cases print_tree fuel fs S path pre ign w with
    | none => intro hc; cases hc
    | some w' => intro hc; cases hc
  · intro path hblank
    have hnil := get_directory_entries_blank fs S path hblank
    refine ⟨hnil, ?_⟩
    intro fuel pre w
    have h1 : print_tree (fuel + 1) fs S path pre ign w = some w := by
      simp only [print_tree, hnil]
      rfl
    refine ⟨h1, ?_⟩
    rw [print_tree_checked_eq, h1]
    rfl
  · intro path hne
    refine ⟨path_ne_nil_of_entries fs S path hne, ?_⟩
    exact List.length_pos.mpr hne
  · intro s a ha
    obtain ⟨b, hb, hab⟩ := find_first_le_last _ s a ha
    exact ⟨b, hb, hab, find_last_lt _ s b hb⟩

/-- C20 at the empty path, at a path of blanks, and on the scenario; `trim` on
`  a b ` finds `a = 2` and `b = 4`. -/
theorem partial_operations_in_domain_witness :
    trim ([] : Str) = [] ∧
    (get_directory_entries projFs insertionSort [] = [] ∧
      ∀ (fuel : Nat) (pre : Str) (w : Walk),
        print_tree (fuel + 1) projFs insertionSort [] pre [] w = some w ∧
        print_tree_checked (fuel + 1) projFs insertionSort [] pre [] w = Outcome.done w) ∧
    trim " \t ".toList = [] ∧
    (get_directory_entries projFs insertionSort " \t ".toList = [] ∧
      ∀ (fuel : Nat) (pre : Str) (w : Walk),
        print_tree (fuel + 1) projFs insertionSort " \t ".toList pre [] w = some w ∧
        print_tree_checked (fuel + 1) projFs insertionSort " \t ".toList pre [] w =
          Outcome.done w) ∧
    find_first_not_of "  a b ".toList = some 2 ∧
    (∃ b, find_last_not_of "  a b ".toList = some b ∧ 2 ≤ b ∧ b < "  a b ".toList.length) ∧
    find_last_not_of "  a b ".toList = some 4 ∧
    trim_checked "  a b ".toList = some "a b".toList ∧
    print_tree_checked 2 projFs insertionSort "C:\\proj".toList [] []
        { out := [], folderCount := 0, fileCount := 0 } =
      Outcome.done
        { out := [[(TREE, "|-->".toList), (DEFAULT, "readme".toList), (EXTENSION, ".md".toList)],
                  [(TREE, "#-->".toList), (FOLDER, "[src]".toList)],
                  [(TREE, "     #-->".toList), (DEFAULT, "main".toList),
                   (EXTENSION, ".cpp".toList)]],
          folderCount := 1, fileCount := 2 } :=
  ⟨by decide,
   (partial_operations_in_domain projFs insertionSort []).2.1 [] (by decide),
   by decide,
   (partial_operations_in_domain projFs insertionSort []).2.1 " \t ".toList (by decide),
   by decide,
   (partial_operations_in_domain projFs insertionSort []).2.2.2.2 "  a b ".toList 2 (by decide),
   by decide, by decide, by decide⟩

end InterScan
